import Mathlib

/-!
Guest memory of the dynarmic backend (unidbg)

A shallow embedding of the page store and of the memory control plane of
`unidbg-dynarmic/src/main/native/dynarmic/dynarmic.cpp`
(`mem_map`, `mem_unmap`, `mem_protect`, `mem_write`, `mem_read`, `get_memory`).

Conventions of the embedding

* `jlong` / `long` values are `Int`s of the signed 64-bit range; every C
  addition and subtraction on them is followed by `wrap64` (two's complement).
  Signed overflow is undefined in C: statements about the defined behaviour
  carry the hypothesis that the sums involved stay inside the signed range.
* The khash table `khash_t(memory)` is an association list from page base to
  page; a page is its host buffer (a list of bytes) and its permission word.
* The `for` loops are structurally recursive on a fuel counter. `none` is the
  outcome "the loop did not leave within `LOOP_FUEL` steps"; the top-level
  functions pass `LOOP_FUEL = 2^52 + 1`, one more than the number of page
  bases of a 64-bit address space. Every statement that a call returns is
  proved with this fuel, as an equation `... = some ...`.
* The host `mmap` of `mem_map` may fail; `mmap_ok vaddr` says whether the one
  issued for the page at `vaddr` succeeds.
* Ranges `[address, address + size)` are read on the signed values the code
  compares: a negative `size` gives an empty range.
-/

namespace Unidbg

/-! ## Machine integers -/

/-- A byte of guest memory (`char`, `jbyte`, `u8`: eight bits). -/
abbrev Byte := Fin 256

/-- Reduction of an integer to the signed 64-bit range (two's complement). -/
def wrap64 (x : Int) : Int := (x + 2 ^ 63) % 2 ^ 64 - 2 ^ 63

/-- Modelled from the spec: the macro `PAGE_SIZE` of `dynarmic.h`, which is not
part of the sources at hand ("Page size is fixed at 4096 bytes"). -/
def PAGE_SIZE : Int := 4096

/-- Modelled from the spec: the macro `PAGE_MASK` of `dynarmic.h`, which is not
part of the sources at hand; the low twelve bits, `PAGE_SIZE - 1`. -/
def PAGE_MASK : Int := 4095

/-- The C expression `x & PAGE_MASK` on a two's complement integer: the low
twelve bits of `x`, that is the Euclidean remainder of `x` by 4096
(`and_PAGE_MASK_eq_land` identifies it with `Int.land x PAGE_MASK`). -/
def and_PAGE_MASK (x : Int) : Int := x % (PAGE_MASK + 1)

/-- The C expression `x & ~PAGE_MASK`: `x` with its low twelve bits cleared
(`and_not_PAGE_MASK_eq_land` identifies it with the bitwise expression). -/
def and_not_PAGE_MASK (x : Int) : Int := x - x % (PAGE_MASK + 1)

/-! ## The page store -/

/-- The record `struct memory_page`: the host buffer behind `addr` and the
guest permission word `perms`. -/
structure memory_page where
  addr : List Byte
  perms : Int
deriving DecidableEq

/-- The table `khash_t(memory)`: page base to page. -/
abbrev khash_memory := List (Int × memory_page)

/-- Lookup `kh_get` followed by `kh_value`; `none` stands for `kh_end`. -/
def kh_get : khash_memory → Int → Option memory_page
  | [], _ => none
  | (k, page) :: rest, key => if k = key then some page else kh_get rest key

/-- A store through the page pointer held in the bucket of `key`. -/
def kh_update : khash_memory → Int → (memory_page → memory_page) → khash_memory
  | [], _, _ => []
  | (k, page) :: rest, key, f =>
    if k = key then (k, f page) :: rest else (k, page) :: kh_update rest key f

/-- The pair `kh_put` then `kh_value(memory, k) = page`: a fresh bucket when
the key is absent, the bucket of the key otherwise. -/
def kh_put_value (memory : khash_memory) (key : Int) (page : memory_page) : khash_memory :=
  match kh_get memory key with
  | none => (key, page) :: memory
  | some _ => kh_update memory key (fun _ => page)

/-- Deletion `kh_del` of the bucket of `key`. -/
def kh_del (memory : khash_memory) (key : Int) : khash_memory :=
  memory.filter (fun e => decide (e.1 ≠ key))

/-- The buffer returned by an anonymous `mmap` of one page: zero filled. -/
def fresh_page_buffer : List Byte := List.replicate PAGE_SIZE.toNat 0

/-- The libc call `memcpy(dest + start, src, len)` on a buffer `dest`. -/
def memcpy (dest : List Byte) (start : Nat) (src : List Byte) (len : Nat) : List Byte :=
  dest.take start ++ src.take len ++ dest.drop (start + len)

/-- Number of loop steps granted to the page loops. -/
def LOOP_FUEL : Nat := 2 ^ 52 + 1

/-- A host pointer into a page buffer as returned by `get_memory`: the page
found under `base` and the offset `off` inside its buffer. -/
structure host_ptr where
  base : Int
  page : memory_page
  off : Nat
deriving DecidableEq

/-- The function `get_memory`: the page of `vaddr` and the offset inside it, or
`none` for `NULL`. -/
def get_memory (memory : khash_memory) (vaddr : Int) : Option host_ptr :=
  let base := and_not_PAGE_MASK vaddr
  let off := wrap64 (vaddr - base)
  match kh_get memory base with
  | none => none
  | some page => some ⟨base, page, off.toNat⟩

/-- The byte `dest[0]` behind `get_memory(memory, vaddr)`, when there is one. -/
def guest_byte (memory : khash_memory) (vaddr : Int) : Option Byte :=
  match get_memory memory vaddr with
  | none => none
  | some p => p.page.addr[p.off]?

/-! ## The memory control plane -/

/-- The page loop of `mem_unmap`. -/
def mem_unmap_loop (vaddr_end : Int) : Nat → khash_memory → Int → Option (Int × khash_memory)
  | 0, _, _ => none
  | fuel + 1, memory, vaddr =>
    if vaddr < vaddr_end then
      match kh_get memory vaddr with
      | none => some (3, memory)
      | some _ => mem_unmap_loop vaddr_end fuel (kh_del memory vaddr) (wrap64 (vaddr + PAGE_SIZE))
    else some (0, memory)

/-- The function `mem_unmap`: return code and page store afterwards. -/
def mem_unmap (memory : khash_memory) (address size : Int) : Option (Int × khash_memory) :=
  if and_PAGE_MASK address ≠ 0 then some (1, memory)
  else if size = 0 ∨ and_PAGE_MASK size ≠ 0 then some (2, memory)
  else mem_unmap_loop (wrap64 (address + size)) LOOP_FUEL memory address

/-- The page loop of `mem_map`; `mmap_ok vaddr` tells whether the host `mmap`
issued for the page at `vaddr` succeeds. -/
def mem_map_loop (mmap_ok : Int → Bool) (perms : Int) (vaddr_end : Int) :
    Nat → khash_memory → Int → Option (Int × khash_memory)
  | 0, _, _ => none
  | fuel + 1, memory, vaddr =>
    if vaddr < vaddr_end then
      if (kh_get memory vaddr).isSome then some (3, memory)
      else if mmap_ok vaddr = false then some (4, memory)
      else mem_map_loop mmap_ok perms vaddr_end fuel
        (kh_put_value memory vaddr ⟨fresh_page_buffer, perms⟩) (wrap64 (vaddr + PAGE_SIZE))
    else some (0, memory)

/-- The function `mem_map`: return code and page store afterwards. -/
def mem_map (mmap_ok : Int → Bool) (memory : khash_memory) (address size perms : Int) :
    Option (Int × khash_memory) :=
  if and_PAGE_MASK address ≠ 0 then some (1, memory)
  else if size = 0 ∨ and_PAGE_MASK size ≠ 0 then some (2, memory)
  else mem_map_loop mmap_ok perms (wrap64 (address + size)) LOOP_FUEL memory address

/-- The assignment `page->perms = perms`. -/
def set_perms (perms : Int) (page : memory_page) : memory_page :=
  { page with perms := perms }

/-- The page loop of `mem_protect`. -/
def mem_protect_loop (perms : Int) (vaddr_end : Int) :
    Nat → khash_memory → Int → Option (Int × khash_memory)
  | 0, _, _ => none
  | fuel + 1, memory, vaddr =>
    if vaddr < vaddr_end then
      match kh_get memory vaddr with
      | none => some (3, memory)
      | some _ => mem_protect_loop perms vaddr_end fuel
          (kh_update memory vaddr (set_perms perms)) (wrap64 (vaddr + PAGE_SIZE))
    else some (0, memory)

/-- The function `mem_protect`: return code and page store afterwards. -/
def mem_protect (memory : khash_memory) (address size perms : Int) :
    Option (Int × khash_memory) :=
  if and_PAGE_MASK address ≠ 0 then some (1, memory)
  else if size = 0 ∨ and_PAGE_MASK size ≠ 0 then some (2, memory)
  else mem_protect_loop perms (wrap64 (address + size)) LOOP_FUEL memory address

/-- The page loop of `mem_write`; `src` is what is left of the byte array. -/
def mem_write_loop (address vaddr_end : Int) :
    Nat → khash_memory → Int → List Byte → Option (Int × khash_memory)
  | 0, _, _, _ => none
  | fuel + 1, memory, vaddr, src =>
    if vaddr < vaddr_end then
      let start := if vaddr < address then wrap64 (address - vaddr) else 0
      let end_ := if wrap64 (vaddr + PAGE_SIZE) ≤ vaddr_end then PAGE_SIZE
        else wrap64 (vaddr_end - vaddr)
      let len := wrap64 (end_ - start)
      match kh_get memory vaddr with
      | none => some (1, memory)
      | some _ => mem_write_loop address vaddr_end fuel
          (kh_update memory vaddr
            (fun page => { page with addr := memcpy page.addr start.toNat src len.toNat }))
          (wrap64 (vaddr + PAGE_SIZE)) (src.drop len.toNat)
    else some (0, memory)

/-- The function `mem_write`: return code and page store afterwards. -/
def mem_write (memory : khash_memory) (address : Int) (bytes : List Byte) :
    Option (Int × khash_memory) :=
  let size : Int := bytes.length
  let vaddr_end := wrap64 (address + size)
  mem_write_loop address vaddr_end LOOP_FUEL memory (and_not_PAGE_MASK address) bytes

/-- The page loop of `mem_read`; `bytes` is the Java array being filled (`none`
when `NewByteArray` gave `NULL`), `dest` the index of the next region. The
inner `none` of the result is the `NULL` return; filling a `NULL` array has no
defined outcome and gives the outer `none`. -/
def mem_read_loop (memory : khash_memory) (address vaddr_end : Int) :
    Nat → Option (List Byte) → Int → Int → Option (Option (List Byte))
  | 0, _, _, _ => none
  | fuel + 1, bytes, dest, vaddr =>
    if vaddr < vaddr_end then
      let start := if vaddr < address then wrap64 (address - vaddr) else 0
      let end_ := if wrap64 (vaddr + PAGE_SIZE) ≤ vaddr_end then PAGE_SIZE
        else wrap64 (vaddr_end - vaddr)
      let len := wrap64 (end_ - start)
      match kh_get memory vaddr with
      | none => some none
      | some page =>
        match bytes with
        | none => none
        | some b => mem_read_loop memory address vaddr_end fuel
            (some (memcpy b dest.toNat (page.addr.drop start.toNat) len.toNat))
            (wrap64 (dest + len)) (wrap64 (vaddr + PAGE_SIZE))
    else some bytes

/-- The function `mem_read`: the byte array, `some none` for the `NULL` return. -/
def mem_read (memory : khash_memory) (address size : Int) : Option (Option (List Byte)) :=
  let bytes : Option (List Byte) :=
    if 0 ≤ size then some (List.replicate size.toNat 0) else none
  let vaddr_end := wrap64 (address + size)
  mem_read_loop memory address vaddr_end LOOP_FUEL bytes 0 (and_not_PAGE_MASK address)

/-! ## Runs of whole pages -/

/-- The page store after `j` consecutive pages, the first at `vaddr`, have been
treated by `step`, lowest page first. -/
def iter_pages (step : khash_memory → Int → khash_memory) :
    Nat → khash_memory → Int → khash_memory
  | 0, memory, _ => memory
  | j + 1, memory, vaddr => iter_pages step j (step memory vaddr) (vaddr + 4096)

/-- The key `k` is the base of one of the `j` consecutive pages from `vaddr`. -/
def in_pages (vaddr : Int) (j : Nat) (k : Int) : Prop :=
  vaddr ≤ k ∧ k < vaddr + 4096 * j ∧ (k - vaddr) % 4096 = 0

instance (vaddr : Int) (j : Nat) (k : Int) : Decidable (in_pages vaddr j k) := by
  unfold in_pages; exact inferInstance

/-- One step of the `mem_map` loop on the store. -/
def map_step (perms : Int) (memory : khash_memory) (vaddr : Int) : khash_memory :=
  kh_put_value memory vaddr ⟨fresh_page_buffer, perms⟩

/-- One step of the `mem_unmap` loop on the store. -/
def unmap_step (memory : khash_memory) (vaddr : Int) : khash_memory :=
  kh_del memory vaddr

/-- One step of the `mem_protect` loop on the store. -/
def protect_step (perms : Int) (memory : khash_memory) (vaddr : Int) : khash_memory :=
  kh_update memory vaddr (set_perms perms)

/-- Every host buffer of the store is one page long, as `mmap` made it. -/
def pages_ok (memory : khash_memory) : Prop :=
  ∀ e ∈ memory, e.2.addr.length = 4096

instance (memory : khash_memory) : Decidable (pages_ok memory) := by
  unfold pages_ok; exact inferInstance

/-- The value of `start` in the loops of `mem_write` and `mem_read`. -/
def seg_start (address vaddr : Int) : Int := if vaddr < address then address - vaddr else 0

/-- The value of `end` in the loops of `mem_write` and `mem_read`. -/
def seg_end (vaddr_end vaddr : Int) : Int :=
  if vaddr + 4096 ≤ vaddr_end then 4096 else vaddr_end - vaddr

/-- The store `memcpy(dest, src, len)` of one step of the `mem_write` loop. -/
def write_seg (address vaddr_end vaddr : Int) (src : List Byte) (page : memory_page) :
    memory_page :=
  let start := seg_start address vaddr
  let len := seg_end vaddr_end vaddr - start
  { page with addr := memcpy page.addr start.toNat src len.toNat }

/-! ## The accessor callbacks of the execution bridge -/

/-- The conversion of a guest address (`u32` or `u64`) to the `long` parameter
of `get_memory`. -/
def to_long (vaddr : Nat) : Int := wrap64 vaddr

/-- The `w` low bytes of `value`, least significant first: what a store of a
`w`-byte integer through a host pointer leaves in the buffer (the hosts of the
backend, x86-64 and AArch64, are little-endian). -/
def le_bytes : Nat → Nat → List Byte
  | 0, _ => []
  | w + 1, value => ⟨value % 256, Nat.mod_lt _ (by decide)⟩ :: le_bytes w (value / 256)

/-- The integer held by a run of bytes, least significant first. -/
def le_value : List Byte → Nat
  | [] => 0
  | b :: bs => b.val + 256 * le_value bs

/-- The load `dest[0]` through a pointer to a `w`-byte unsigned integer. -/
def load (dest : host_ptr) (w : Nat) : Nat :=
  le_value ((dest.page.addr.drop dest.off).take w)

/-- The store `dest[0] = value` through a pointer to a `w`-byte unsigned
integer, `dest` pointing into the page under `dest.base`. -/
def store (memory : khash_memory) (dest : host_ptr) (w value : Nat) : khash_memory :=
  let bytes := le_bytes w value
  kh_update memory dest.base (fun page => { page with addr := memcpy page.addr dest.off bytes w })

namespace UserCallbacks

/-! The bodies of `DynarmicCallbacks32` and `DynarmicCallbacks64` differ in the
type of `vaddr` only (`u32`, `u64`): they are written once, `M` being the
number of addresses of the variant (`2^32`, `2^64`), modulo which `vaddr + k`
is taken. `none` is the outcome of `abort()`. -/

/-- The callback `MemoryRead8`. -/
def MemoryRead8 (memory : khash_memory) (vaddr : Nat) : Option Nat :=
  match get_memory memory (to_long vaddr) with
  | some dest => some (load dest 1)
  | none => none

/-- The callback `MemoryRead16`. -/
def MemoryRead16 (M : Nat) (memory : khash_memory) (vaddr : Nat) : Option Nat :=
  if vaddr &&& 1 ≠ 0 then
    (MemoryRead8 memory vaddr).bind fun a =>
    (MemoryRead8 memory ((vaddr + 1) % M)).bind fun b =>
    some ((b <<< 8) ||| a)
  else
    match get_memory memory (to_long vaddr) with
    | some dest => some (load dest 2)
    | none => none

/-- The callback `MemoryRead32`. -/
def MemoryRead32 (M : Nat) (memory : khash_memory) (vaddr : Nat) : Option Nat :=
  if vaddr &&& 3 ≠ 0 then
    (MemoryRead16 M memory vaddr).bind fun a =>
    (MemoryRead16 M memory ((vaddr + 2) % M)).bind fun b =>
    some ((b <<< 16) ||| a)
  else
    match get_memory memory (to_long vaddr) with
    | some dest => some (load dest 4)
    | none => none

/-- The callback `MemoryRead64`. -/
def MemoryRead64 (M : Nat) (memory : khash_memory) (vaddr : Nat) : Option Nat :=
  if vaddr &&& 7 ≠ 0 then
    (MemoryRead32 M memory vaddr).bind fun a =>
    (MemoryRead32 M memory ((vaddr + 4) % M)).bind fun b =>
    some ((b <<< 32) ||| a)
  else
    match get_memory memory (to_long vaddr) with
    | some dest => some (load dest 8)
    | none => none

/-- The callback `MemoryWrite8`. -/
def MemoryWrite8 (memory : khash_memory) (vaddr value : Nat) : Option khash_memory :=
  match get_memory memory (to_long vaddr) with
  | some dest => some (store memory dest 1 value)
  | none => none

/-- The callback `MemoryWrite16`. -/
def MemoryWrite16 (M : Nat) (memory : khash_memory) (vaddr value : Nat) :
    Option khash_memory :=
  if vaddr &&& 1 ≠ 0 then
    (MemoryWrite8 memory vaddr (value % 2 ^ 8)).bind fun memory1 =>
    MemoryWrite8 memory1 ((vaddr + 1) % M) ((value >>> 8) % 2 ^ 8)
  else
    match get_memory memory (to_long vaddr) with
    | some dest => some (store memory dest 2 value)
    | none => none

/-- The callback `MemoryWrite32`. -/
def MemoryWrite32 (M : Nat) (memory : khash_memory) (vaddr value : Nat) :
    Option khash_memory :=
  if vaddr &&& 3 ≠ 0 then
    (MemoryWrite16 M memory vaddr (value % 2 ^ 16)).bind fun memory1 =>
    MemoryWrite16 M memory1 ((vaddr + 2) % M) ((value >>> 16) % 2 ^ 16)
  else
    match get_memory memory (to_long vaddr) with
    | some dest => some (store memory dest 4 value)
    | none => none

/-- The callback `MemoryWrite64`. -/
def MemoryWrite64 (M : Nat) (memory : khash_memory) (vaddr value : Nat) :
    Option khash_memory :=
  if vaddr &&& 7 ≠ 0 then
    (MemoryWrite32 M memory vaddr (value % 2 ^ 32)).bind fun memory1 =>
    MemoryWrite32 M memory1 ((vaddr + 4) % M) ((value >>> 32) % 2 ^ 32)
  else
    match get_memory memory (to_long vaddr) with
    | some dest => some (store memory dest 8 value)
    | none => none

/-- The callback `MemoryWriteExclusive8`: message and `abort()`. -/
def MemoryWriteExclusive8 (_memory : khash_memory) (_vaddr _value _expected : Nat) :
    Option (khash_memory × Bool) :=
  none

/-- The callback `MemoryWriteExclusive16`. -/
def MemoryWriteExclusive16 (M : Nat) (memory : khash_memory) (vaddr value _expected : Nat) :
    Option (khash_memory × Bool) :=
  (MemoryWrite16 M memory vaddr value).bind fun memory1 => some (memory1, true)

/-- The callback `MemoryWriteExclusive32`. -/
def MemoryWriteExclusive32 (M : Nat) (memory : khash_memory) (vaddr value _expected : Nat) :
    Option (khash_memory × Bool) :=
  (MemoryWrite32 M memory vaddr value).bind fun memory1 => some (memory1, true)

/-- The callback `MemoryWriteExclusive64`. -/
def MemoryWriteExclusive64 (M : Nat) (memory : khash_memory) (vaddr value _expected : Nat) :
    Option (khash_memory × Bool) :=
  (MemoryWrite64 M memory vaddr value).bind fun memory1 => some (memory1, true)

end UserCallbacks

/-- The key under which `get_memory` looks up the page of the guest address
`vaddr`: `vaddr & ~PAGE_MASK` on the `long` value of the address. -/
def page_key (vaddr : Nat) : Int := and_not_PAGE_MASK (to_long vaddr)

/-- The aligned path of the read callbacks: the `w` bytes at the offset of
`vaddr` in the page of `vaddr`, `none` when that page is not mapped. -/
def load_at (memory : khash_memory) (vaddr w : Nat) : Option Nat :=
  (kh_get memory (page_key vaddr)).map fun page =>
    le_value ((page.addr.drop (vaddr % 4096)).take w)

/-- The buffer of a page after the `w` low bytes of `value` were stored at the
offset of `vaddr`. -/
def poke (vaddr w value : Nat) (page : memory_page) : memory_page :=
  { page with addr := memcpy page.addr (vaddr % 4096) (le_bytes w value) w }

/-- The aligned path of the write callbacks: the `w` low bytes of `value`
stored at the offset of `vaddr` in the page of `vaddr`, `none` when that page
is not mapped. -/
def store_at (memory : khash_memory) (vaddr w value : Nat) : Option khash_memory :=
  match kh_get memory (page_key vaddr) with
  | none => none
  | some _ => some (kh_update memory (page_key vaddr) (poke vaddr w value))

/-- The read of `w` bytes one `MemoryRead8` at a time, from `vaddr` upwards
modulo `M`, composed least significant byte first. -/
def read_le (M : Nat) (memory : khash_memory) : Nat → Nat → Option Nat
  | 0, _ => some 0
  | w + 1, vaddr =>
    (UserCallbacks.MemoryRead8 memory vaddr).bind fun b =>
    (read_le M memory w ((vaddr + 1) % M)).bind fun r =>
    some (b + 256 * r)

/-- The write of the `w` low bytes of `value` one `MemoryWrite8` at a time,
from `vaddr` upwards modulo `M`, least significant byte first. -/
def write_le (M : Nat) : Nat → khash_memory → Nat → Nat → Option khash_memory
  | 0, memory, _, _ => some memory
  | w + 1, memory, vaddr, value =>
    (UserCallbacks.MemoryWrite8 memory vaddr (value % 256)).bind fun memory1 =>
    write_le M w memory1 ((vaddr + 1) % M) (value / 256)


/-- Modelled from the spec: the constant `UC_PROT_WRITE` of the unicorn
header, not part of the sources at hand ("the conventional
read(1)/write(2)/execute(4) bitmask"). -/
def UC_PROT_WRITE : Int := 2

namespace DynarmicCallbacks32

/-- The callback `DynarmicCallbacks32::MemoryRead8` (`u32 vaddr`). -/
def MemoryRead8 (memory : khash_memory) (vaddr : Nat) : Option Nat :=
  UserCallbacks.MemoryRead8 memory vaddr

/-- The callback `DynarmicCallbacks32::MemoryRead16` (`u32 vaddr`). -/
def MemoryRead16 (memory : khash_memory) (vaddr : Nat) : Option Nat :=
  UserCallbacks.MemoryRead16 (2 ^ 32) memory vaddr

/-- The callback `DynarmicCallbacks32::MemoryRead32` (`u32 vaddr`). -/
def MemoryRead32 (memory : khash_memory) (vaddr : Nat) : Option Nat :=
  UserCallbacks.MemoryRead32 (2 ^ 32) memory vaddr

/-- The callback `DynarmicCallbacks32::MemoryRead64` (`u32 vaddr`). -/
def MemoryRead64 (memory : khash_memory) (vaddr : Nat) : Option Nat :=
  UserCallbacks.MemoryRead64 (2 ^ 32) memory vaddr

/-- The callback `DynarmicCallbacks32::MemoryWrite8` (`u32 vaddr`). -/
def MemoryWrite8 (memory : khash_memory) (vaddr value : Nat) : Option khash_memory :=
  UserCallbacks.MemoryWrite8 memory vaddr value

/-- The callback `DynarmicCallbacks32::MemoryWrite16` (`u32 vaddr`). -/
def MemoryWrite16 (memory : khash_memory) (vaddr value : Nat) : Option khash_memory :=
  UserCallbacks.MemoryWrite16 (2 ^ 32) memory vaddr value

/-- The callback `DynarmicCallbacks32::MemoryWrite32` (`u32 vaddr`). -/
def MemoryWrite32 (memory : khash_memory) (vaddr value : Nat) : Option khash_memory :=
  UserCallbacks.MemoryWrite32 (2 ^ 32) memory vaddr value

/-- The callback `DynarmicCallbacks32::MemoryWrite64` (`u32 vaddr`). -/
def MemoryWrite64 (memory : khash_memory) (vaddr value : Nat) : Option khash_memory :=
  UserCallbacks.MemoryWrite64 (2 ^ 32) memory vaddr value

/-- The callback `DynarmicCallbacks32::MemoryWriteExclusive8`. -/
def MemoryWriteExclusive8 (memory : khash_memory) (vaddr value expected : Nat) :
    Option (khash_memory × Bool) :=
  UserCallbacks.MemoryWriteExclusive8 memory vaddr value expected

/-- The callback `DynarmicCallbacks32::MemoryWriteExclusive16`. -/
def MemoryWriteExclusive16 (memory : khash_memory) (vaddr value expected : Nat) :
    Option (khash_memory × Bool) :=
  UserCallbacks.MemoryWriteExclusive16 (2 ^ 32) memory vaddr value expected

/-- The callback `DynarmicCallbacks32::MemoryWriteExclusive32`. -/
def MemoryWriteExclusive32 (memory : khash_memory) (vaddr value expected : Nat) :
    Option (khash_memory × Bool) :=
  UserCallbacks.MemoryWriteExclusive32 (2 ^ 32) memory vaddr value expected

/-- The callback `DynarmicCallbacks32::MemoryWriteExclusive64`. -/
def MemoryWriteExclusive64 (memory : khash_memory) (vaddr value expected : Nat) :
    Option (khash_memory × Bool) :=
  UserCallbacks.MemoryWriteExclusive64 (2 ^ 32) memory vaddr value expected

end DynarmicCallbacks32

namespace DynarmicCallbacks64

/-- The callback `DynarmicCallbacks64::IsReadOnlyMemory`; the key
`vaddr & ~PAGE_MASK`, stored in a `long`, is the one `get_memory` uses. -/
def IsReadOnlyMemory (memory : khash_memory) (vaddr : Nat) : Bool :=
  match kh_get memory (page_key vaddr) with
  | none => false
  | some page => decide (Int.land page.perms UC_PROT_WRITE = 0)

/-- The callback `DynarmicCallbacks64::MemoryRead8` (`u64 vaddr`). -/
def MemoryRead8 (memory : khash_memory) (vaddr : Nat) : Option Nat :=
  UserCallbacks.MemoryRead8 memory vaddr

/-- The callback `DynarmicCallbacks64::MemoryRead16` (`u64 vaddr`). -/
def MemoryRead16 (memory : khash_memory) (vaddr : Nat) : Option Nat :=
  UserCallbacks.MemoryRead16 (2 ^ 64) memory vaddr

/-- The callback `DynarmicCallbacks64::MemoryRead32` (`u64 vaddr`). -/
def MemoryRead32 (memory : khash_memory) (vaddr : Nat) : Option Nat :=
  UserCallbacks.MemoryRead32 (2 ^ 64) memory vaddr

/-- The callback `DynarmicCallbacks64::MemoryRead64` (`u64 vaddr`). -/
def MemoryRead64 (memory : khash_memory) (vaddr : Nat) : Option Nat :=
  UserCallbacks.MemoryRead64 (2 ^ 64) memory vaddr

/-- The callback `DynarmicCallbacks64::MemoryRead128`: the two elements of the
vector, read in this order. -/
def MemoryRead128 (memory : khash_memory) (vaddr : Nat) : Option (Nat × Nat) :=
  (MemoryRead64 memory vaddr).bind fun lo =>
  (MemoryRead64 memory ((vaddr + 8) % 2 ^ 64)).bind fun hi =>
  some (lo, hi)

/-- The callback `DynarmicCallbacks64::MemoryWrite8` (`u64 vaddr`). -/
def MemoryWrite8 (memory : khash_memory) (vaddr value : Nat) : Option khash_memory :=
  UserCallbacks.MemoryWrite8 memory vaddr value

/-- The callback `DynarmicCallbacks64::MemoryWrite16` (`u64 vaddr`). -/
def MemoryWrite16 (memory : khash_memory) (vaddr value : Nat) : Option khash_memory :=
  UserCallbacks.MemoryWrite16 (2 ^ 64) memory vaddr value

/-- The callback `DynarmicCallbacks64::MemoryWrite32` (`u64 vaddr`). -/
def MemoryWrite32 (memory : khash_memory) (vaddr value : Nat) : Option khash_memory :=
  UserCallbacks.MemoryWrite32 (2 ^ 64) memory vaddr value

/-- The callback `DynarmicCallbacks64::MemoryWrite64` (`u64 vaddr`). -/
def MemoryWrite64 (memory : khash_memory) (vaddr value : Nat) : Option khash_memory :=
  UserCallbacks.MemoryWrite64 (2 ^ 64) memory vaddr value

/-- The callback `DynarmicCallbacks64::MemoryWrite128`, `value` being the pair
`(value[0], value[1])`. -/
def MemoryWrite128 (memory : khash_memory) (vaddr : Nat) (value : Nat × Nat) :
    Option khash_memory :=
  (MemoryWrite64 memory vaddr value.1).bind fun memory1 =>
  MemoryWrite64 memory1 ((vaddr + 8) % 2 ^ 64) value.2

/-- The callback `DynarmicCallbacks64::MemoryWriteExclusive8`. -/
def MemoryWriteExclusive8 (memory : khash_memory) (vaddr value expected : Nat) :
    Option (khash_memory × Bool) :=
  UserCallbacks.MemoryWriteExclusive8 memory vaddr value expected

/-- The callback `DynarmicCallbacks64::MemoryWriteExclusive16`. -/
def MemoryWriteExclusive16 (memory : khash_memory) (vaddr value expected : Nat) :
    Option (khash_memory × Bool) :=
  UserCallbacks.MemoryWriteExclusive16 (2 ^ 64) memory vaddr value expected

/-- The callback `DynarmicCallbacks64::MemoryWriteExclusive32`. -/
def MemoryWriteExclusive32 (memory : khash_memory) (vaddr value expected : Nat) :
    Option (khash_memory × Bool) :=
  UserCallbacks.MemoryWriteExclusive32 (2 ^ 64) memory vaddr value expected

/-- The callback `DynarmicCallbacks64::MemoryWriteExclusive64`. -/
def MemoryWriteExclusive64 (memory : khash_memory) (vaddr value expected : Nat) :
    Option (khash_memory × Bool) :=
  UserCallbacks.MemoryWriteExclusive64 (2 ^ 64) memory vaddr value expected

/-- The callback `DynarmicCallbacks64::MemoryWriteExclusive128`: message and
`abort()`. -/
def MemoryWriteExclusive128 (_memory : khash_memory) (_vaddr : Nat)
    (_value _expected : Nat × Nat) : Option (khash_memory × Bool) :=
  none

end DynarmicCallbacks64


/-! ## Statements about a callback of either variant -/

/-- A read callback `readW` of width `w` composes, least significant first,
the bytes `read8` returns at `a`, `a + 1`, ..., `a + w - 1` (modulo `M`),
whenever the pages of these addresses are mapped. -/
def reads_little_endian (M w : Nat) (read8 readW : khash_memory → Nat → Option Nat) : Prop :=
  ∀ (memory : khash_memory) (a : Nat), a < M →
    (∀ i : Nat, i < w → kh_get memory (page_key ((a + i) % M)) ≠ none) →
    ∃ b : Nat → Nat,
      (∀ i : Nat, i < w → read8 memory ((a + i) % M) = some (b i)) ∧
      readW memory a = some (∑ i in Finset.range w, b i * 256 ^ i)

/-- A read callback of width `w` aborts exactly when the page of one of the
addresses `a`, ..., `a + w - 1` (modulo `M`) is not mapped. -/
def read_aborts_iff_unmapped (M w : Nat) (readW : khash_memory → Nat → Option Nat) : Prop :=
  ∀ (memory : khash_memory) (a : Nat), a < M →
    (readW memory a = none ↔
      ∃ i : Nat, i < w ∧ kh_get memory (page_key ((a + i) % M)) = none)

/-- A write callback of width `w` aborts exactly when the page of one of the
addresses `a`, ..., `a + w - 1` (modulo `M`) is not mapped. -/
def write_aborts_iff_unmapped (M w : Nat)
    (writeW : khash_memory → Nat → Nat → Option khash_memory) : Prop :=
  ∀ (memory : khash_memory) (a value : Nat), a < M →
    (writeW memory a value = none ↔
      ∃ i : Nat, i < w ∧ kh_get memory (page_key ((a + i) % M)) = none)


/-- The writes of a variant at a misaligned address are those of the two
halves: a 2-byte write at an odd address is the 1-byte writes of the low, then
the high byte; a 4-byte write at an address not a multiple of 4 is the 2-byte
writes of `v mod 2^16` at `a`, then `v div 2^16` at `a + 2`; an 8-byte write at
an address not a multiple of 8 is the 4-byte writes of the two halves. The
second address is taken modulo `M`; an abort of a half is one of the whole. -/
def split_writes (M : Nat)
    (write8 write16 write32 write64 : khash_memory → Nat → Nat → Option khash_memory) : Prop :=
  ∀ (memory : khash_memory) (a v : Nat),
    (a % 2 ≠ 0 → v < 2 ^ 16 →
      write16 memory a v =
        (write8 memory a (v % 2 ^ 8)).bind fun memory1 =>
        write8 memory1 ((a + 1) % M) (v / 2 ^ 8)) ∧
    (a % 4 ≠ 0 → v < 2 ^ 32 →
      write32 memory a v =
        (write16 memory a (v % 2 ^ 16)).bind fun memory1 =>
        write16 memory1 ((a + 2) % M) (v / 2 ^ 16)) ∧
    (a % 8 ≠ 0 → v < 2 ^ 64 →
      write64 memory a v =
        (write32 memory a (v % 2 ^ 32)).bind fun memory1 =>
        write32 memory1 ((a + 4) % M) (v / 2 ^ 32))


/-- An exclusive write callback of width `w`: whenever the pages of `a`, ...,
`a + w - 1` are mapped, it returns `true` together with exactly the memory the
ordinary write `writeW` of `value` leaves, whatever `expected` is. -/
def exclusive_is_plain_write (M w : Nat)
    (writeW : khash_memory → Nat → Nat → Option khash_memory)
    (exclW : khash_memory → Nat → Nat → Nat → Option (khash_memory × Bool)) : Prop :=
  ∀ (memory : khash_memory) (a value expected : Nat), a < M →
    (∀ i : Nat, i < w → kh_get memory (page_key ((a + i) % M)) ≠ none) →
    ∃ memory' : khash_memory,
      writeW memory a value = some memory' ∧
      exclW memory a value expected = some (memory', true)


/-- Two stores map the same page bases to the same bytes; the permission words
may differ. -/
def same_bytes (m1 m2 : khash_memory) : Prop :=
  ∀ k : Int, (kh_get m1 k).map (fun page => page.addr) =
    (kh_get m2 k).map (fun page => page.addr)

/-- The accesses of width `w` store and read back: on a store of whole pages,
when the pages of `a`, ..., `a + w - 1` are mapped, whatever their permission
words, the write returns, the read after it returns the `w` low bytes of the
value, and the permission words are as before. -/
def stores_and_reads_back (M w : Nat) (readW : khash_memory → Nat → Option Nat)
    (writeW : khash_memory → Nat → Nat → Option khash_memory) : Prop :=
  ∀ (memory : khash_memory) (a v : Nat), pages_ok memory → a < M →
    (∀ i : Nat, i < w → kh_get memory (page_key ((a + i) % M)) ≠ none) →
    ∃ memory' : khash_memory,
      writeW memory a v = some memory' ∧
      readW memory' a = some (v % 256 ^ w) ∧
      ∀ k : Int, (kh_get memory' k).map (fun page => page.perms) =
        (kh_get memory k).map (fun page => page.perms)

/-- The accesses of width `w` do not look at the permission words: on two
stores with the same bytes the read gives the same result, and the write
returns on both or on none, leaving the same bytes again. -/
def ignores_permissions (M : Nat) (readW : khash_memory → Nat → Option Nat)
    (writeW : khash_memory → Nat → Nat → Option khash_memory) : Prop :=
  ∀ (m1 m2 : khash_memory) (a v : Nat), a < M → same_bytes m1 m2 →
    readW m1 a = readW m2 a ∧
    (writeW m1 a v = none ↔ writeW m2 a v = none) ∧
    ∀ m1' m2' : khash_memory, writeW m1 a v = some m1' → writeW m2 a v = some m2' →
      same_bytes m1' m2'


/-! ## The trap callbacks of the execution bridge -/

/-- Modelled from the spec: the core of the dynarmic library
(`Dynarmic::A64::Jit`, `Dynarmic::A32::Jit`), which is not part of the sources
at hand, as far as the bridge uses it: the program counter (`GetPC`, `SetPC`;
`Regs()[15]` of the 32-bit core) and the halt request raised by
`HaltExecution` ("execution is halted (not aborted) after the call returns"). -/
structure jit_state where
  pc : Nat := 0
  halt_requested : Bool := false
deriving DecidableEq

/-- The call `cpu->HaltExecution()`. -/
def HaltExecution (cpu : jit_state) : jit_state := { cpu with halt_requested := true }

/-- The call `cpu->SetPC(value)`. -/
def SetPC (value : Nat) (cpu : jit_state) : jit_state := { cpu with pc := value }

/-- The record `struct dynarmic` behind a session handle: the variant, the page
store and the core of the variant (the callbacks object of a variant is made
together with its core and points to it). -/
structure dynarmic where
  is64Bit : Bool
  memory : khash_memory
  jit64 : Option jit_state := none
  jit32 : Option jit_state := none
deriving DecidableEq

/-- What a `callSVC` upcall leaves: the session as the Java code left it and
whether a Java exception is pending (`ExceptionCheck`). -/
structure svc_return where
  session : dynarmic
  exception : Bool

/-- What a `handleInterpreterFallback` upcall leaves: the session, the Boolean
returned and whether a Java exception is pending. -/
structure fallback_return where
  session : dynarmic
  processed : Bool
  exception : Bool

/-- Modelled from the spec: the Java object `DynarmicCallback`, which is not
part of the sources at hand ("Callback object contract consumed by the
Execution Bridge: `on_svc(pc, number)`, `on_interpreter_fallback(pc,
instruction_count) -> handled: bool`"). The Java code runs synchronously on the
calling thread and can call the control plane of the same session, so a method
is a function of the session. -/
structure DynarmicCallback where
  callSVC : Nat → Nat → dynarmic → svc_return
  handleInterpreterFallback : Nat → Nat → dynarmic → fallback_return

/-- The outcome of a trap callback: the upcalls made, with their two
arguments, in order, and the session left, `none` for `abort()` (and for the
dereference of a core that does not exist). -/
structure trap_result where
  upcalls : List (Nat × Nat)
  outcome : Option dynarmic

/-- A call through the pointer `cpu` of `DynarmicCallbacks64`. -/
def with_cpu64 (f : jit_state → jit_state) (d : dynarmic) : Option dynarmic :=
  match d.jit64 with
  | none => none
  | some cpu => some { d with jit64 := some (f cpu) }

/-- A call through the pointer `cpu` of `DynarmicCallbacks32`. -/
def with_cpu32 (f : jit_state → jit_state) (d : dynarmic) : Option dynarmic :=
  match d.jit32 with
  | none => none
  | some cpu => some { d with jit32 := some (f cpu) }

/-- The function `emu_stop`: return code and session afterwards. -/
def emu_stop (d : dynarmic) : Int × dynarmic :=
  if d.is64Bit then
    match d.jit64 with
    | some cpu => (0, { d with jit64 := some (HaltExecution cpu) })
    | none => (1, d)
  else (-1, d)

/-- The callback `DynarmicCallbacks64::CallSVC`. -/
def DynarmicCallbacks64.CallSVC (callback : DynarmicCallback) (d : dynarmic) (swi : Nat) :
    trap_result :=
  match d.jit64 with
  | none => ⟨[], none⟩
  | some cpu =>
    let r := callback.callSVC cpu.pc swi d
    ⟨[(cpu.pc, swi)],
      if r.exception then with_cpu64 HaltExecution r.session else some r.session⟩

/-- The callback `DynarmicCallbacks32::CallSVC`. -/
def DynarmicCallbacks32.CallSVC (callback : DynarmicCallback) (d : dynarmic) (swi : Nat) :
    trap_result :=
  match d.jit32 with
  | none => ⟨[], none⟩
  | some cpu =>
    let r := callback.callSVC cpu.pc swi d
    ⟨[(cpu.pc, swi)],
      if r.exception then with_cpu32 HaltExecution r.session else some r.session⟩

/-- The callback `DynarmicCallbacks64::InterpreterFallback`. -/
def DynarmicCallbacks64.InterpreterFallback (callback : DynarmicCallback) (d : dynarmic)
    (pc num_instructions : Nat) : trap_result :=
  let r := callback.handleInterpreterFallback pc num_instructions d
  let halted := if r.exception then with_cpu64 HaltExecution r.session else some r.session
  ⟨[(pc, num_instructions)],
    halted.bind fun d1 =>
      if r.processed then with_cpu64 (SetPC ((pc + 4) % 2 ^ 64)) d1
      else
        match DynarmicCallbacks64.MemoryRead32 d1.memory pc with
        | _ => none⟩

/-- The callback `DynarmicCallbacks32::InterpreterFallback`: the message, for
which the instruction at `pc` is read, and `abort()`. -/
def DynarmicCallbacks32.InterpreterFallback (_callback : DynarmicCallback) (d : dynarmic)
    (pc _num_instructions : Nat) : trap_result :=
  match DynarmicCallbacks32.MemoryRead32 d.memory pc with
  | _ => ⟨[], none⟩


/-- The core of the 64-bit variant of a session. -/
def core64 (d : dynarmic) : Option jit_state := d.jit64

/-- The core of the 32-bit variant of a session. -/
def core32 (d : dynarmic) : Option jit_state := d.jit32

/-- A supervisor-call trap of a variant with core `core`: one `callSVC` upcall
with the program counter of the core and the call number; the trap returns,
with the memory and the program counter as the upcall left them, and the halt
request is the one the upcall left or the pending exception. -/
def forwards_svc (core : dynarmic → Option jit_state)
    (CallSVC : DynarmicCallback → dynarmic → Nat → trap_result) : Prop :=
  ∀ (callback : DynarmicCallback) (d : dynarmic) (swi : Nat) (cpu cpu1 : jit_state),
    core d = some cpu →
    core (callback.callSVC cpu.pc swi d).session = some cpu1 →
    (CallSVC callback d swi).upcalls = [(cpu.pc, swi)] ∧
    ∃ d1 : dynarmic, (CallSVC callback d swi).outcome = some d1 ∧
      d1.memory = (callback.callSVC cpu.pc swi d).session.memory ∧
      core d1 = some { pc := cpu1.pc,
                       halt_requested :=
                         cpu1.halt_requested || (callback.callSVC cpu.pc swi d).exception }

/-- A session of the 64-bit variant with an empty page store. -/
def session64 : dynarmic := { is64Bit := true, memory := [], jit64 := some { pc := 0x1000 } }

/-- A session of the 32-bit variant with an empty page store. -/
def session32 : dynarmic := { is64Bit := false, memory := [], jit32 := some { pc := 0x1000 } }

/-- A callback object whose `callSVC` stops the emulator (`emu_stop`) and
returns without an exception, and whose `handleInterpreterFallback` handles
the instruction. -/
def stopping_callback : DynarmicCallback where
  callSVC := fun _ _ d => ⟨(emu_stop d).2, false⟩
  handleInterpreterFallback := fun _ _ d => ⟨d, true, false⟩

/-- A callback object whose `callSVC` raises a Java exception and whose
`handleInterpreterFallback` declines. -/
def raising_callback : DynarmicCallback where
  callSVC := fun _ _ d => ⟨d, true⟩
  handleInterpreterFallback := fun _ _ d => ⟨d, false, false⟩


/-! ## Cycle accounting, registers and the run control of a session -/

/-- The data members `ticks`, `tpidrro_el0` and `tpidr_el0` of a
`DynarmicCallbacks64` object (`u64` each, zero at construction). -/
structure callbacks64 where
  ticks : Nat := 0
  tpidrro_el0 : Nat := 0
  tpidr_el0 : Nat := 0
deriving DecidableEq

/-- The data member `ticks` of a `DynarmicCallbacks32` object. -/
structure callbacks32 where
  ticks : Nat := 0
deriving DecidableEq

/-- The callback `DynarmicCallbacks64::AddTicks`: `this->ticks += ticks` on a
`u64`. -/
def DynarmicCallbacks64.AddTicks (cb : callbacks64) (ticks : Nat) : callbacks64 :=
  { cb with ticks := (cb.ticks + ticks) % 2 ^ 64 }

/-- The callback `DynarmicCallbacks64::GetTicksRemaining`. -/
def DynarmicCallbacks64.GetTicksRemaining (_cb : callbacks64) : Nat := 0x10000000000

/-- The callback `DynarmicCallbacks64::GetCNTPCT`. -/
def DynarmicCallbacks64.GetCNTPCT (_cb : callbacks64) : Nat := 0x10000000000

/-- The callback `DynarmicCallbacks32::AddTicks`. -/
def DynarmicCallbacks32.AddTicks (cb : callbacks32) (ticks : Nat) : callbacks32 :=
  { cb with ticks := (cb.ticks + ticks) % 2 ^ 64 }

/-- The callback `DynarmicCallbacks32::GetTicksRemaining`. -/
def DynarmicCallbacks32.GetTicksRemaining (_cb : callbacks32) : Nat := 0x10000000000

/-- The callback `DynarmicCallbacks64::MemoryReadCode`. -/
def DynarmicCallbacks64.MemoryReadCode (memory : khash_memory) (vaddr : Nat) : Option Nat :=
  DynarmicCallbacks64.MemoryRead32 memory vaddr

/-- Modelled from the spec: the registers of the core of a session that the
control plane sets and the trap callbacks do not use, the stack pointer of the
64-bit core (`SetSP`) and the status register of the 32-bit core (`SetCpsr`);
the core is not part of the sources at hand. -/
structure jit_registers where
  sp : Nat := 0
  cpsr : Nat := 0
deriving DecidableEq

/-- What a session handle (`t_dynarmic`) points to: the record
`struct dynarmic` with the callbacks objects behind `cb64` and `cb32` and the
further registers of the core. -/
structure t_dynarmic where
  fields : dynarmic
  cb64 : Option callbacks64 := none
  cb32 : Option callbacks32 := none
  regs : jit_registers := {}
deriving DecidableEq

/-- The function `nativeInitialize`: the record is zeroed, the table is empty
and the callbacks object and the core of the variant are made. -/
def nativeInitialize (is64Bit : Bool) : t_dynarmic :=
  if is64Bit then
    { fields := { is64Bit := true, memory := [], jit64 := some {} }, cb64 := some {} }
  else
    { fields := { is64Bit := false, memory := [], jit32 := some {} }, cb32 := some {} }

/-- The function `reg_set_sp64`: return code and session afterwards; `value`
is converted to the `u64` parameter of `SetSP`. -/
def reg_set_sp64 (h : t_dynarmic) (value : Int) : Int × t_dynarmic :=
  if h.fields.is64Bit then
    match h.fields.jit64 with
    | some _ => (0, { h with regs := { h.regs with sp := (value % 2 ^ 64).toNat } })
    | none => (1, h)
  else (-1, h)

/-- The function `reg_set_tpidr_el0`: return code and session afterwards. -/
def reg_set_tpidr_el0 (h : t_dynarmic) (value : Int) : Int × t_dynarmic :=
  if h.fields.is64Bit then
    match h.cb64 with
    | some cb => (0, { h with cb64 := some { cb with tpidr_el0 := (value % 2 ^ 64).toNat } })
    | none => (1, h)
  else (-1, h)

/-- The function `emu_start`: return code and session afterwards. `Run` is the
call `cpu->Run()` of the core, which is not part of the sources at hand: the
session it leaves when it returns, `none` when it does not return (the run
ends in `abort()` in one of the callbacks, or the core never halts). -/
def emu_start (Run : t_dynarmic → Option t_dynarmic) (h : t_dynarmic) (pc : Int) :
    Option (Int × t_dynarmic) :=
  if h.fields.is64Bit then
    match h.fields.jit64 with
    | some cpu =>
      let entry : t_dynarmic :=
        { h with fields := { h.fields with jit64 := some (SetPC (pc % 2 ^ 64).toNat cpu) } }
      (Run entry).map fun h1 => (0, h1)
    | none => some (1, h)
  else
    match h.fields.jit32 with
    | some cpu =>
      let cpsr : Nat := if Int.land pc 1 ≠ 0 then 0x00000030 else 0x00000000
      let r15 : Nat := (Int.land pc (Int.lnot 1) % 2 ^ 32).toNat
      let entry : t_dynarmic :=
        { h with
          regs := { h.regs with cpsr := cpsr }
          fields := { h.fields with jit32 := some { cpu with pc := r15 } } }
      (Run entry).map fun h1 => (0, h1)
    | none => some (1, h)

/-- A session of the 64-bit variant as `nativeInitialize` leaves it and as the
three operations below keep it: the callbacks object and the core exist. -/
def created64 (h : t_dynarmic) : Prop :=
  h.fields.is64Bit = true ∧ h.fields.jit64.isSome = true ∧ h.cb64.isSome = true

instance (h : t_dynarmic) : Decidable (created64 h) := by
  unfold created64; exact inferInstance

/-- A run of the core that fetches the instruction at its program counter
through `MemoryReadCode` and then halts. -/
def fetching_run (h : t_dynarmic) : Option t_dynarmic :=
  match h.fields.jit64 with
  | none => none
  | some cpu => (DynarmicCallbacks64.MemoryReadCode h.fields.memory cpu.pc).map fun _ => h

/-- A run of the core that halts at once. -/
def halting_run (h : t_dynarmic) : Option t_dynarmic := some h


/-! ## Statements about the addresses an access touches -/

/-- The reads of a variant at a misaligned address are those of the two
halves, the second at `(a + h) mod M`, composed as `(b << 8h) | a`; an abort of
a half is one of the whole. -/
def split_reads (M : Nat) (read8 read16 read32 read64 : khash_memory → Nat → Option Nat) :
    Prop :=
  ∀ (memory : khash_memory) (a : Nat),
    (a % 2 ≠ 0 →
      read16 memory a =
        (read8 memory a).bind fun lo =>
        (read8 memory ((a + 1) % M)).bind fun hi => some ((hi <<< 8) ||| lo)) ∧
    (a % 4 ≠ 0 →
      read32 memory a =
        (read16 memory a).bind fun lo =>
        (read16 memory ((a + 2) % M)).bind fun hi => some ((hi <<< 16) ||| lo)) ∧
    (a % 8 ≠ 0 →
      read64 memory a =
        (read32 memory a).bind fun lo =>
        (read32 memory ((a + 4) % M)).bind fun hi => some ((hi <<< 32) ||| lo))

/-- The accesses of a variant whose addresses are `0`, ..., `M - 1` touch no
guest byte outside these: on stores of whole pages the result of the read is
the same on two stores with the same guest bytes at the addresses below `M`,
and the write leaves every guest byte at an address outside `[0, M)` as it
was. -/
def stays_below (M : Nat) (readW : khash_memory → Nat → Option Nat)
    (writeW : khash_memory → Nat → Nat → Option khash_memory) : Prop :=
  (∀ (m1 m2 : khash_memory) (a : Nat), pages_ok m1 → pages_ok m2 → a < M →
    (∀ x : Nat, x < M → guest_byte m1 (x : Int) = guest_byte m2 (x : Int)) →
    readW m1 a = readW m2 a) ∧
  (∀ (memory memory' : khash_memory) (a v : Nat), pages_ok memory → a < M →
    writeW memory a v = some memory' →
    ∀ x : Int, -(2 ^ 63) ≤ x → x < 2 ^ 63 → (x < 0 ∨ (M : Int) ≤ x) →
      guest_byte memory' x = guest_byte memory x)


/-- The bulk functions of the control plane and the accesses of width `w` of
a variant with `M` addresses see the same bytes. On a store of whole pages,
for an access at `a` whose `w` bytes do not run past the top of the address
space of the 32-bit variant (nor past the last page of the signed range, where
the sums of the bulk functions would overflow) and whose pages are mapped:
after the write of `v` the bulk read of `w` bytes at `a` returns the `w`
little-endian bytes of `v`, the read callback returns `v`, and every guest
byte outside `[a, a + w)`, every permission word and the set of mapped pages
are as before; and after a bulk write of `w` bytes at `a` the read callback
returns their little-endian value. -/
def sees_same_bytes (M w : Nat) (readW : khash_memory → Nat → Option Nat)
    (writeW : khash_memory → Nat → Nat → Option khash_memory) : Prop :=
  ∀ (memory : khash_memory) (a v : Nat), pages_ok memory → a < M → v < 256 ^ w →
    (M = 2 ^ 32 → a + w ≤ 2 ^ 32) → to_long a + w ≤ 2 ^ 63 - 4096 →
    (∀ i : Nat, i < w → kh_get memory (page_key ((a + i) % M)) ≠ none) →
    (∃ memory' : khash_memory,
      writeW memory a v = some memory' ∧
      mem_read memory' (to_long a) w = some (some (le_bytes w v)) ∧
      readW memory' a = some v ∧
      (∀ x : Int, -(2 ^ 63) ≤ x → x < 2 ^ 63 → ¬ (to_long a ≤ x ∧ x < to_long a + w) →
        guest_byte memory' x = guest_byte memory x) ∧
      (∀ k : Int, (kh_get memory' k).map (fun page => page.perms) =
        (kh_get memory k).map (fun page => page.perms)) ∧
      (∀ k : Int, kh_get memory' k ≠ none ↔ kh_get memory k ≠ none)) ∧
    (∀ bytes : List Byte, bytes.length = w →
      ∃ memory' : khash_memory,
        mem_write memory (to_long a) bytes = some (0, memory') ∧
        readW memory' a = some (le_value bytes))


/-- The pages at `0xFFFFF000`, `0x0` and `0x100000000`, zero filled: the last
page of the address space of the 32-bit variant, its first page, and the page
that follows the last one in the address space of the control plane. -/
def pages_at_top32 : khash_memory :=
  [(0xFFFFF000, ⟨fresh_page_buffer, 3⟩), (0, ⟨fresh_page_buffer, 3⟩),
   (0x100000000, ⟨fresh_page_buffer, 3⟩)]


/-! ## Sequences of operations on the page store -/

/-- The keys of the table, in the order of the buckets. -/
def kh_keys (memory : khash_memory) : List Int := memory.map fun e => e.1

/-- The invariant of the page store: every key is a multiple of the page
size, no key has two buckets, and every host buffer is one page long. -/
def store_inv (memory : khash_memory) : Prop :=
  (∀ k ∈ kh_keys memory, k % 4096 = 0) ∧ (kh_keys memory).Nodup ∧ pages_ok memory

/-- The four widths of the accessor callbacks. -/
inductive access_width where
  | w8
  | w16
  | w32
  | w64
deriving DecidableEq

/-- The read callback of a variant and a width. -/
def accessor_read (is64Bit : Bool) (w : access_width) (memory : khash_memory) (vaddr : Nat) :
    Option Nat :=
  match is64Bit, w with
  | true, .w8 => DynarmicCallbacks64.MemoryRead8 memory vaddr
  | true, .w16 => DynarmicCallbacks64.MemoryRead16 memory vaddr
  | true, .w32 => DynarmicCallbacks64.MemoryRead32 memory vaddr
  | true, .w64 => DynarmicCallbacks64.MemoryRead64 memory vaddr
  | false, .w8 => DynarmicCallbacks32.MemoryRead8 memory vaddr
  | false, .w16 => DynarmicCallbacks32.MemoryRead16 memory vaddr
  | false, .w32 => DynarmicCallbacks32.MemoryRead32 memory vaddr
  | false, .w64 => DynarmicCallbacks32.MemoryRead64 memory vaddr

/-- The write callback of a variant and a width. -/
def accessor_write (is64Bit : Bool) (w : access_width) (memory : khash_memory)
    (vaddr value : Nat) : Option khash_memory :=
  match is64Bit, w with
  | true, .w8 => DynarmicCallbacks64.MemoryWrite8 memory vaddr value
  | true, .w16 => DynarmicCallbacks64.MemoryWrite16 memory vaddr value
  | true, .w32 => DynarmicCallbacks64.MemoryWrite32 memory vaddr value
  | true, .w64 => DynarmicCallbacks64.MemoryWrite64 memory vaddr value
  | false, .w8 => DynarmicCallbacks32.MemoryWrite8 memory vaddr value
  | false, .w16 => DynarmicCallbacks32.MemoryWrite16 memory vaddr value
  | false, .w32 => DynarmicCallbacks32.MemoryWrite32 memory vaddr value
  | false, .w64 => DynarmicCallbacks32.MemoryWrite64 memory vaddr value

/-- The exclusive write callback of a variant and a width. -/
def accessor_write_exclusive (is64Bit : Bool) (w : access_width) (memory : khash_memory)
    (vaddr value expected : Nat) : Option (khash_memory × Bool) :=
  match is64Bit, w with
  | true, .w8 => DynarmicCallbacks64.MemoryWriteExclusive8 memory vaddr value expected
  | true, .w16 => DynarmicCallbacks64.MemoryWriteExclusive16 memory vaddr value expected
  | true, .w32 => DynarmicCallbacks64.MemoryWriteExclusive32 memory vaddr value expected
  | true, .w64 => DynarmicCallbacks64.MemoryWriteExclusive64 memory vaddr value expected
  | false, .w8 => DynarmicCallbacks32.MemoryWriteExclusive8 memory vaddr value expected
  | false, .w16 => DynarmicCallbacks32.MemoryWriteExclusive16 memory vaddr value expected
  | false, .w32 => DynarmicCallbacks32.MemoryWriteExclusive32 memory vaddr value expected
  | false, .w64 => DynarmicCallbacks32.MemoryWriteExclusive64 memory vaddr value expected

/-- An operation on the page store of a session: a call of the memory control
plane or an access of the execution bridge, with its arguments. -/
inductive store_op where
  | mem_map (mmap_ok : Int → Bool) (address size perms : Int)
  | mem_unmap (address size : Int)
  | mem_protect (address size perms : Int)
  | mem_write (address : Int) (bytes : List Byte)
  | mem_read (address size : Int)
  | MemoryRead (is64Bit : Bool) (w : access_width) (vaddr : Nat)
  | MemoryRead128 (vaddr : Nat)
  | MemoryWrite (is64Bit : Bool) (w : access_width) (vaddr value : Nat)
  | MemoryWrite128 (vaddr : Nat) (value : Nat × Nat)
  | MemoryWriteExclusive (is64Bit : Bool) (w : access_width) (vaddr value expected : Nat)

/-- The page store after an operation, whatever the operation returned; `none`
when there is no state afterwards (`abort()` in a callback, or a page loop that
did not leave). -/
def apply_op (memory : khash_memory) : store_op → Option khash_memory
  | .mem_map mmap_ok address size perms =>
    (mem_map mmap_ok memory address size perms).map fun r => r.2
  | .mem_unmap address size => (mem_unmap memory address size).map fun r => r.2
  | .mem_protect address size perms =>
    (mem_protect memory address size perms).map fun r => r.2
  | .mem_write address bytes => (mem_write memory address bytes).map fun r => r.2
  | .mem_read address size => (mem_read memory address size).map fun _ => memory
  | .MemoryRead is64Bit w vaddr => (accessor_read is64Bit w memory vaddr).map fun _ => memory
  | .MemoryRead128 vaddr => (DynarmicCallbacks64.MemoryRead128 memory vaddr).map fun _ => memory
  | .MemoryWrite is64Bit w vaddr value => accessor_write is64Bit w memory vaddr value
  | .MemoryWrite128 vaddr value => DynarmicCallbacks64.MemoryWrite128 memory vaddr value
  | .MemoryWriteExclusive is64Bit w vaddr value expected =>
    (accessor_write_exclusive is64Bit w memory vaddr value expected).map fun r => r.1

/-- The page store after a sequence of operations. -/
def run_ops : khash_memory → List store_op → Option khash_memory
  | memory, [] => some memory
  | memory, op :: ops => (apply_op memory op).bind fun memory1 => run_ops memory1 ops

/-- The arguments of an operation are inside the defined domain: the sum
`address + size` of a bulk write does not overflow (`mem_write_spec`), and the
address of a write callback is one of the variant (`u32`, `u64`). -/
def op_in_range : store_op → Prop
  | .mem_write address bytes =>
    -(2 ^ 63) ≤ address ∧ address + bytes.length ≤ 2 ^ 63 - 4096
  | .MemoryWrite is64Bit _ vaddr _ => vaddr < (if is64Bit then 2 ^ 64 else 2 ^ 32)
  | .MemoryWrite128 vaddr _ => vaddr < 2 ^ 64
  | .MemoryWriteExclusive is64Bit _ vaddr _ _ => vaddr < (if is64Bit then 2 ^ 64 else 2 ^ 32)
  | _ => True


/-! ## Arithmetic of the embedding -/

theorem wrap64_of_range {x : Int} (h1 : -(2 ^ 63) ≤ x) (h2 : x < 2 ^ 63) : wrap64 x = x := by
  unfold wrap64
  omega

theorem and_PAGE_MASK_eq (x : Int) : and_PAGE_MASK x = x % 4096 := rfl

theorem and_not_PAGE_MASK_eq (x : Int) : and_not_PAGE_MASK x = x - x % 4096 := rfl

theorem PAGE_SIZE_eq : PAGE_SIZE = 4096 := rfl

/-! ### The two mask expressions are the bitwise ones -/

theorem testBit_clear_low (m i : Nat) :
    (4096 * (m / 4096)).testBit i = (decide (12 ≤ i) && m.testBit i) := by
  have h : (4096 : Nat) = 2 ^ 12 := by norm_num
  rw [h, Nat.testBit_mul_pow_two, ← Nat.shiftRight_eq_div_pow, Nat.testBit_shiftRight]
  by_cases hi : 12 ≤ i
  · simp [hi]
  · simp [hi]

theorem ldiff_low_mask (m : Nat) : Nat.ldiff 4095 m = 4095 - m % 4096 := by
  apply Nat.eq_of_testBit_eq
  intro i
  have h1 : (4095 : Nat) = 2 ^ 12 - 1 := by norm_num
  have h2 : 4095 - m % 4096 = 2 ^ 12 - (m % 2 ^ 12 + 1) := by omega
  rw [Nat.testBit_ldiff, h2, Nat.testBit_two_pow_sub_succ (Nat.mod_lt _ (by norm_num)), h1,
    Nat.testBit_two_pow_sub_one, Nat.testBit_mod_two_pow]
  by_cases hi : i < 12 <;> simp [hi]

theorem ldiff_high_mask (m : Nat) : Nat.ldiff m 4095 = m - m % 4096 := by
  apply Nat.eq_of_testBit_eq
  intro i
  have h1 : (4095 : Nat) = 2 ^ 12 - 1 := by norm_num
  have h2 : m - m % 4096 = 4096 * (m / 4096) := by omega
  rw [Nat.testBit_ldiff, h2, testBit_clear_low, h1, Nat.testBit_two_pow_sub_one]
  by_cases hi : i < 12
  · have : ¬ 12 ≤ i := by omega
    simp [hi, this]
  · have : 12 ≤ i := by omega
    simp [hi, this]

theorem lor_low_mask (m : Nat) : m ||| 4095 = m - m % 4096 + 4095 := by
  apply Nat.eq_of_testBit_eq
  intro i
  have h1 : (4095 : Nat) = 2 ^ 12 - 1 := by norm_num
  have h2 : m - m % 4096 + 4095 = 2 ^ 12 * (m / 4096) + 4095 := by omega
  have h3 : 2 ^ 12 * (m / 4096) + 4095 = 2 ^ 12 * (m / 4096) ||| 4095 :=
    Nat.mul_add_lt_is_or (by norm_num) _
  have h4 : (2 : Nat) ^ 12 = 4096 := by norm_num
  rw [h2, h3, Nat.testBit_lor, Nat.testBit_lor, h4, testBit_clear_low]
  by_cases hi : 12 ≤ i
  · simp [hi]
  · have h5 : Nat.testBit 4095 i = true := by
      rw [h1, Nat.testBit_two_pow_sub_one]; simp; omega
    simp [hi, h5]

/-- The remainder used for `x & PAGE_MASK` is the bitwise conjunction of the
two's complement integer `x` with `PAGE_MASK`. -/
theorem and_PAGE_MASK_eq_land (x : Int) : and_PAGE_MASK x = Int.land x PAGE_MASK := by
  rw [and_PAGE_MASK_eq]
  show x % 4096 = Int.land x 4095
  cases x with
  | ofNat m =>
    show _ = ((Nat.land m 4095 : Nat) : Int)
    have := Nat.and_pow_two_sub_one_eq_mod m 12
    norm_num at this
    have h : Nat.land m 4095 = m % 4096 := this
    rw [h]; rfl
  | negSucc m =>
    show _ = ((Nat.ldiff 4095 m : Nat) : Int)
    rw [ldiff_low_mask]
    have : Int.negSucc m = -((m : Int) + 1) := by rfl
    rw [this]
    omega

/-- The difference used for `x & ~PAGE_MASK` is the bitwise conjunction of the
two's complement integer `x` with the complement of `PAGE_MASK`. -/
theorem and_not_PAGE_MASK_eq_land (x : Int) :
    and_not_PAGE_MASK x = Int.land x (Int.lnot PAGE_MASK) := by
  rw [and_not_PAGE_MASK_eq]
  show x - x % 4096 = Int.land x (Int.negSucc 4095)
  cases x with
  | ofNat m =>
    show _ = ((Nat.ldiff m 4095 : Nat) : Int)
    rw [ldiff_high_mask]
    have : Int.ofNat m = (m : Int) := rfl
    rw [this]
    omega
  | negSucc m =>
    show _ = Int.negSucc (m ||| 4095)
    rw [lor_low_mask]
    have h1 : Int.negSucc m = -((m : Int) + 1) := by rfl
    have h2 : Int.negSucc (m - m % 4096 + 4095) =
        -(((m - m % 4096 + 4095 : Nat) : Int) + 1) := by rfl
    rw [h1, h2]
    omega

/-! ## Lookup after each table operation -/

theorem kh_get_update (memory : khash_memory) (key : Int) (f : memory_page → memory_page)
    (k : Int) :
    kh_get (kh_update memory key f) k =
      if k = key then (kh_get memory key).map f else kh_get memory k := by
  induction memory with
  | nil => simp [kh_update, kh_get]
  | cons e rest ih =>
    obtain ⟨k0, p0⟩ := e
    by_cases h0 : k0 = key
    · subst h0
      by_cases hk : k = k0
      · subst hk; simp [kh_update, kh_get]
      · have hk2 : ¬ k0 = k := fun h => hk h.symm
        simp [kh_update, kh_get, hk, hk2]
    · by_cases hk : k = key
      · subst hk
        simp [kh_update, kh_get, h0, ih]
      · by_cases hk0 : k0 = k
        · subst hk0
          simp [kh_update, kh_get, h0]
        · simp [kh_update, kh_get, h0, hk0, ih, hk]

theorem kh_get_del (memory : khash_memory) (key k : Int) :
    kh_get (kh_del memory key) k = if k = key then none else kh_get memory k := by
  induction memory with
  | nil => simp [kh_del, kh_get]
  | cons e rest ih =>
    obtain ⟨k0, p0⟩ := e
    unfold kh_del at ih ⊢
    by_cases h0 : k0 = key
    · subst h0
      by_cases hk : k = k0
      · subst hk; simpa [List.filter_cons, kh_get] using ih
      · have hk2 : ¬ k0 = k := fun h => hk h.symm
        simpa [List.filter_cons, kh_get, hk, hk2] using ih
    · by_cases hk0 : k0 = k
      · subst hk0
        simp [List.filter_cons, kh_get, h0]
      · simpa [List.filter_cons, kh_get, h0, hk0] using ih

theorem kh_get_put_value (memory : khash_memory) (key : Int) (page : memory_page) (k : Int) :
    kh_get (kh_put_value memory key page) k =
      if k = key then some page else kh_get memory k := by
  unfold kh_put_value
  cases hget : kh_get memory key with
  | none =>
    by_cases hk : k = key
    · subst hk; simp [kh_get]
    · have hk2 : ¬ key = k := fun h => hk h.symm
      simp [kh_get, hk, hk2]
  | some p =>
    simp only [kh_get_update, hget, Option.map_some']

theorem kh_del_of_absent (memory : khash_memory) (key : Int) (h : kh_get memory key = none) :
    kh_del memory key = memory := by
  induction memory with
  | nil => rfl
  | cons e rest ih =>
    obtain ⟨k0, p0⟩ := e
    unfold kh_del at ih ⊢
    by_cases h0 : k0 = key
    · simp [kh_get, h0] at h
    · simp only [kh_get, h0, if_false] at h
      have h2 := ih h
      simp only [List.filter_cons, h0, ne_eq, not_false_eq_true, decide_True, if_true]
      exact congrArg _ h2

/-! ## Lemmas on runs of whole pages -/

theorem in_pages_index {vaddr : Int} {j : Nat} (i : Nat) (h : i < j) :
    in_pages vaddr j (vaddr + 4096 * i) := by
  unfold in_pages
  refine ⟨by omega, by omega, by omega⟩

theorem in_pages_exists {vaddr : Int} {j : Nat} {k : Int} (h : in_pages vaddr j k) :
    ∃ i : Nat, i < j ∧ k = vaddr + 4096 * i := by
  unfold in_pages at h
  refine ⟨((k - vaddr) / 4096).toNat, ?_, ?_⟩ <;> omega

theorem kh_get_iter_pages (step : khash_memory → Int → khash_memory)
    (g : Option memory_page → Option memory_page)
    (hstep : ∀ m v k, kh_get (step m v) k = if k = v then g (kh_get m v) else kh_get m k)
    (j : Nat) (memory : khash_memory) (vaddr k : Int) :
    kh_get (iter_pages step j memory vaddr) k =
      if in_pages vaddr j k then g (kh_get memory k) else kh_get memory k := by
  induction j generalizing memory vaddr with
  | zero =>
    have : ¬ in_pages vaddr 0 k := by unfold in_pages; omega
    simp [iter_pages, this]
  | succ j ih =>
    simp only [iter_pages, ih, hstep]
    by_cases hk : k = vaddr
    · subst hk
      have h1 : ¬ in_pages (k + 4096) j k := by unfold in_pages; omega
      have h2 : in_pages k (j + 1) k := by unfold in_pages; omega
      simp [h1, h2]
    · by_cases h1 : in_pages (vaddr + 4096) j k
      · have h2 : in_pages vaddr (j + 1) k := by unfold in_pages at *; omega
        simp [h1, h2, hk]
      · have h2 : ¬ in_pages vaddr (j + 1) k := by unfold in_pages at *; omega
        simp [h1, h2, hk]

theorem kh_get_map_pages (perms : Int) (j : Nat) (memory : khash_memory) (vaddr k : Int) :
    kh_get (iter_pages (map_step perms) j memory vaddr) k =
      if in_pages vaddr j k then some ⟨fresh_page_buffer, perms⟩ else kh_get memory k :=
  kh_get_iter_pages (map_step perms) (fun _ => some ⟨fresh_page_buffer, perms⟩)
    (fun m v k => kh_get_put_value m v _ k) j memory vaddr k

theorem kh_get_unmap_pages (j : Nat) (memory : khash_memory) (vaddr k : Int) :
    kh_get (iter_pages unmap_step j memory vaddr) k =
      if in_pages vaddr j k then none else kh_get memory k :=
  kh_get_iter_pages unmap_step (fun _ => none)
    (fun m v k => kh_get_del m v k) j memory vaddr k

theorem kh_get_protect_pages (perms : Int) (j : Nat) (memory : khash_memory) (vaddr k : Int) :
    kh_get (iter_pages (protect_step perms) j memory vaddr) k =
      if in_pages vaddr j k then (kh_get memory k).map (set_perms perms)
      else kh_get memory k :=
  kh_get_iter_pages (protect_step perms) (fun o => o.map (set_perms perms))
    (fun m v k => kh_get_update m v _ k) j memory vaddr k

theorem mem_map_loop_run (mmap_ok : Int → Bool) (perms vaddr_end : Int) (j fuel : Nat) :
    ∀ (memory : khash_memory) (vaddr : Int), -(2 ^ 63) ≤ vaddr → vaddr + 4096 * j ≤ vaddr_end →
      vaddr_end < 2 ^ 63 →
      (∀ i : Nat, i < j → kh_get memory (vaddr + 4096 * i) = none) →
      (∀ i : Nat, i < j → mmap_ok (vaddr + 4096 * i) = true) →
      mem_map_loop mmap_ok perms vaddr_end (fuel + j) memory vaddr =
        mem_map_loop mmap_ok perms vaddr_end fuel
          (iter_pages (map_step perms) j memory vaddr) (vaddr + 4096 * j) := by
  induction j with
  | zero => intro memory vaddr _ _ _ _ _; simp [iter_pages]
  | succ j ih =>
    intro memory vaddr hlo hend hhi hfree hok
    have h0 := hfree 0 (by omega)
    have hk0 := hok 0 (by omega)
    simp only [Nat.cast_zero, mul_zero, add_zero] at h0 hk0
    have hlt : vaddr < vaddr_end := by push_cast at hend; omega
    have hw : wrap64 (vaddr + PAGE_SIZE) = vaddr + 4096 := by
      rw [PAGE_SIZE_eq]; apply wrap64_of_range <;> (push_cast at hend; omega)
    have hstep : mem_map_loop mmap_ok perms vaddr_end (fuel + (j + 1)) memory vaddr =
        mem_map_loop mmap_ok perms vaddr_end (fuel + j) (map_step perms memory vaddr)
          (vaddr + 4096) := by
      rw [show fuel + (j + 1) = (fuel + j) + 1 by omega]
      simp [mem_map_loop, hlt, h0, hk0, hw, map_step]
    rw [hstep, ih (map_step perms memory vaddr) (vaddr + 4096) (by omega)
      (by push_cast at hend ⊢; omega) hhi]
    · simp only [iter_pages]
      congr 1
      push_cast; ring
    · intro i hi
      have := hfree (i + 1) (by omega)
      have hne : ¬ (vaddr + 4096 + 4096 * (i : Int) = vaddr) := by omega
      rw [map_step, kh_get_put_value, if_neg hne]
      rw [← this]; congr 1; push_cast; ring
    · intro i hi
      have := hok (i + 1) (by omega)
      rw [← this]; congr 1; push_cast; ring

theorem mem_unmap_loop_run (vaddr_end : Int) (j fuel : Nat) :
    ∀ (memory : khash_memory) (vaddr : Int), -(2 ^ 63) ≤ vaddr → vaddr + 4096 * j ≤ vaddr_end →
      vaddr_end < 2 ^ 63 →
      (∀ i : Nat, i < j → kh_get memory (vaddr + 4096 * i) ≠ none) →
      mem_unmap_loop vaddr_end (fuel + j) memory vaddr =
        mem_unmap_loop vaddr_end fuel (iter_pages unmap_step j memory vaddr)
          (vaddr + 4096 * j) := by
  induction j with
  | zero => intro memory vaddr _ _ _ _; simp [iter_pages]
  | succ j ih =>
    intro memory vaddr hlo hend hhi hmapped
    have h0 := hmapped 0 (by omega)
    simp only [Nat.cast_zero, mul_zero, add_zero] at h0
    obtain ⟨pg, hpg⟩ := Option.ne_none_iff_exists'.mp h0
    have hlt : vaddr < vaddr_end := by push_cast at hend; omega
    have hw : wrap64 (vaddr + PAGE_SIZE) = vaddr + 4096 := by
      rw [PAGE_SIZE_eq]; apply wrap64_of_range <;> (push_cast at hend; omega)
    have hstep : mem_unmap_loop vaddr_end (fuel + (j + 1)) memory vaddr =
        mem_unmap_loop vaddr_end (fuel + j) (unmap_step memory vaddr) (vaddr + 4096) := by
      rw [show fuel + (j + 1) = (fuel + j) + 1 by omega]
      simp [mem_unmap_loop, hlt, hpg, hw, unmap_step]
    rw [hstep, ih (unmap_step memory vaddr) (vaddr + 4096) (by omega)
      (by push_cast at hend ⊢; omega) hhi]
    · simp only [iter_pages]
      congr 1
      push_cast; ring
    · intro i hi
      have := hmapped (i + 1) (by omega)
      have hne : ¬ (vaddr + 4096 + 4096 * (i : Int) = vaddr) := by omega
      rw [unmap_step, kh_get_del, if_neg hne]
      intro hc; apply this; rw [← hc]; congr 1; push_cast; ring

theorem mem_protect_loop_run (perms vaddr_end : Int) (j fuel : Nat) :
    ∀ (memory : khash_memory) (vaddr : Int), -(2 ^ 63) ≤ vaddr → vaddr + 4096 * j ≤ vaddr_end →
      vaddr_end < 2 ^ 63 →
      (∀ i : Nat, i < j → kh_get memory (vaddr + 4096 * i) ≠ none) →
      mem_protect_loop perms vaddr_end (fuel + j) memory vaddr =
        mem_protect_loop perms vaddr_end fuel (iter_pages (protect_step perms) j memory vaddr)
          (vaddr + 4096 * j) := by
  induction j with
  | zero => intro memory vaddr _ _ _ _; simp [iter_pages]
  | succ j ih =>
    intro memory vaddr hlo hend hhi hmapped
    have h0 := hmapped 0 (by omega)
    simp only [Nat.cast_zero, mul_zero, add_zero] at h0
    obtain ⟨pg, hpg⟩ := Option.ne_none_iff_exists'.mp h0
    have hlt : vaddr < vaddr_end := by push_cast at hend; omega
    have hw : wrap64 (vaddr + PAGE_SIZE) = vaddr + 4096 := by
      rw [PAGE_SIZE_eq]; apply wrap64_of_range <;> (push_cast at hend; omega)
    have hstep : mem_protect_loop perms vaddr_end (fuel + (j + 1)) memory vaddr =
        mem_protect_loop perms vaddr_end (fuel + j) (protect_step perms memory vaddr)
          (vaddr + 4096) := by
      rw [show fuel + (j + 1) = (fuel + j) + 1 by omega]
      simp [mem_protect_loop, hlt, hpg, hw, protect_step]
    rw [hstep, ih (protect_step perms memory vaddr) (vaddr + 4096) (by omega)
      (by push_cast at hend ⊢; omega) hhi]
    · simp only [iter_pages]
      congr 1
      push_cast; ring
    · intro i hi
      have := hmapped (i + 1) (by omega)
      have hne : ¬ (vaddr + 4096 + 4096 * (i : Int) = vaddr) := by omega
      rw [protect_step, kh_get_update, if_neg hne]
      intro hc; apply this; rw [← hc]; congr 1; push_cast; ring

theorem length_map_pages (perms : Int) (j : Nat) :
    ∀ (memory : khash_memory) (vaddr : Int),
      (∀ i : Nat, i < j → kh_get memory (vaddr + 4096 * i) = none) →
      (iter_pages (map_step perms) j memory vaddr).length = memory.length + j := by
  induction j with
  | zero => intro memory vaddr _; simp [iter_pages]
  | succ j ih =>
    intro memory vaddr hfree
    have h0 := hfree 0 (by omega)
    simp only [Nat.cast_zero, mul_zero, add_zero] at h0
    simp only [iter_pages]
    rw [ih]
    · simp [map_step, kh_put_value, h0]; omega
    · intro i hi
      have := hfree (i + 1) (by omega)
      have hne : ¬ (vaddr + 4096 + 4096 * (i : Int) = vaddr) := by omega
      rw [map_step, kh_get_put_value, if_neg hne]
      rw [← this]; congr 1; push_cast; ring

/-- A page count `j` for an aligned range of `span` bytes. -/
theorem page_count_of_span {s : Int} (h0 : 0 ≤ s) (hal : s % 4096 = 0)
    (hlt : s < 2 ^ 64) :
    ∃ j : Nat, s = 4096 * j ∧ j < LOOP_FUEL ∧ j = (s / 4096).toNat := by
  refine ⟨(s / 4096).toNat, ?_, ?_, rfl⟩
  · omega
  · unfold LOOP_FUEL; omega

theorem mem_map_loop_exit (mmap_ok : Int → Bool) (perms vaddr_end : Int) (fuel : Nat)
    (memory : khash_memory) (vaddr : Int) (hf : fuel ≠ 0) (h : ¬ vaddr < vaddr_end) :
    mem_map_loop mmap_ok perms vaddr_end fuel memory vaddr = some (0, memory) := by
  obtain ⟨f, rfl⟩ := Nat.exists_eq_succ_of_ne_zero hf
  simp [mem_map_loop, h]

theorem mem_unmap_loop_exit (vaddr_end : Int) (fuel : Nat)
    (memory : khash_memory) (vaddr : Int) (hf : fuel ≠ 0) (h : ¬ vaddr < vaddr_end) :
    mem_unmap_loop vaddr_end fuel memory vaddr = some (0, memory) := by
  obtain ⟨f, rfl⟩ := Nat.exists_eq_succ_of_ne_zero hf
  simp [mem_unmap_loop, h]

theorem mem_protect_loop_exit (perms vaddr_end : Int) (fuel : Nat)
    (memory : khash_memory) (vaddr : Int) (hf : fuel ≠ 0) (h : ¬ vaddr < vaddr_end) :
    mem_protect_loop perms vaddr_end fuel memory vaddr = some (0, memory) := by
  obtain ⟨f, rfl⟩ := Nat.exists_eq_succ_of_ne_zero hf
  simp [mem_protect_loop, h]

theorem in_pages_iff_range {address : Int} {j : Nat} (halign : address % 4096 = 0) (k : Int) :
    in_pages address j k ↔ (address ≤ k ∧ k < address + 4096 * j ∧ k % 4096 = 0) := by
  unfold in_pages
  constructor
  · rintro ⟨h1, h2, h3⟩; exact ⟨h1, h2, by omega⟩
  · rintro ⟨h1, h2, h3⟩; exact ⟨h1, h2, by omega⟩

/-! ## Argument validation -/

/-- C2: `mem_map`, `mem_unmap` and `mem_protect` check their arguments in the
same way and before the page store is touched: an address that is not a
multiple of 4096 gives code 1 whatever the size, a page-aligned address with a
size that is 0 or not a multiple of 4096 gives code 2, and in both cases the
page store is returned as it was. -/
theorem mem_validation_codes (mmap_ok : Int → Bool) (memory : khash_memory)
    (address size perms : Int) :
    (address % 4096 ≠ 0 →
      mem_map mmap_ok memory address size perms = some (1, memory) ∧
      mem_unmap memory address size = some (1, memory) ∧
      mem_protect memory address size perms = some (1, memory)) ∧
    (address % 4096 = 0 → (size = 0 ∨ size % 4096 ≠ 0) →
      mem_map mmap_ok memory address size perms = some (2, memory) ∧
      mem_unmap memory address size = some (2, memory) ∧
      mem_protect memory address size perms = some (2, memory)) := by
  constructor
  · intro h
    have h1 : and_PAGE_MASK address ≠ 0 := h
    simp [mem_map, mem_unmap, mem_protect, h1]
  · intro h hs
    have h1 : and_PAGE_MASK address = 0 := h
    have h2 : size = 0 ∨ and_PAGE_MASK size ≠ 0 := hs
    simp only [mem_map, mem_unmap, mem_protect, h1, ne_eq, not_true_eq_false, if_false, h2,
      if_true, and_self]

/-- Witness of C2: the two rejections at address 1 and at size 100. -/
theorem mem_validation_codes_witness :
    (mem_map (fun _ => true) [] 1 4096 3 = some (1, []) ∧
      mem_unmap [] 1 4096 = some (1, []) ∧ mem_protect [] 1 4096 3 = some (1, [])) ∧
    (mem_map (fun _ => true) [] 4096 100 3 = some (2, []) ∧
      mem_unmap [] 4096 100 = some (2, []) ∧ mem_protect [] 4096 100 3 = some (2, [])) :=
  ⟨(mem_validation_codes (fun _ => true) [] 1 4096 3).1 (by decide),
   (mem_validation_codes (fun _ => true) [] 4096 100 3).2 (by decide) (by decide)⟩

/-! ## Mapping -/

theorem fresh_page_buffer_eq : fresh_page_buffer = List.replicate 4096 0 := rfl

/-- The `mem_map` loop over `j` free pages for which the host `mmap` succeeds,
stopped in front of the page at `address + 4096 * j`. -/
theorem mem_map_upto (mmap_ok : Int → Bool) (memory : khash_memory)
    (address size perms : Int) (j : Nat)
    (halign : address % 4096 = 0) (hsize : size % 4096 = 0) (hnz : size ≠ 0)
    (hlo : -(2 ^ 63) ≤ address) (hhi : address + size < 2 ^ 63)
    (hj : address + 4096 * j ≤ address + size)
    (hfree : ∀ i : Nat, i < j → kh_get memory (address + 4096 * i) = none)
    (hok : ∀ i : Nat, i < j → mmap_ok (address + 4096 * i) = true) :
    j < LOOP_FUEL ∧
    mem_map mmap_ok memory address size perms =
      mem_map_loop mmap_ok perms (address + size) (LOOP_FUEL - j)
        (iter_pages (map_step perms) j memory address) (address + 4096 * j) := by
  have hjf : j < LOOP_FUEL := by unfold LOOP_FUEL; omega
  refine ⟨hjf, ?_⟩
  have h1 : and_PAGE_MASK address = 0 := halign
  have h2 : ¬ (size = 0 ∨ and_PAGE_MASK size ≠ 0) := by
    rw [and_PAGE_MASK_eq]; simp [hnz, hsize]
  have hw : wrap64 (address + size) = address + size := wrap64_of_range (by omega) hhi
  have hsplit : LOOP_FUEL = (LOOP_FUEL - j) + j := by omega
  simp only [mem_map, h1, ne_eq, not_true_eq_false, if_false, h2, hw]
  conv => lhs; rw [hsplit]
  exact mem_map_loop_run mmap_ok perms (address + size) j (LOOP_FUEL - j) memory address hlo
    hj hhi hfree hok

/-- C3, as stated, fails for a size that is negative as a `jlong`: at address 0
and size -4096 (the 64-bit pattern `0xFFFFFFFFFFFFF000`, non-zero and page
aligned) on the empty store, `mem_map` returns 0 and no page exists afterwards,
although `size / 4096` is not 0 in either the signed or the unsigned reading. -/
theorem mem_map_negative_size_maps_nothing :
    and_PAGE_MASK 0 = 0 ∧ (-4096 : Int) ≠ 0 ∧ and_PAGE_MASK (-4096) = 0 ∧
    mem_map (fun _ => true) [] 0 (-4096) 3 = some (0, []) ∧
    (-4096 : Int) / 4096 ≠ 0 ∧ ((-4096 : Int) % 2 ^ 64) / 4096 ≠ 0 := by
  decide

/-- C3 (amended): for a page-aligned address and a page-aligned size that is
positive as a signed 64-bit value, with `address + size` inside the signed
range, no page base of `[address, address + size)` mapped and the host `mmap`
succeeding on the range, `mem_map` returns 0; afterwards the store holds a
zero-filled page with `perms` at every page base of the range and exactly what
it held before under every other key, and it has `size / 4096` more pages. -/
theorem mem_map_fresh_range (mmap_ok : Int → Bool) (memory : khash_memory)
    (address size perms : Int)
    (halign : address % 4096 = 0) (hsize : size % 4096 = 0) (hpos : 0 < size)
    (hlo : -(2 ^ 63) ≤ address) (hhi : address + size < 2 ^ 63)
    (hfree : ∀ k : Int, address ≤ k → k < address + size → k % 4096 = 0 →
      kh_get memory k = none)
    (hok : ∀ k : Int, address ≤ k → k < address + size → k % 4096 = 0 → mmap_ok k = true) :
    ∃ memory' : khash_memory,
      mem_map mmap_ok memory address size perms = some (0, memory') ∧
      (∀ k : Int, kh_get memory' k =
        if address ≤ k ∧ k < address + size ∧ k % 4096 = 0 then
          some ⟨List.replicate 4096 0, perms⟩
        else kh_get memory k) ∧
      (memory'.length : Int) = memory.length + size / 4096 := by
  obtain ⟨j, hj, _, _⟩ := page_count_of_span (le_of_lt hpos) hsize (by omega)
  have hfree' : ∀ i : Nat, i < j → kh_get memory (address + 4096 * i) = none := by
    intro i hi; apply hfree <;> omega
  have hok' : ∀ i : Nat, i < j → mmap_ok (address + 4096 * i) = true := by
    intro i hi; apply hok <;> omega
  obtain ⟨hjf, hrun⟩ := mem_map_upto mmap_ok memory address size perms j halign hsize
    (by omega) hlo hhi (by omega) hfree' hok'
  refine ⟨iter_pages (map_step perms) j memory address, ?_, ?_, ?_⟩
  · rw [hrun]
    exact mem_map_loop_exit _ _ _ _ _ _ (by omega) (by omega)
  · intro k
    rw [kh_get_map_pages, fresh_page_buffer_eq]
    have := in_pages_iff_range (j := j) halign k
    by_cases hk : in_pages address j k
    · have hk2 := this.mp hk
      rw [if_pos hk, if_pos (by omega)]
    · have hk2 : ¬ (address ≤ k ∧ k < address + size ∧ k % 4096 = 0) := by
        intro hc; apply hk; apply this.mpr; omega
      rw [if_neg hk, if_neg hk2]
  · rw [length_map_pages perms j memory address hfree']
    push_cast; omega

/-- Witness of C3 (amended): two pages mapped at 0x1000 on the empty store. -/
theorem mem_map_fresh_range_witness :
    ∃ memory' : khash_memory,
      mem_map (fun _ => true) [] 0x1000 0x2000 3 = some (0, memory') ∧
      (∀ k : Int, kh_get memory' k =
        if 0x1000 ≤ k ∧ k < 0x1000 + 0x2000 ∧ k % 4096 = 0 then
          some ⟨List.replicate 4096 0, 3⟩
        else kh_get [] k) ∧
      (memory'.length : Int) = ([] : khash_memory).length + 0x2000 / 4096 :=
  mem_map_fresh_range (fun _ => true) [] 0x1000 0x2000 3 (by decide) (by decide) (by decide)
    (by decide) (by decide) (fun _ _ _ _ => rfl) (fun _ _ _ _ => rfl)

/-- C4, as stated, fails when the host `mmap` fails below the first mapped
page: with a page at 0x2000, the request `mem_map(0x1000, 0x2000)` whose first
`mmap` fails returns 4, not 3. -/
theorem mem_map_conflict_after_mmap_failure :
    and_PAGE_MASK 0x1000 = 0 ∧ (0x2000 : Int) ≠ 0 ∧ and_PAGE_MASK 0x2000 = 0 ∧
    (kh_get [(0x2000, ⟨fresh_page_buffer, 1⟩)] 0x2000).isSome = true ∧
    (mem_map (fun _ => false) [(0x2000, ⟨fresh_page_buffer, 1⟩)] 0x1000 0x2000 3).map
      (fun r => r.1) = some 4 := by
  decide

/-- C4 (amended): for a valid `mem_map` request (page-aligned address,
non-zero page-aligned size, `address + size` inside the signed range) in which
`p` is the lowest already mapped page base of the range, and for which the host
`mmap` succeeds on the page bases below `p`, the call returns 3; afterwards
every page base of `[address, p)` holds a zero-filled page with `perms`, and
every other key, `p` and the bases above it included, holds what it held
before. -/
theorem mem_map_conflict (mmap_ok : Int → Bool) (memory : khash_memory)
    (address size perms p : Int)
    (halign : address % 4096 = 0) (hsize : size % 4096 = 0) (hnz : size ≠ 0)
    (hlo : -(2 ^ 63) ≤ address) (hhi : address + size < 2 ^ 63)
    (hp : address ≤ p ∧ p < address + size ∧ p % 4096 = 0)
    (hmapped : kh_get memory p ≠ none)
    (hlowest : ∀ k : Int, address ≤ k → k < p → k % 4096 = 0 → kh_get memory k = none)
    (hok : ∀ k : Int, address ≤ k → k < p → k % 4096 = 0 → mmap_ok k = true) :
    ∃ memory' : khash_memory,
      mem_map mmap_ok memory address size perms = some (3, memory') ∧
      (∀ k : Int, kh_get memory' k =
        if address ≤ k ∧ k < p ∧ k % 4096 = 0 then some ⟨List.replicate 4096 0, perms⟩
        else kh_get memory k) := by
  obtain ⟨hp1, hp2, hp3⟩ := hp
  obtain ⟨j, hj, _, _⟩ := page_count_of_span (s := p - address) (by omega) (by omega)
    (by omega)
  have hfree' : ∀ i : Nat, i < j → kh_get memory (address + 4096 * i) = none := by
    intro i hi; apply hlowest <;> omega
  have hok' : ∀ i : Nat, i < j → mmap_ok (address + 4096 * i) = true := by
    intro i hi; apply hok <;> omega
  obtain ⟨hjf, hrun⟩ := mem_map_upto mmap_ok memory address size perms j halign hsize
    hnz hlo hhi (by omega) hfree' hok'
  have hlook : ∀ k : Int, kh_get (iter_pages (map_step perms) j memory address) k =
      if address ≤ k ∧ k < p ∧ k % 4096 = 0 then some ⟨List.replicate 4096 0, perms⟩
      else kh_get memory k := by
    intro k
    rw [kh_get_map_pages, fresh_page_buffer_eq]
    have := in_pages_iff_range (j := j) halign k
    by_cases hk : in_pages address j k
    · have hk2 := this.mp hk
      rw [if_pos hk, if_pos (by omega)]
    · have hk2 : ¬ (address ≤ k ∧ k < p ∧ k % 4096 = 0) := by
        intro hc; apply hk; apply this.mpr; omega
      rw [if_neg hk, if_neg hk2]
  refine ⟨iter_pages (map_step perms) j memory address, ?_, hlook⟩
  rw [hrun]
  obtain ⟨f, hf⟩ := Nat.exists_eq_succ_of_ne_zero (n := LOOP_FUEL - j) (by omega)
  have hpj : address + 4096 * (j : Int) = p := by omega
  have hsome : (kh_get (iter_pages (map_step perms) j memory address) p).isSome = true := by
    rw [hlook p, if_neg (by omega)]
    exact Option.isSome_iff_ne_none.mpr hmapped
  rw [hf, hpj]
  simp [mem_map_loop, hp2, hsome]

/-- Witness of C4 (amended): a page at 0x2000 stops `mem_map(0x1000, 0x2000)`. -/
theorem mem_map_conflict_witness :
    ∃ memory' : khash_memory,
      mem_map (fun _ => true) [(0x2000, ⟨fresh_page_buffer, 1⟩)] 0x1000 0x2000 3 =
        some (3, memory') ∧
      (∀ k : Int, kh_get memory' k =
        if 0x1000 ≤ k ∧ k < 0x2000 ∧ k % 4096 = 0 then some ⟨List.replicate 4096 0, 3⟩
        else kh_get [(0x2000, ⟨fresh_page_buffer, 1⟩)] k) :=
  mem_map_conflict (fun _ => true) [(0x2000, ⟨fresh_page_buffer, 1⟩)] 0x1000 0x2000 3 0x2000
    (by decide) (by decide) (by decide) (by decide) (by decide) (by decide) (by decide)
    (fun k h1 h2 h3 => by simp only [kh_get]; rw [if_neg (by omega)])
    (fun _ _ _ _ => rfl)

/-! ## Unmapping and protecting -/

theorem exists_lowest_base (P : Int → Prop) (address bound : Int)
    (halign : address % 4096 = 0)
    (h : ∃ k : Int, address ≤ k ∧ k < bound ∧ k % 4096 = 0 ∧ P k) :
    ∃ p : Int, (address ≤ p ∧ p < bound ∧ p % 4096 = 0) ∧ P p ∧
      ∀ k : Int, address ≤ k → k < p → k % 4096 = 0 → ¬ P k := by
  classical
  have hex : ∃ i : Nat, address + 4096 * (i : Int) < bound ∧ P (address + 4096 * (i : Int)) := by
    obtain ⟨k, h1, h2, h3, h4⟩ := h
    refine ⟨((k - address) / 4096).toNat, ?_, ?_⟩
    · omega
    · have : address + 4096 * (((k - address) / 4096).toNat : Int) = k := by omega
      rw [this]; exact h4
  refine ⟨address + 4096 * (Nat.find hex : Int), ⟨by omega, (Nat.find_spec hex).1, by omega⟩,
    (Nat.find_spec hex).2, ?_⟩
  intro k h1 h2 h3 hP
  have hlt : ((k - address) / 4096).toNat < Nat.find hex := by omega
  apply Nat.find_min hex hlt
  have : address + 4096 * (((k - address) / 4096).toNat : Int) = k := by omega
  have hs := (Nat.find_spec hex).1
  rw [this]
  exact ⟨by omega, hP⟩

/-- The `mem_unmap` loop over `j` mapped pages, stopped in front of the page at
`address + 4096 * j`. -/
theorem mem_unmap_upto (memory : khash_memory) (address size : Int) (j : Nat)
    (halign : address % 4096 = 0) (hsize : size % 4096 = 0) (hnz : size ≠ 0)
    (hlo : -(2 ^ 63) ≤ address) (hhi : address + size < 2 ^ 63)
    (hj : address + 4096 * j ≤ address + size)
    (hmapped : ∀ i : Nat, i < j → kh_get memory (address + 4096 * i) ≠ none) :
    j < LOOP_FUEL ∧
    mem_unmap memory address size =
      mem_unmap_loop (address + size) (LOOP_FUEL - j)
        (iter_pages unmap_step j memory address) (address + 4096 * j) := by
  have hjf : j < LOOP_FUEL := by unfold LOOP_FUEL; omega
  refine ⟨hjf, ?_⟩
  have h1 : and_PAGE_MASK address = 0 := halign
  have h2 : ¬ (size = 0 ∨ and_PAGE_MASK size ≠ 0) := by
    rw [and_PAGE_MASK_eq]; simp [hnz, hsize]
  have hw : wrap64 (address + size) = address + size := wrap64_of_range (by omega) hhi
  have hsplit : LOOP_FUEL = (LOOP_FUEL - j) + j := by omega
  simp only [mem_unmap, h1, ne_eq, not_true_eq_false, if_false, h2, hw]
  conv => lhs; rw [hsplit]
  exact mem_unmap_loop_run (address + size) j (LOOP_FUEL - j) memory address hlo hj hhi hmapped

/-- The `mem_protect` loop over `j` mapped pages, stopped in front of the page
at `address + 4096 * j`. -/
theorem mem_protect_upto (memory : khash_memory) (address size perms : Int) (j : Nat)
    (halign : address % 4096 = 0) (hsize : size % 4096 = 0) (hnz : size ≠ 0)
    (hlo : -(2 ^ 63) ≤ address) (hhi : address + size < 2 ^ 63)
    (hj : address + 4096 * j ≤ address + size)
    (hmapped : ∀ i : Nat, i < j → kh_get memory (address + 4096 * i) ≠ none) :
    j < LOOP_FUEL ∧
    mem_protect memory address size perms =
      mem_protect_loop perms (address + size) (LOOP_FUEL - j)
        (iter_pages (protect_step perms) j memory address) (address + 4096 * j) := by
  have hjf : j < LOOP_FUEL := by unfold LOOP_FUEL; omega
  refine ⟨hjf, ?_⟩
  have h1 : and_PAGE_MASK address = 0 := halign
  have h2 : ¬ (size = 0 ∨ and_PAGE_MASK size ≠ 0) := by
    rw [and_PAGE_MASK_eq]; simp [hnz, hsize]
  have hw : wrap64 (address + size) = address + size := wrap64_of_range (by omega) hhi
  have hsplit : LOOP_FUEL = (LOOP_FUEL - j) + j := by omega
  simp only [mem_protect, h1, ne_eq, not_true_eq_false, if_false, h2, hw]
  conv => lhs; rw [hsplit]
  exact mem_protect_loop_run perms (address + size) j (LOOP_FUEL - j) memory address hlo hj hhi
    hmapped

/-- Lookup in a store whose `j` pages from `address` were treated, when
`address + 4096 * j = p`. -/
theorem in_pages_iff_below {address p : Int} {j : Nat} (halign : address % 4096 = 0)
    (hj : address + 4096 * (j : Int) = p) (k : Int) :
    in_pages address j k ↔ (address ≤ k ∧ k < p ∧ k % 4096 = 0) := by
  rw [in_pages_iff_range halign, hj]

/-- A valid `mem_unmap` whose range is mapped throughout: code 0, the pages of
the range are gone, the others stay. An empty range (negative size) included. -/
theorem mem_unmap_all (memory : khash_memory) (address size : Int)
    (halign : address % 4096 = 0) (hsize : size % 4096 = 0) (hnz : size ≠ 0)
    (hlo : -(2 ^ 63) ≤ address) (hlo2 : -(2 ^ 63) ≤ address + size)
    (hhi : address + size < 2 ^ 63)
    (hmapped : ∀ k : Int, address ≤ k → k < address + size → k % 4096 = 0 →
      kh_get memory k ≠ none) :
    ∃ memory' : khash_memory,
      mem_unmap memory address size = some (0, memory') ∧
      ∀ k : Int, kh_get memory' k =
        if address ≤ k ∧ k < address + size ∧ k % 4096 = 0 then none else kh_get memory k := by
  by_cases hpos : 0 < size
  · obtain ⟨j, hj, _, _⟩ := page_count_of_span (le_of_lt hpos) hsize (by omega)
    obtain ⟨hjf, hrun⟩ := mem_unmap_upto memory address size j halign hsize hnz hlo hhi
      (by omega) (fun i hi => by apply hmapped <;> omega)
    refine ⟨iter_pages unmap_step j memory address, ?_, ?_⟩
    · rw [hrun]
      exact mem_unmap_loop_exit _ _ _ _ (by omega) (by omega)
    · intro k
      rw [kh_get_unmap_pages]
      have := in_pages_iff_below (j := j) (p := address + size) halign (by omega) k
      by_cases hk : in_pages address j k
      · rw [if_pos hk, if_pos (this.mp hk)]
      · rw [if_neg hk, if_neg (fun hc => hk (this.mpr hc))]
  · refine ⟨memory, ?_, ?_⟩
    · have h1 : and_PAGE_MASK address = 0 := halign
      have h2 : ¬ (size = 0 ∨ and_PAGE_MASK size ≠ 0) := by
        rw [and_PAGE_MASK_eq]; simp [hnz, hsize]
      have hw : wrap64 (address + size) = address + size := wrap64_of_range hlo2 hhi
      simp only [mem_unmap, h1, ne_eq, not_true_eq_false, if_false, h2, hw]
      exact mem_unmap_loop_exit _ _ _ _ (by decide) (by omega)
    · intro k
      rw [if_neg (by omega)]

/-- A valid `mem_unmap` whose range has `p` as lowest unmapped page base: code
3, the pages of the range below `p` are gone, the others stay. -/
theorem mem_unmap_stop (memory : khash_memory) (address size p : Int)
    (halign : address % 4096 = 0) (hsize : size % 4096 = 0) (hnz : size ≠ 0)
    (hlo : -(2 ^ 63) ≤ address) (hhi : address + size < 2 ^ 63)
    (hp : address ≤ p ∧ p < address + size ∧ p % 4096 = 0)
    (hunmapped : kh_get memory p = none)
    (hlowest : ∀ k : Int, address ≤ k → k < p → k % 4096 = 0 → ¬ kh_get memory k = none) :
    ∃ memory' : khash_memory,
      mem_unmap memory address size = some (3, memory') ∧
      ∀ k : Int, kh_get memory' k =
        if address ≤ k ∧ k < p ∧ k % 4096 = 0 then none else kh_get memory k := by
  obtain ⟨hp1, hp2, hp3⟩ := hp
  obtain ⟨j, hj, _, _⟩ := page_count_of_span (s := p - address) (by omega) (by omega)
    (by omega)
  obtain ⟨hjf, hrun⟩ := mem_unmap_upto memory address size j halign hsize hnz hlo hhi
    (by omega) (fun i hi => by apply hlowest <;> omega)
  have hpj : address + 4096 * (j : Int) = p := by omega
  have hlook : ∀ k : Int, kh_get (iter_pages unmap_step j memory address) k =
      if address ≤ k ∧ k < p ∧ k % 4096 = 0 then none else kh_get memory k := by
    intro k
    rw [kh_get_unmap_pages]
    have := in_pages_iff_below (j := j) halign hpj k
    by_cases hk : in_pages address j k
    · rw [if_pos hk, if_pos (this.mp hk)]
    · rw [if_neg hk, if_neg (fun hc => hk (this.mpr hc))]
  refine ⟨iter_pages unmap_step j memory address, ?_, hlook⟩
  rw [hrun]
  obtain ⟨f, hf⟩ := Nat.exists_eq_succ_of_ne_zero (n := LOOP_FUEL - j) (by omega)
  have hnone : kh_get (iter_pages unmap_step j memory address) p = none := by
    rw [hlook p, if_neg (by omega)]; exact hunmapped
  rw [hf, hpj]
  simp [mem_unmap_loop, hp2, hnone]

/-- A valid `mem_protect` whose range is mapped throughout: code 0, the pages of
the range carry `perms`, nothing else differs. -/
theorem mem_protect_all (memory : khash_memory) (address size perms : Int)
    (halign : address % 4096 = 0) (hsize : size % 4096 = 0) (hnz : size ≠ 0)
    (hlo : -(2 ^ 63) ≤ address) (hlo2 : -(2 ^ 63) ≤ address + size)
    (hhi : address + size < 2 ^ 63)
    (hmapped : ∀ k : Int, address ≤ k → k < address + size → k % 4096 = 0 →
      kh_get memory k ≠ none) :
    ∃ memory' : khash_memory,
      mem_protect memory address size perms = some (0, memory') ∧
      ∀ k : Int, kh_get memory' k =
        if address ≤ k ∧ k < address + size ∧ k % 4096 = 0 then
          (kh_get memory k).map (set_perms perms)
        else kh_get memory k := by
  by_cases hpos : 0 < size
  · obtain ⟨j, hj, _, _⟩ := page_count_of_span (le_of_lt hpos) hsize (by omega)
    obtain ⟨hjf, hrun⟩ := mem_protect_upto memory address size perms j halign hsize hnz hlo
      hhi (by omega) (fun i hi => by apply hmapped <;> omega)
    refine ⟨iter_pages (protect_step perms) j memory address, ?_, ?_⟩
    · rw [hrun]
      exact mem_protect_loop_exit _ _ _ _ _ (by omega) (by omega)
    · intro k
      rw [kh_get_protect_pages]
      have := in_pages_iff_below (j := j) (p := address + size) halign (by omega) k
      by_cases hk : in_pages address j k
      · rw [if_pos hk, if_pos (this.mp hk)]
      · rw [if_neg hk, if_neg (fun hc => hk (this.mpr hc))]
  · refine ⟨memory, ?_, ?_⟩
    · have h1 : and_PAGE_MASK address = 0 := halign
      have h2 : ¬ (size = 0 ∨ and_PAGE_MASK size ≠ 0) := by
        rw [and_PAGE_MASK_eq]; simp [hnz, hsize]
      have hw : wrap64 (address + size) = address + size := wrap64_of_range hlo2 hhi
      simp only [mem_protect, h1, ne_eq, not_true_eq_false, if_false, h2, hw]
      exact mem_protect_loop_exit _ _ _ _ _ (by decide) (by omega)
    · intro k
      rw [if_neg (by omega)]

/-- A valid `mem_protect` whose range has `p` as lowest unmapped page base:
code 3. -/
theorem mem_protect_stop (memory : khash_memory) (address size perms p : Int)
    (halign : address % 4096 = 0) (hsize : size % 4096 = 0) (hnz : size ≠ 0)
    (hlo : -(2 ^ 63) ≤ address) (hhi : address + size < 2 ^ 63)
    (hp : address ≤ p ∧ p < address + size ∧ p % 4096 = 0)
    (hunmapped : kh_get memory p = none)
    (hlowest : ∀ k : Int, address ≤ k → k < p → k % 4096 = 0 → ¬ kh_get memory k = none) :
    ∃ memory' : khash_memory,
      mem_protect memory address size perms = some (3, memory') ∧
      ∀ k : Int, kh_get memory' k =
        if address ≤ k ∧ k < p ∧ k % 4096 = 0 then (kh_get memory k).map (set_perms perms)
        else kh_get memory k := by
  obtain ⟨hp1, hp2, hp3⟩ := hp
  obtain ⟨j, hj, _, _⟩ := page_count_of_span (s := p - address) (by omega) (by omega)
    (by omega)
  obtain ⟨hjf, hrun⟩ := mem_protect_upto memory address size perms j halign hsize hnz hlo hhi
    (by omega) (fun i hi => by apply hlowest <;> omega)
  have hpj : address + 4096 * (j : Int) = p := by omega
  have hlook : ∀ k : Int, kh_get (iter_pages (protect_step perms) j memory address) k =
      if address ≤ k ∧ k < p ∧ k % 4096 = 0 then (kh_get memory k).map (set_perms perms)
      else kh_get memory k := by
    intro k
    rw [kh_get_protect_pages]
    have := in_pages_iff_below (j := j) halign hpj k
    by_cases hk : in_pages address j k
    · rw [if_pos hk, if_pos (this.mp hk)]
    · rw [if_neg hk, if_neg (fun hc => hk (this.mpr hc))]
  refine ⟨iter_pages (protect_step perms) j memory address, ?_, hlook⟩
  rw [hrun]
  obtain ⟨f, hf⟩ := Nat.exists_eq_succ_of_ne_zero (n := LOOP_FUEL - j) (by omega)
  have hnone : kh_get (iter_pages (protect_step perms) j memory address) p = none := by
    rw [hlook p, if_neg (by omega)]; exact hunmapped
  rw [hf, hpj]
  simp [mem_protect_loop, hp2, hnone]

/-! ## Map, unmap and map again -/

/-- C5, as stated, fails when the host `mmap` fails: on the empty store the
page-aligned, unmapped address 0x1000 gives `mem_map(0x1000, 4096)` the return
code 4, not 0. -/
theorem mem_map_single_page_mmap_failure :
    and_PAGE_MASK 0x1000 = 0 ∧ kh_get [] 0x1000 = none ∧
    mem_map (fun _ => false) [] 0x1000 4096 3 = some (4, []) := by
  decide

/-- C5 (amended): for a page-aligned unmapped address `a` (with `a + 4096`
inside the signed range) for which the host `mmap` succeeds, `mem_map(a, 4096,
p1)` returns 0; a `mem_unmap(a, 4096)` right after it returns 0 and gives back
the page store from before the map, in which `a` is absent; a second
`mem_map(a, 4096, p2)` instead of the unmap returns 3 and leaves the store as
it is, the page at `a` zero-filled with permissions `p1`. -/
theorem mem_map_unmap_remap (mmap_ok mmap_ok2 : Int → Bool) (memory : khash_memory)
    (a p1 p2 : Int)
    (halign : a % 4096 = 0) (hlo : -(2 ^ 63) ≤ a) (hhi : a + 4096 < 2 ^ 63)
    (hfree : kh_get memory a = none) (hok : mmap_ok a = true) :
    mem_map mmap_ok memory a 4096 p1 = some (0, (a, ⟨fresh_page_buffer, p1⟩) :: memory) ∧
    mem_unmap ((a, ⟨fresh_page_buffer, p1⟩) :: memory) a 4096 = some (0, memory) ∧
    kh_get memory a = none ∧
    mem_map mmap_ok2 ((a, ⟨fresh_page_buffer, p1⟩) :: memory) a 4096 p2 =
      some (3, (a, ⟨fresh_page_buffer, p1⟩) :: memory) ∧
    kh_get ((a, ⟨fresh_page_buffer, p1⟩) :: memory) a = some ⟨List.replicate 4096 0, p1⟩ := by
  have hget : kh_get ((a, (⟨fresh_page_buffer, p1⟩ : memory_page)) :: memory) a =
      some ⟨fresh_page_buffer, p1⟩ := by simp [kh_get]
  refine ⟨?_, ?_, hfree, ?_, ?_⟩
  · obtain ⟨hjf, hrun⟩ := mem_map_upto mmap_ok memory a 4096 p1 1 halign (by decide)
      (by decide) hlo hhi (by norm_num)
      (fun i hi => by
        have : i = 0 := by omega
        subst this; simpa using hfree)
      (fun i hi => by
        have : i = 0 := by omega
        subst this; simpa using hok)
    rw [hrun]
    rw [mem_map_loop_exit _ _ _ _ _ _ (by omega) (by norm_num)]
    simp [iter_pages, map_step, kh_put_value, hfree]
  · obtain ⟨hjf, hrun⟩ := mem_unmap_upto ((a, ⟨fresh_page_buffer, p1⟩) :: memory) a 4096 1
      halign (by decide) (by decide) hlo hhi (by norm_num)
      (fun i hi => by
        have : i = 0 := by omega
        subst this; simp [kh_get])
    rw [hrun]
    rw [mem_unmap_loop_exit _ _ _ _ (by omega) (by norm_num)]
    have hdel : kh_del ((a, (⟨fresh_page_buffer, p1⟩ : memory_page)) :: memory) a = memory := by
      have := kh_del_of_absent memory a hfree
      unfold kh_del at this ⊢
      simpa [List.filter_cons] using this
    simp [iter_pages, unmap_step, hdel]
  · obtain ⟨hjf, hrun⟩ := mem_map_upto mmap_ok2 ((a, ⟨fresh_page_buffer, p1⟩) :: memory) a
      4096 p2 0 halign (by decide) (by decide) hlo hhi (by norm_num)
      (fun i hi => by omega) (fun i hi => by omega)
    rw [hrun]
    obtain ⟨f, hf⟩ := Nat.exists_eq_succ_of_ne_zero (n := LOOP_FUEL - 0) (by decide)
    rw [hf]
    simp [mem_map_loop, iter_pages, hget]
  · rw [hget, fresh_page_buffer_eq]

/-- Witness of C5 (amended): address 0x1000 on the empty store. -/
theorem mem_map_unmap_remap_witness :
    mem_map (fun _ => true) [] 0x1000 4096 3 = some (0, [(0x1000, ⟨fresh_page_buffer, 3⟩)]) ∧
    mem_unmap [(0x1000, ⟨fresh_page_buffer, 3⟩)] 0x1000 4096 = some (0, []) ∧
    kh_get [] 0x1000 = none ∧
    mem_map (fun _ => true) [(0x1000, ⟨fresh_page_buffer, 3⟩)] 0x1000 4096 1 =
      some (3, [(0x1000, ⟨fresh_page_buffer, 3⟩)]) ∧
    kh_get [(0x1000, ⟨fresh_page_buffer, 3⟩)] 0x1000 = some ⟨List.replicate 4096 0, 3⟩ :=
  mem_map_unmap_remap (fun _ => true) (fun _ => true) [] 0x1000 3 1 (by decide) (by decide)
    (by decide) (by decide) rfl

/-! ## The claims on `mem_unmap` and `mem_protect` -/

/-- C6: a valid `mem_unmap(address, size)` (page-aligned address, non-zero
page-aligned size, `address` and `address + size` inside the signed range)
whose whole range is mapped returns 0, removes exactly the pages with base in
`[address, address + size)` and leaves every other key with the page it had;
and after `mem_map(0x1000, 0x2000, 3)` and `mem_unmap(0x1000, 0x1000)` on the
empty store the base 0x1000 is absent and the base 0x2000 present. -/
theorem mem_unmap_frame (memory : khash_memory) (address size : Int)
    (halign : address % 4096 = 0) (hsize : size % 4096 = 0) (hnz : size ≠ 0)
    (hlo : -(2 ^ 63) ≤ address) (hlo2 : -(2 ^ 63) ≤ address + size)
    (hhi : address + size < 2 ^ 63)
    (hmapped : ∀ k : Int, address ≤ k → k < address + size → k % 4096 = 0 →
      kh_get memory k ≠ none) :
    (∃ memory' : khash_memory,
      mem_unmap memory address size = some (0, memory') ∧
      (∀ k : Int, address ≤ k → k < address + size → k % 4096 = 0 → kh_get memory' k = none) ∧
      (∀ k : Int, ¬ (address ≤ k ∧ k < address + size ∧ k % 4096 = 0) →
        kh_get memory' k = kh_get memory k)) ∧
    (∃ m1 m2 : khash_memory,
      mem_map (fun _ => true) [] 0x1000 0x2000 3 = some (0, m1) ∧
      mem_unmap m1 0x1000 0x1000 = some (0, m2) ∧
      kh_get m2 0x1000 = none ∧ (kh_get m2 0x2000).isSome = true) := by
  constructor
  · obtain ⟨memory', h1, h2⟩ := mem_unmap_all memory address size halign hsize hnz hlo hlo2 hhi
      hmapped
    refine ⟨memory', h1, ?_, ?_⟩
    · intro k hk1 hk2 hk3
      rw [h2 k, if_pos ⟨hk1, hk2, hk3⟩]
    · intro k hk
      rw [h2 k, if_neg hk]
  · exact ⟨[(0x2000, ⟨fresh_page_buffer, 3⟩), (0x1000, ⟨fresh_page_buffer, 3⟩)],
      [(0x2000, ⟨fresh_page_buffer, 3⟩)], rfl, rfl, by decide, by decide⟩

/-- Witness of C6: the lower of two mapped pages is unmapped. -/
theorem mem_unmap_frame_witness :
    (∃ memory' : khash_memory,
      mem_unmap [(0x2000, ⟨fresh_page_buffer, 3⟩), (0x1000, ⟨fresh_page_buffer, 3⟩)]
        0x1000 0x1000 = some (0, memory') ∧
      (∀ k : Int, 0x1000 ≤ k → k < 0x1000 + 0x1000 → k % 4096 = 0 → kh_get memory' k = none) ∧
      (∀ k : Int, ¬ (0x1000 ≤ k ∧ k < 0x1000 + 0x1000 ∧ k % 4096 = 0) →
        kh_get memory' k =
          kh_get [(0x2000, ⟨fresh_page_buffer, 3⟩), (0x1000, ⟨fresh_page_buffer, 3⟩)] k)) ∧
    (∃ m1 m2 : khash_memory,
      mem_map (fun _ => true) [] 0x1000 0x2000 3 = some (0, m1) ∧
      mem_unmap m1 0x1000 0x1000 = some (0, m2) ∧
      kh_get m2 0x1000 = none ∧ (kh_get m2 0x2000).isSome = true) :=
  mem_unmap_frame [(0x2000, ⟨fresh_page_buffer, 3⟩), (0x1000, ⟨fresh_page_buffer, 3⟩)]
    0x1000 0x1000 (by decide) (by decide) (by decide) (by decide) (by decide) (by decide)
    (fun k h1 h2 h3 => by
      have : k = 0x1000 := by omega
      subst this; decide)

/-- C7: a valid `mem_unmap` request (page-aligned address, non-zero
page-aligned size, `address` and `address + size` inside the signed range)
returns 3 if and only if some page base of `[address, address + size)` is not
mapped, and 0 otherwise; when `p` is the lowest unmapped base of the range, the
pages of the range below `p` are gone afterwards and every other key holds the
page it held before. -/
theorem mem_unmap_code (memory : khash_memory) (address size : Int)
    (halign : address % 4096 = 0) (hsize : size % 4096 = 0) (hnz : size ≠ 0)
    (hlo : -(2 ^ 63) ≤ address) (hlo2 : -(2 ^ 63) ≤ address + size)
    (hhi : address + size < 2 ^ 63) :
    ∃ (code : Int) (memory' : khash_memory),
      mem_unmap memory address size = some (code, memory') ∧
      (code = 3 ↔ ∃ k : Int, address ≤ k ∧ k < address + size ∧ k % 4096 = 0 ∧
        kh_get memory k = none) ∧
      (code ≠ 3 → code = 0) ∧
      (∀ p : Int, (address ≤ p ∧ p < address + size ∧ p % 4096 = 0) →
        kh_get memory p = none →
        (∀ k : Int, address ≤ k → k < p → k % 4096 = 0 → ¬ kh_get memory k = none) →
        ∀ k : Int, kh_get memory' k =
          if address ≤ k ∧ k < p ∧ k % 4096 = 0 then none else kh_get memory k) := by
  by_cases hex : ∃ k : Int, address ≤ k ∧ k < address + size ∧ k % 4096 = 0 ∧
      kh_get memory k = none
  · obtain ⟨p, hp, hpn, hlow⟩ := exists_lowest_base (fun k => kh_get memory k = none) address
      (address + size) halign hex
    obtain ⟨memory', h1, h2⟩ := mem_unmap_stop memory address size p halign hsize hnz hlo hhi
      hp hpn hlow
    refine ⟨3, memory', h1, ⟨fun _ => hex, fun _ => rfl⟩, fun h => absurd rfl h, ?_⟩
    intro q hq hqn hqlow k
    have hpq : q = p := by
      rcases lt_trichotomy q p with hlt | heq | hgt
      · exact absurd hqn (hlow q hq.1 hlt hq.2.2)
      · exact heq
      · exact absurd hpn (hqlow p hp.1 hgt hp.2.2)
    rw [hpq]; exact h2 k
  · obtain ⟨memory', h1, h2⟩ := mem_unmap_all memory address size halign hsize hnz hlo hlo2 hhi
      (fun k hk1 hk2 hk3 hn => hex ⟨k, hk1, hk2, hk3, hn⟩)
    refine ⟨0, memory', h1, ⟨fun h => absurd h (by decide), fun h => absurd h hex⟩,
      fun _ => rfl, ?_⟩
    intro q hq hqn _
    exact absurd ⟨q, hq.1, hq.2.1, hq.2.2, hqn⟩ hex

/-- Witness of C7: unmapping two pages of which only the lower is mapped. -/
theorem mem_unmap_code_witness :
    ∃ (code : Int) (memory' : khash_memory),
      mem_unmap [(0x1000, ⟨fresh_page_buffer, 3⟩)] 0x1000 0x2000 = some (code, memory') ∧
      (code = 3 ↔ ∃ k : Int, 0x1000 ≤ k ∧ k < 0x1000 + 0x2000 ∧ k % 4096 = 0 ∧
        kh_get [(0x1000, ⟨fresh_page_buffer, 3⟩)] k = none) ∧
      (code ≠ 3 → code = 0) ∧
      (∀ p : Int, (0x1000 ≤ p ∧ p < 0x1000 + 0x2000 ∧ p % 4096 = 0) →
        kh_get [(0x1000, ⟨fresh_page_buffer, 3⟩)] p = none →
        (∀ k : Int, 0x1000 ≤ k → k < p → k % 4096 = 0 →
          ¬ kh_get [(0x1000, ⟨fresh_page_buffer, 3⟩)] k = none) →
        ∀ k : Int, kh_get memory' k =
          if 0x1000 ≤ k ∧ k < p ∧ k % 4096 = 0 then none
          else kh_get [(0x1000, ⟨fresh_page_buffer, 3⟩)] k) :=
  mem_unmap_code [(0x1000, ⟨fresh_page_buffer, 3⟩)] 0x1000 0x2000 (by decide) (by decide)
    (by decide) (by decide) (by decide) (by decide)

/-- C8: for a valid `mem_protect` request (page-aligned address, non-zero
page-aligned size, `address` and `address + size` inside the signed range), a
range containing an unmapped page base gives code 3; a range mapped throughout
gives code 0 and afterwards every page of the range carries `perms`, every key
is mapped exactly when it was before and with the same bytes, and the pages
outside the range are as before, permissions included. -/
theorem mem_protect_frame (memory : khash_memory) (address size perms : Int)
    (halign : address % 4096 = 0) (hsize : size % 4096 = 0) (hnz : size ≠ 0)
    (hlo : -(2 ^ 63) ≤ address) (hlo2 : -(2 ^ 63) ≤ address + size)
    (hhi : address + size < 2 ^ 63) :
    ((∃ k : Int, address ≤ k ∧ k < address + size ∧ k % 4096 = 0 ∧ kh_get memory k = none) →
      ∃ memory' : khash_memory, mem_protect memory address size perms = some (3, memory')) ∧
    ((∀ k : Int, address ≤ k → k < address + size → k % 4096 = 0 → kh_get memory k ≠ none) →
      ∃ memory' : khash_memory, mem_protect memory address size perms = some (0, memory') ∧
        (∀ k : Int, address ≤ k → k < address + size → k % 4096 = 0 →
          (kh_get memory' k).map (fun page => page.perms) = some perms) ∧
        (∀ k : Int, (kh_get memory' k).isSome = (kh_get memory k).isSome) ∧
        (∀ k : Int, (kh_get memory' k).map (fun page => page.addr) =
          (kh_get memory k).map (fun page => page.addr)) ∧
        (∀ k : Int, ¬ (address ≤ k ∧ k < address + size ∧ k % 4096 = 0) →
          kh_get memory' k = kh_get memory k)) := by
  constructor
  · intro hex
    obtain ⟨p, hp, hpn, hlow⟩ := exists_lowest_base (fun k => kh_get memory k = none) address
      (address + size) halign hex
    obtain ⟨memory', h1, _⟩ := mem_protect_stop memory address size perms p halign hsize hnz
      hlo hhi hp hpn hlow
    exact ⟨memory', h1⟩
  · intro hmapped
    obtain ⟨memory', h1, h2⟩ := mem_protect_all memory address size perms halign hsize hnz hlo
      hlo2 hhi hmapped
    refine ⟨memory', h1, ?_, ?_, ?_, ?_⟩
    · intro k hk1 hk2 hk3
      rw [h2 k, if_pos ⟨hk1, hk2, hk3⟩]
      obtain ⟨pg, hpg⟩ := Option.ne_none_iff_exists'.mp (hmapped k hk1 hk2 hk3)
      simp [hpg, set_perms]
    · intro k
      rw [h2 k]
      split_ifs <;> simp
    · intro k
      rw [h2 k]
      split_ifs
      · cases kh_get memory k <;> simp [set_perms]
      · rfl
    · intro k hk
      rw [h2 k, if_neg hk]

/-- Witness of C8: one mapped page made read-only, and an unmapped page. -/
theorem mem_protect_frame_witness :
    (∃ memory' : khash_memory,
      mem_protect [(0x1000, ⟨fresh_page_buffer, 3⟩)] 0x2000 0x1000 1 = some (3, memory')) ∧
    (∃ memory' : khash_memory,
      mem_protect [(0x1000, ⟨fresh_page_buffer, 3⟩)] 0x1000 0x1000 1 = some (0, memory') ∧
        (∀ k : Int, 0x1000 ≤ k → k < 0x1000 + 0x1000 → k % 4096 = 0 →
          (kh_get memory' k).map (fun page => page.perms) = some 1) ∧
        (∀ k : Int, (kh_get memory' k).isSome =
          (kh_get [(0x1000, ⟨fresh_page_buffer, 3⟩)] k).isSome) ∧
        (∀ k : Int, (kh_get memory' k).map (fun page => page.addr) =
          (kh_get [(0x1000, ⟨fresh_page_buffer, 3⟩)] k).map (fun page => page.addr)) ∧
        (∀ k : Int, ¬ (0x1000 ≤ k ∧ k < 0x1000 + 0x1000 ∧ k % 4096 = 0) →
          kh_get memory' k = kh_get [(0x1000, ⟨fresh_page_buffer, 3⟩)] k)) :=
  ⟨(mem_protect_frame [(0x1000, ⟨fresh_page_buffer, 3⟩)] 0x2000 0x1000 1 (by decide)
      (by decide) (by decide) (by decide) (by decide) (by decide)).1
      ⟨0x2000, by decide, by decide, by decide, by decide⟩,
   (mem_protect_frame [(0x1000, ⟨fresh_page_buffer, 3⟩)] 0x1000 0x1000 1 (by decide)
      (by decide) (by decide) (by decide) (by decide) (by decide)).2
      (fun k h1 h2 h3 => by
        have : k = 0x1000 := by omega
        subst this; decide)⟩

/-! ## Bytes: `memcpy`, `get_memory` and the page buffers -/

theorem length_memcpy (dest : List Byte) (start : Nat) (src : List Byte) (len : Nat)
    (hd : start + len ≤ dest.length) (hs : len ≤ src.length) :
    (memcpy dest start src len).length = dest.length := by
  unfold memcpy
  simp only [List.length_append, List.length_take, List.length_drop]
  omega

theorem getElem?_memcpy (dest : List Byte) (start : Nat) (src : List Byte) (len : Nat)
    (hd : start + len ≤ dest.length) (hs : len ≤ src.length) (o : Nat) :
    (memcpy dest start src len)[o]? =
      if start ≤ o ∧ o < start + len then src[o - start]? else dest[o]? := by
  unfold memcpy
  have h1 : (dest.take start).length = start := by rw [List.length_take]; omega
  have h2 : (src.take len).length = len := by rw [List.length_take]; omega
  rw [List.append_assoc, List.getElem?_append, h1]
  by_cases ho : o < start
  · rw [if_pos ho, List.getElem?_take_of_lt ho, if_neg (by omega)]
  · rw [if_neg ho, List.getElem?_append, h2]
    by_cases ho2 : o - start < len
    · rw [if_pos ho2, List.getElem?_take_of_lt ho2, if_pos (by omega)]
    · rw [if_neg ho2, if_neg (by omega), List.getElem?_drop]
      congr 1; omega

theorem guest_byte_eq (memory : khash_memory) (x : Int) :
    guest_byte memory x =
      (kh_get memory (x - x % 4096)).bind (fun page => page.addr[(x % 4096).toNat]?) := by
  have hw : wrap64 (x - (x - x % 4096)) = x % 4096 := by
    have : x - (x - x % 4096) = x % 4096 := by ring
    rw [this]
    apply wrap64_of_range <;> omega
  unfold guest_byte get_memory
  simp only [and_not_PAGE_MASK_eq, hw]
  cases kh_get memory (x - x % 4096) <;> rfl

theorem length_fresh_page_buffer : fresh_page_buffer.length = 4096 := by
  rw [fresh_page_buffer_eq, List.length_replicate]

theorem pages_ok_nil : pages_ok [] := by
  intro e he; cases he

theorem pages_ok_cons {memory : khash_memory} {k : Int} {page : memory_page}
    (hp : page.addr.length = 4096) (h : pages_ok memory) : pages_ok ((k, page) :: memory) := by
  intro e he
  rcases List.mem_cons.mp he with rfl | he
  · exact hp
  · exact h e he

theorem pages_ok_get {memory : khash_memory} (h : pages_ok memory) {k : Int}
    {page : memory_page} (hk : kh_get memory k = some page) : page.addr.length = 4096 := by
  induction memory with
  | nil => simp [kh_get] at hk
  | cons e rest ih =>
    obtain ⟨k0, p0⟩ := e
    by_cases h0 : k0 = k
    · simp only [kh_get, h0, if_true, Option.some.injEq] at hk
      subst hk
      exact h (k0, p0) (List.mem_cons_self _ _)
    · simp only [kh_get, h0, if_false] at hk
      exact ih (fun e he => h e (List.mem_cons_of_mem _ he)) hk

theorem pages_ok_update {memory : khash_memory} (h : pages_ok memory) (key : Int)
    (f : memory_page → memory_page)
    (hf : ∀ page, kh_get memory key = some page → (f page).addr.length = 4096) :
    pages_ok (kh_update memory key f) := by
  induction memory with
  | nil => simpa [kh_update] using h
  | cons e rest ih =>
    obtain ⟨k0, p0⟩ := e
    have hrest : pages_ok rest := fun e he => h e (List.mem_cons_of_mem _ he)
    by_cases h0 : k0 = key
    · simp only [kh_update, h0, if_true]
      intro e he
      rcases List.mem_cons.mp he with rfl | he
      · exact hf p0 (by simp [kh_get, h0])
      · exact hrest e he
    · simp only [kh_update, h0, if_false]
      intro e he
      rcases List.mem_cons.mp he with rfl | he
      · exact h (k0, p0) (List.mem_cons_self _ _)
      · exact ih hrest (fun page hp => hf page (by simpa [kh_get, h0] using hp)) e he

/-! ## The loop of `mem_write` -/

theorem mem_write_loop_succ (A E : Int) (fuel : Nat) (memory : khash_memory) (v : Int)
    (src : List Byte) (hlt : v < E) (hAv : A < v + 4096) (hlov : -(2 ^ 63) ≤ v)
    (hhi : E ≤ 2 ^ 63 - 4096) :
    mem_write_loop A E (fuel + 1) memory v src =
      match kh_get memory v with
      | none => some (1, memory)
      | some _ => mem_write_loop A E fuel (kh_update memory v (write_seg A E v src))
          (v + 4096) (src.drop (seg_end E v - seg_start A v).toNat) := by
  have hw : wrap64 (v + PAGE_SIZE) = v + 4096 := by
    rw [PAGE_SIZE_eq]; apply wrap64_of_range <;> omega
  have hstart : (if v < A then wrap64 (A - v) else 0) = seg_start A v := by
    unfold seg_start
    split_ifs
    · apply wrap64_of_range <;> omega
    · rfl
  have hend : (if v + 4096 ≤ E then PAGE_SIZE else wrap64 (E - v)) = seg_end E v := by
    unfold seg_end
    split_ifs
    · rfl
    · apply wrap64_of_range <;> omega
  have hlen : wrap64 (seg_end E v - seg_start A v) = seg_end E v - seg_start A v := by
    unfold seg_end seg_start
    apply wrap64_of_range <;> split_ifs <;> omega
  simp only [mem_write_loop, hlt, if_true, hw, hstart, hend, hlen]
  rfl

theorem guest_byte_write_seg (memory : khash_memory) (A E v : Int) (src : List Byte)
    (pg : memory_page) (hv : v % 4096 = 0) (hpage : kh_get memory v = some pg)
    (hlen : pg.addr.length = 4096) (hAv : A < v + 4096) (hlt : v < E) (hAE : A ≤ E)
    (hsrc : (seg_end E v - seg_start A v).toNat ≤ src.length) (x : Int) :
    guest_byte (kh_update memory v (write_seg A E v src)) x =
      if v ≤ x ∧ A ≤ x ∧ x < v + 4096 ∧ x < E then src[(x - v - seg_start A v).toNat]?
      else guest_byte memory x := by
  rw [guest_byte_eq, guest_byte_eq, kh_get_update]
  by_cases hbase : x - x % 4096 = v
  · have hxv : v ≤ x ∧ x < v + 4096 := by omega
    have hoff : (x % 4096).toNat = (x - v).toNat := by omega
    rw [if_pos hbase, hpage, hbase, hpage]
    simp only [Option.map_some', Option.some_bind, write_seg]
    have hbound : (seg_start A v).toNat + (seg_end E v - seg_start A v).toNat ≤
        pg.addr.length := by
      rw [hlen]; unfold seg_start seg_end; split_ifs <;> omega
    rw [getElem?_memcpy _ _ _ _ hbound hsrc, hoff]
    have hst : seg_start A v = if v < A then A - v else 0 := rfl
    have hen : seg_end E v = if v + 4096 ≤ E then 4096 else E - v := rfl
    by_cases hin : A ≤ x ∧ x < E
    · rw [if_pos (by rw [hst, hen]; split_ifs <;> omega), if_pos ⟨hxv.1, hin.1, hxv.2, hin.2⟩]
      congr 1
      rw [hst]; split_ifs <;> omega
    · rw [if_neg (by rw [hst, hen]; split_ifs <;> omega), if_neg (by omega)]
  · rw [if_neg hbase, if_neg (by omega)]

theorem kh_get_write_seg_ne_none (memory : khash_memory) (A E v : Int) (src : List Byte)
    (k : Int) :
    kh_get (kh_update memory v (write_seg A E v src)) k ≠ none ↔ kh_get memory k ≠ none := by
  rw [kh_get_update]
  by_cases hk : k = v
  · subst hk; rw [if_pos rfl]; cases kh_get memory k <;> simp
  · rw [if_neg hk]

theorem kh_get_write_seg_perms (memory : khash_memory) (A E v : Int) (src : List Byte)
    (k : Int) :
    (kh_get (kh_update memory v (write_seg A E v src)) k).map (fun page => page.perms) =
      (kh_get memory k).map (fun page => page.perms) := by
  rw [kh_get_update]
  by_cases hk : k = v
  · subst hk; rw [if_pos rfl]; cases kh_get memory k <;> simp [write_seg]
  · rw [if_neg hk]

/-- The loop of `mem_write` from the page at `v` on: it leaves with code 1 at
the lowest unmapped page base of `[v, E)` and with code 0 when there is none,
and the guest bytes it has stored by then are those of the addresses `x` of
`[max v A, E)` below that page base. -/
theorem mem_write_loop_spec (A : Int) (bytes : List Byte) (E : Int)
    (hE : E = A + bytes.length) (hhi : E ≤ 2 ^ 63 - 4096) (fuel : Nat) :
    ∀ (memory : khash_memory) (v : Int) (src : List Byte),
      v % 4096 = 0 → A < v + 4096 → -(2 ^ 63) ≤ v → 0 < fuel →
      E - v + 4096 ≤ 4096 * fuel → pages_ok memory →
      (v < E → src = bytes.drop (v + seg_start A v - A).toNat) →
      ∃ (code : Int) (memory' : khash_memory),
        mem_write_loop A E fuel memory v src = some (code, memory') ∧
        pages_ok memory' ∧
        (∀ k : Int, (kh_get memory' k).map (fun page => page.perms) =
          (kh_get memory k).map (fun page => page.perms)) ∧
        ((∃ k : Int, v ≤ k ∧ k < E ∧ k % 4096 = 0 ∧ kh_get memory k = none) → code = 1) ∧
        ((∀ k : Int, v ≤ k → k < E → k % 4096 = 0 → kh_get memory k ≠ none) → code = 0) ∧
        (∀ x : Int, v ≤ x → A ≤ x → x < E →
          (∀ k : Int, v ≤ k → k ≤ x → k % 4096 = 0 → kh_get memory k ≠ none) →
          guest_byte memory' x = bytes[(x - A).toNat]?) ∧
        (∀ x : Int, ¬ (v ≤ x ∧ A ≤ x ∧ x < E ∧
            ∀ k : Int, v ≤ k → k ≤ x → k % 4096 = 0 → kh_get memory k ≠ none) →
          guest_byte memory' x = guest_byte memory x) := by
  induction fuel with
  | zero => intro _ _ _ _ _ _ hf; omega
  | succ fuel ih =>
    intro memory v src hv hAv hlov _ hfuel hok hsrc
    by_cases hlt : v < E
    swap
    · refine ⟨0, memory, by simp [mem_write_loop, hlt], hok, fun _ => rfl, ?_, fun _ => rfl, ?_,
        fun _ _ => rfl⟩
      · rintro ⟨k, h1, h2, _⟩; omega
      · intro x h1 _ h3 _; omega
    have hstep := mem_write_loop_succ A E fuel memory v src hlt hAv hlov hhi
    cases hget : kh_get memory v with
    | none =>
      rw [hget] at hstep
      refine ⟨1, memory, hstep, hok, fun _ => rfl, fun _ => rfl, ?_, ?_, fun _ _ => rfl⟩
      · intro hall; exact absurd hget (hall v le_rfl hlt hv)
      · intro x h1 _ _ hall; exact absurd hget (hall v le_rfl h1 hv)
    | some pg =>
      rw [hget] at hstep
      have hst : seg_start A v = if v < A then A - v else 0 := rfl
      have hen : seg_end E v = if v + 4096 ≤ E then 4096 else E - v := rfl
      have hpglen : pg.addr.length = 4096 := pages_ok_get hok hget
      have hsrcv := hsrc hlt
      have hsrclen : (seg_end E v - seg_start A v).toNat ≤ src.length := by
        rw [hsrcv, List.length_drop, hst, hen]; split_ifs <;> omega
      have hok1 : pages_ok (kh_update memory v (write_seg A E v src)) := by
        apply pages_ok_update hok
        intro page hpage
        rw [hget] at hpage
        cases hpage
        show (memcpy pg.addr _ src _).length = 4096
        rw [length_memcpy _ _ _ _ _ hsrclen, hpglen]
        rw [hpglen, hst, hen]; split_ifs <;> omega
      have hfuel1 : 0 < fuel := by omega
      have hsrc1 : v + 4096 < E → src.drop (seg_end E v - seg_start A v).toNat =
          bytes.drop (v + 4096 + seg_start A (v + 4096) - A).toNat := by
        intro hlt1
        have hst1 : seg_start A (v + 4096) = 0 := by unfold seg_start; rw [if_neg (by omega)]
        rw [hsrcv, List.drop_drop, hst1]
        congr 1
        rw [hst, hen]; split_ifs <;> omega
      obtain ⟨code, memory', hrun, hok', hperm, hc1, hc0, hw, hnw⟩ :=
        ih (kh_update memory v (write_seg A E v src)) (v + 4096)
          (src.drop (seg_end E v - seg_start A v).toNat) (by omega) (by omega) (by omega)
          hfuel1 (by omega) hok1 hsrc1
      have hmap : ∀ k : Int, kh_get (kh_update memory v (write_seg A E v src)) k ≠ none ↔
          kh_get memory k ≠ none := kh_get_write_seg_ne_none memory A E v src
      have hvmapped : kh_get memory v ≠ none := by rw [hget]; simp
      have hbyte1 := guest_byte_write_seg memory A E v src pg hv hget hpglen hAv hlt (by omega)
        hsrclen
      refine ⟨code, memory', hstep.trans hrun, hok', ?_, ?_, ?_, ?_, ?_⟩
      · intro k
        exact (hperm k).trans (kh_get_write_seg_perms memory A E v src k)
      · rintro ⟨k, hk1, hk2, hk3, hk4⟩
        have hkv : k ≠ v := fun h => hvmapped (h ▸ hk4)
        apply hc1
        refine ⟨k, by omega, hk2, hk3, ?_⟩
        by_contra hc
        exact (hmap k).mp hc hk4
      · intro hall
        apply hc0
        intro k hk1 hk2 hk3
        exact (hmap k).mpr (hall k (by omega) hk2 hk3)
      · intro x hx1 hx2 hx3 hall
        by_cases hx4 : x < v + 4096
        · rw [hnw x (by omega), hbyte1 x, if_pos ⟨hx1, hx2, hx4, hx3⟩, hsrcv,
            List.getElem?_drop]
          congr 1
          rw [hst]; split_ifs <;> omega
        · apply hw x (by omega) hx2 hx3
          intro k hk1 hk2 hk3
          exact (hmap k).mpr (hall k (by omega) hk2 hk3)
      · intro x hx
        have hnw1 : ¬ (v + 4096 ≤ x ∧ A ≤ x ∧ x < E ∧
            ∀ k : Int, v + 4096 ≤ k → k ≤ x → k % 4096 = 0 →
              kh_get (kh_update memory v (write_seg A E v src)) k ≠ none) := by
          rintro ⟨h1, h2, h3, h4⟩
          apply hx
          refine ⟨by omega, h2, h3, ?_⟩
          intro k hk1 hk2 hk3
          by_cases hkv : k = v
          · rw [hkv]; exact hvmapped
          · exact (hmap k).mp (h4 k (by omega) hk2 hk3)
        rw [hnw x hnw1, hbyte1 x, if_neg]
        rintro ⟨h1, h2, h3, h4⟩
        apply hx
        refine ⟨h1, h2, h4, ?_⟩
        intro k hk1 hk2 hk3
        have hkv : k = v := by omega
        rw [hkv]; exact hvmapped

/-- The function `mem_write` on a store of whole pages, with the byte range
below the last page of the signed range: the outcome of the page loop started
at the page of `address`. -/
theorem mem_write_spec (memory : khash_memory) (address : Int) (bytes : List Byte)
    (hok : pages_ok memory) (hlo : -(2 ^ 63) ≤ address)
    (hhi : address + bytes.length ≤ 2 ^ 63 - 4096) :
    ∃ (code : Int) (memory' : khash_memory),
      mem_write memory address bytes = some (code, memory') ∧
      pages_ok memory' ∧
      (∀ k : Int, (kh_get memory' k).map (fun page => page.perms) =
        (kh_get memory k).map (fun page => page.perms)) ∧
      ((∃ k : Int, address - address % 4096 ≤ k ∧ k < address + bytes.length ∧ k % 4096 = 0 ∧
        kh_get memory k = none) → code = 1) ∧
      ((∀ k : Int, address - address % 4096 ≤ k → k < address + bytes.length → k % 4096 = 0 →
        kh_get memory k ≠ none) → code = 0) ∧
      (∀ x : Int, address ≤ x → x < address + bytes.length →
        (∀ k : Int, address - address % 4096 ≤ k → k ≤ x → k % 4096 = 0 →
          kh_get memory k ≠ none) →
        guest_byte memory' x = bytes[(x - address).toNat]?) ∧
      (∀ x : Int, ¬ (address ≤ x ∧ x < address + bytes.length ∧
          ∀ k : Int, address - address % 4096 ≤ k → k ≤ x → k % 4096 = 0 →
            kh_get memory k ≠ none) →
        guest_byte memory' x = guest_byte memory x) := by
  have hw : wrap64 (address + bytes.length) = address + bytes.length :=
    wrap64_of_range (by omega) (by omega)
  have hst : seg_start address (address - address % 4096) = address % 4096 := by
    unfold seg_start; split_ifs <;> omega
  obtain ⟨code, memory', hrun, hok', hperm, hc1, hc0, hwr, hnw⟩ :=
    mem_write_loop_spec address bytes (address + bytes.length) rfl hhi LOOP_FUEL memory
      (address - address % 4096) bytes (by omega) (by omega) (by omega) (by decide)
      (by unfold LOOP_FUEL; omega) hok
      (fun _ => by
        rw [hst]
        have : (address - address % 4096 + address % 4096 - address).toNat = 0 := by omega
        rw [this, List.drop_zero])
  refine ⟨code, memory', ?_, hok', hperm, hc1, hc0, ?_, ?_⟩
  · simp only [mem_write, hw, and_not_PAGE_MASK_eq]
    exact hrun
  · intro x hx1 hx2 hall
    exact hwr x (by omega) hx1 hx2 hall
  · intro x hx
    apply hnw x
    rintro ⟨_, h2, h3, h4⟩
    exact hx ⟨h2, h3, h4⟩

/-! ## Bulk writes to unmapped pages -/

/-- C9, as stated, fails for the empty byte sequence at a page-aligned address:
on the empty store the page of 0x1000 is not mapped, and `mem_write(0x1000, [])`
returns 0, not 1 (the page loop is not entered). -/
theorem mem_write_empty_at_page_start :
    kh_get [] (and_not_PAGE_MASK 0x1000) = none ∧ mem_write [] 0x1000 [] = some (0, []) := by
  decide

/-- C9 (amended): for every address whose containing page (the address rounded
down to a multiple of 4096) is not mapped and every byte sequence that is not
empty, or of any length when the address is not a multiple of 4096 (the sums
staying inside the signed range), `mem_write` returns 1 and leaves the page
store as it was. -/
theorem mem_write_unmapped_page (memory : khash_memory) (address : Int) (bytes : List Byte)
    (hlo : -(2 ^ 63) ≤ address) (hhi : address + bytes.length < 2 ^ 63)
    (hpage : kh_get memory (address - address % 4096) = none)
    (hcover : bytes ≠ [] ∨ address % 4096 ≠ 0) :
    mem_write memory address bytes = some (1, memory) := by
  have hw : wrap64 (address + bytes.length) = address + bytes.length :=
    wrap64_of_range (by omega) hhi
  have hlen : bytes = [] ∨ 0 < bytes.length := by
    cases bytes with
    | nil => exact Or.inl rfl
    | cons b bs => exact Or.inr (by simp)
  have hlt : address - address % 4096 < address + bytes.length := by
    rcases hcover with h | h
    · rcases hlen with h2 | h2
      · exact absurd h2 h
      · omega
    · omega
  have hfuel : LOOP_FUEL = 2 ^ 52 + 1 := rfl
  simp only [mem_write, hw, and_not_PAGE_MASK_eq, hfuel]
  rw [mem_write_loop]
  simp [hlt, hpage]

/-- Witness of C9 (amended): one byte written to the unmapped page of 0x1000. -/
theorem mem_write_unmapped_page_witness : mem_write [] 0x1000 [7] = some (1, []) :=
  mem_write_unmapped_page [] 0x1000 [7] (by decide) (by decide) (by decide) (by decide)

/-- C10: for every `mem_write(address, bytes)` on a store of whole pages (the
byte range ending below the last page of the signed range), the guest bytes
outside `[address, address + len(bytes))` are unchanged whatever the outcome;
and when `p` is the lowest unmapped page base among those the write covers, the
call returns 1, guest byte `address + i` equals `bytes[i]` for every `i` with
`address + i < p`, and no byte at or above `p` is changed. -/
theorem mem_write_stops_at_gap (memory : khash_memory) (address : Int) (bytes : List Byte)
    (hok : pages_ok memory) (hlo : -(2 ^ 63) ≤ address)
    (hhi : address + bytes.length ≤ 2 ^ 63 - 4096) :
    ∃ (code : Int) (memory' : khash_memory),
      mem_write memory address bytes = some (code, memory') ∧
      (∀ x : Int, ¬ (address ≤ x ∧ x < address + bytes.length) →
        guest_byte memory' x = guest_byte memory x) ∧
      (∀ p : Int, (address - address % 4096 ≤ p ∧ p < address + bytes.length ∧ p % 4096 = 0) →
        kh_get memory p = none →
        (∀ k : Int, address - address % 4096 ≤ k → k < p → k % 4096 = 0 →
          kh_get memory k ≠ none) →
        code = 1 ∧
        (∀ i : Nat, i < bytes.length → address + i < p →
          guest_byte memory' (address + i) = bytes[i]?) ∧
        (∀ x : Int, p ≤ x → guest_byte memory' x = guest_byte memory x)) := by
  obtain ⟨code, memory', hrun, _, _, hc1, _, hwr, hnw⟩ :=
    mem_write_spec memory address bytes hok hlo hhi
  refine ⟨code, memory', hrun, ?_, ?_⟩
  · intro x hx
    apply hnw x
    rintro ⟨h1, h2, _⟩
    exact hx ⟨h1, h2⟩
  · intro p hp hpn hlow
    refine ⟨hc1 ⟨p, hp.1, hp.2.1, hp.2.2, hpn⟩, ?_, ?_⟩
    · intro i hi hip
      have := hwr (address + i) (by omega) (by omega)
        (fun k hk1 hk2 hk3 => hlow k hk1 (by omega) hk3)
      rw [this]
      congr 1
      omega
    · intro x hx
      apply hnw x
      rintro ⟨_, _, h3⟩
      exact h3 p hp.1 hx hp.2.2 hpn

/-- Witness of C10: three bytes written at 0x1ffe with only the page at 0x1000
mapped. -/
theorem mem_write_stops_at_gap_witness :
    ∃ (code : Int) (memory' : khash_memory),
      mem_write [(0x1000, ⟨fresh_page_buffer, 3⟩)] 0x1ffe [1, 2, 3] = some (code, memory') ∧
      (∀ x : Int, ¬ (0x1ffe ≤ x ∧ x < 0x1ffe + ([1, 2, 3] : List Byte).length) →
        guest_byte memory' x = guest_byte [(0x1000, ⟨fresh_page_buffer, 3⟩)] x) ∧
      (∀ p : Int, (0x1ffe - 0x1ffe % 4096 ≤ p ∧ p < 0x1ffe + ([1, 2, 3] : List Byte).length ∧
          p % 4096 = 0) →
        kh_get [(0x1000, ⟨fresh_page_buffer, 3⟩)] p = none →
        (∀ k : Int, 0x1ffe - 0x1ffe % 4096 ≤ k → k < p → k % 4096 = 0 →
          kh_get [(0x1000, ⟨fresh_page_buffer, 3⟩)] k ≠ none) →
        code = 1 ∧
        (∀ i : Nat, i < ([1, 2, 3] : List Byte).length → 0x1ffe + i < p →
          guest_byte memory' (0x1ffe + i) = ([1, 2, 3] : List Byte)[i]?) ∧
        (∀ x : Int, p ≤ x →
          guest_byte memory' x = guest_byte [(0x1000, ⟨fresh_page_buffer, 3⟩)] x)) :=
  mem_write_stops_at_gap [(0x1000, ⟨fresh_page_buffer, 3⟩)] 0x1ffe [1, 2, 3]
    (pages_ok_cons length_fresh_page_buffer pages_ok_nil) (by decide) (by decide)

/-! ## The loop of `mem_read` and the round trip -/

theorem mem_read_loop_succ (memory : khash_memory) (A E : Int) (fuel : Nat) (b : List Byte)
    (dest v : Int) (hlt : v < E) (hAv : A < v + 4096) (hlov : -(2 ^ 63) ≤ v)
    (hhi : E ≤ 2 ^ 63 - 4096) :
    mem_read_loop memory A E (fuel + 1) (some b) dest v =
      match kh_get memory v with
      | none => some none
      | some page => mem_read_loop memory A E fuel
          (some (memcpy b dest.toNat (page.addr.drop (seg_start A v).toNat)
            (seg_end E v - seg_start A v).toNat))
          (wrap64 (dest + (seg_end E v - seg_start A v))) (v + 4096) := by
  have hw : wrap64 (v + PAGE_SIZE) = v + 4096 := by
    rw [PAGE_SIZE_eq]; apply wrap64_of_range <;> omega
  have hstart : (if v < A then wrap64 (A - v) else 0) = seg_start A v := by
    unfold seg_start
    split_ifs
    · apply wrap64_of_range <;> omega
    · rfl
  have hend : (if v + 4096 ≤ E then PAGE_SIZE else wrap64 (E - v)) = seg_end E v := by
    unfold seg_end
    split_ifs
    · rfl
    · apply wrap64_of_range <;> omega
  have hlen : wrap64 (seg_end E v - seg_start A v) = seg_end E v - seg_start A v := by
    unfold seg_end seg_start
    apply wrap64_of_range <;> split_ifs <;> omega
  simp only [mem_read_loop, hlt, if_true, hw, hstart, hend, hlen]

/-- The loop of `mem_read` from the page at `v` on, all page bases of `[v, E)`
mapped: it returns an array of the requested length whose bytes from index
`v - A` on are the guest bytes, those before being the ones of `b`. -/
theorem mem_read_loop_spec (memory : khash_memory) (A : Int) (n : Nat) (E : Int)
    (hE : E = A + n) (hn : (n : Int) < 2 ^ 31) (hhi : E ≤ 2 ^ 63 - 4096)
    (hok : pages_ok memory) (fuel : Nat) :
    ∀ (b : List Byte) (dest v : Int),
      v % 4096 = 0 → A < v + 4096 → -(2 ^ 63) ≤ v → 0 < fuel →
      E - v + 4096 ≤ 4096 * fuel → b.length = n →
      (v < E → dest = v + seg_start A v - A) →
      (∀ k : Int, v ≤ k → k < E → k % 4096 = 0 → kh_get memory k ≠ none) →
      ∃ out : List Byte,
        mem_read_loop memory A E fuel (some b) dest v = some (some out) ∧
        out.length = n ∧
        ∀ i : Nat, i < n →
          out[i]? = if v ≤ A + i then guest_byte memory (A + i) else b[i]? := by
  induction fuel with
  | zero => intro _ _ _ _ _ _ hf; omega
  | succ fuel ih =>
    intro b dest v hv hAv hlov _ hfuel hb hdest hall
    by_cases hlt : v < E
    swap
    · refine ⟨b, by simp [mem_read_loop, hlt], hb, ?_⟩
      intro i hi
      rw [if_neg (by omega)]
    have hstep := mem_read_loop_succ memory A E fuel b dest v hlt hAv hlov hhi
    obtain ⟨pg, hget⟩ := Option.ne_none_iff_exists'.mp (hall v le_rfl hlt hv)
    rw [hget] at hstep
    have hst : seg_start A v = if v < A then A - v else 0 := rfl
    have hen : seg_end E v = if v + 4096 ≤ E then 4096 else E - v := rfl
    have hpglen : pg.addr.length = 4096 := pages_ok_get hok hget
    have hd := hdest hlt
    have hbound : dest.toNat + (seg_end E v - seg_start A v).toNat ≤ b.length := by
      rw [hb, hd, hst, hen]; split_ifs <;> omega
    have hsrclen : (seg_end E v - seg_start A v).toNat ≤
        (pg.addr.drop (seg_start A v).toNat).length := by
      rw [List.length_drop, hpglen, hst, hen]; split_ifs <;> omega
    have hw : wrap64 (dest + (seg_end E v - seg_start A v)) =
        dest + (seg_end E v - seg_start A v) := by
      apply wrap64_of_range <;> (rw [hd, hst, hen]; split_ifs <;> omega)
    rw [hw] at hstep
    obtain ⟨out, hrun, hlen, hout⟩ := ih
      (memcpy b dest.toNat (pg.addr.drop (seg_start A v).toNat)
        (seg_end E v - seg_start A v).toNat)
      (dest + (seg_end E v - seg_start A v)) (v + 4096) (by omega) (by omega) (by omega)
      (by omega) (by omega)
      (by rw [length_memcpy _ _ _ _ hbound hsrclen, hb])
      (fun hlt1 => by
        have hst1 : seg_start A (v + 4096) = 0 := by unfold seg_start; rw [if_neg (by omega)]
        rw [hst1, hd, hst, hen]; split_ifs <;> omega)
      (fun k hk1 hk2 hk3 => hall k (by omega) hk2 hk3)
    refine ⟨out, hstep.trans hrun, hlen, ?_⟩
    intro i hi
    rw [hout i hi]
    by_cases h1 : v + 4096 ≤ A + i
    · rw [if_pos h1, if_pos (by omega)]
    · rw [if_neg h1, getElem?_memcpy _ _ _ _ hbound hsrclen]
      by_cases h2 : v ≤ A + i
      · rw [if_pos h2, if_pos (by rw [hd, hst, hen]; split_ifs <;> omega), List.getElem?_drop,
          guest_byte_eq]
        have hbase : A + i - (A + i) % 4096 = v := by omega
        rw [hbase, hget]
        simp only [Option.some_bind]
        congr 1
        rw [hd, hst]; split_ifs <;> omega
      · rw [if_neg h2, if_neg (by rw [hd, hst]; split_ifs <;> omega)]

/-- The function `mem_read` on a store of whole pages whose covered pages are
all mapped: an array of `n` bytes, the guest bytes from `address` on. -/
theorem mem_read_spec (memory : khash_memory) (address : Int) (n : Nat)
    (hok : pages_ok memory) (hlo : -(2 ^ 63) ≤ address) (hn : (n : Int) < 2 ^ 31)
    (hhi : address + n ≤ 2 ^ 63 - 4096)
    (hall : ∀ k : Int, address - address % 4096 ≤ k → k < address + n → k % 4096 = 0 →
      kh_get memory k ≠ none) :
    ∃ out : List Byte,
      mem_read memory address n = some (some out) ∧ out.length = n ∧
      ∀ i : Nat, i < n → out[i]? = guest_byte memory (address + i) := by
  have hw : wrap64 (address + n) = address + n := wrap64_of_range (by omega) (by omega)
  have hst : seg_start address (address - address % 4096) = address % 4096 := by
    unfold seg_start; split_ifs <;> omega
  obtain ⟨out, hrun, hlen, hout⟩ :=
    mem_read_loop_spec memory address n (address + n) rfl hn hhi hok LOOP_FUEL
      (List.replicate n 0) 0 (address - address % 4096) (by omega) (by omega) (by omega)
      (by decide) (by unfold LOOP_FUEL; omega) (List.length_replicate _ _)
      (fun _ => by rw [hst]; omega) hall
  refine ⟨out, ?_, hlen, ?_⟩
  · simp only [mem_read, hw, and_not_PAGE_MASK_eq, Int.toNat_ofNat, Nat.cast_nonneg, if_true]
    exact hrun
  · intro i hi
    rw [hout i hi, if_pos (by omega)]

/-- C1, as stated, fails when a page strictly between the two ends is not
mapped: with pages at 0x1000 and 0x3000 only, the address 0x1fff and the end
0x1fff + 4098 = 0x3001 both lie inside mapped pages, and `mem_write` of 4098
bytes at 0x1fff returns 1 (the page at 0x2000 is missing), not 0. -/
theorem mem_write_gap_between_ends :
    (kh_get [(0x1000, ⟨fresh_page_buffer, 3⟩), (0x3000, ⟨fresh_page_buffer, 3⟩)]
      (and_not_PAGE_MASK 0x1fff)).isSome = true ∧
    (List.replicate 4098 0 : List Byte).length = 4098 ∧
    (kh_get [(0x1000, ⟨fresh_page_buffer, 3⟩), (0x3000, ⟨fresh_page_buffer, 3⟩)]
      (and_not_PAGE_MASK (0x1fff + 4098))).isSome = true ∧
    (mem_write [(0x1000, ⟨fresh_page_buffer, 3⟩), (0x3000, ⟨fresh_page_buffer, 3⟩)] 0x1fff
      (List.replicate 4098 0)).map (fun r => r.1) = some 1 := by
  refine ⟨by decide, List.length_replicate _ _, by decide, ?_⟩
  obtain ⟨code, memory', hrun, _, _, hc1, _⟩ := mem_write_spec
    [(0x1000, ⟨fresh_page_buffer, 3⟩), (0x3000, ⟨fresh_page_buffer, 3⟩)] 0x1fff
    (List.replicate 4098 0)
    (pages_ok_cons length_fresh_page_buffer (pages_ok_cons length_fresh_page_buffer pages_ok_nil))
    (by decide) (by rw [List.length_replicate]; decide)
  have hcode : code = 1 :=
    hc1 ⟨0x2000, by decide, by rw [List.length_replicate]; decide, by decide, by decide⟩
  rw [hrun, hcode]
  rfl

/-- C1 (amended): on a store of whole pages, for every address and byte
sequence such that every page the write covers (every page base from the page
of `address` up to `address + len(bytes)`, the pages in between included) is
mapped, with `len(bytes)` an array length below 2^31 and the byte range ending
below the last page of the signed range, `mem_write(address, bytes)` returns 0
and a following `mem_read(address, len(bytes))` returns exactly `bytes`. -/
theorem mem_write_read_roundtrip (memory : khash_memory) (address : Int) (bytes : List Byte)
    (hok : pages_ok memory) (hlo : -(2 ^ 63) ≤ address)
    (hn : (bytes.length : Int) < 2 ^ 31)
    (hhi : address + bytes.length ≤ 2 ^ 63 - 4096)
    (hall : ∀ k : Int, address - address % 4096 ≤ k → k < address + bytes.length →
      k % 4096 = 0 → kh_get memory k ≠ none) :
    ∃ memory' : khash_memory,
      mem_write memory address bytes = some (0, memory') ∧
      mem_read memory' address bytes.length = some (some bytes) := by
  obtain ⟨code, memory', hrun, hok', hperm, _, hc0, hwr, _⟩ :=
    mem_write_spec memory address bytes hok hlo hhi
  have hcode : code = 0 := hc0 hall
  subst hcode
  have hall' : ∀ k : Int, address - address % 4096 ≤ k → k < address + bytes.length →
      k % 4096 = 0 → kh_get memory' k ≠ none := by
    intro k hk1 hk2 hk3 hnone
    have h1 := hperm k
    rw [hnone] at h1
    have h2 := hall k hk1 hk2 hk3
    cases hk : kh_get memory k with
    | none => exact h2 hk
    | some pg => rw [hk] at h1; simp at h1
  obtain ⟨out, hread, hlen, hout⟩ :=
    mem_read_spec memory' address bytes.length hok' hlo hn hhi hall'
  refine ⟨memory', hrun, ?_⟩
  rw [hread]
  congr 2
  apply List.ext_getElem?
  intro i
  by_cases hi : i < bytes.length
  · rw [hout i hi, hwr (address + i) (by omega) (by omega)
      (fun k hk1 hk2 hk3 => hall k hk1 (by omega) hk3)]
    congr 1
    omega
  · rw [List.getElem?_eq_none (by omega), List.getElem?_eq_none (by omega)]

/-- Witness of C1 (amended): three bytes across the boundary of two mapped pages. -/
theorem mem_write_read_roundtrip_witness :
    ∃ memory' : khash_memory,
      mem_write [(0x1000, ⟨fresh_page_buffer, 3⟩), (0x2000, ⟨fresh_page_buffer, 1⟩)] 0x1ffe
        [1, 2, 3] = some (0, memory') ∧
      mem_read memory' 0x1ffe ([1, 2, 3] : List Byte).length = some (some [1, 2, 3]) :=
  mem_write_read_roundtrip
    [(0x1000, ⟨fresh_page_buffer, 3⟩), (0x2000, ⟨fresh_page_buffer, 1⟩)] 0x1ffe [1, 2, 3]
    (pages_ok_cons length_fresh_page_buffer (pages_ok_cons length_fresh_page_buffer pages_ok_nil))
    (by decide) (by decide) (by decide)
    (fun k h1 h2 h3 => by
      have hk : k = 0x1000 ∨ k = 0x2000 := by
        simp only [List.length_cons, List.length_nil] at h2
        omega
      rcases hk with rfl | rfl <;> decide)

/-! ## Accessor callbacks: bits, addresses and little-endian bytes -/

theorem land_one (x : Nat) : x &&& 1 = x % 2 := Nat.and_pow_two_sub_one_eq_mod x 1

theorem land_three (x : Nat) : x &&& 3 = x % 4 := Nat.and_pow_two_sub_one_eq_mod x 2

theorem land_seven (x : Nat) : x &&& 7 = x % 8 := Nat.and_pow_two_sub_one_eq_mod x 3

theorem shl_lor (i a b : Nat) (ha : a < 2 ^ i) : (b <<< i) ||| a = a + 2 ^ i * b := by
  rw [Nat.shiftLeft_eq, Nat.mul_comm b, ← Nat.mul_add_lt_is_or ha b, Nat.add_comm]

theorem to_long_mod (v : Nat) : to_long v % 4096 = (v : Int) % 4096 := by
  unfold to_long wrap64
  omega

theorem get_memory_to_long (memory : khash_memory) (v : Nat) :
    get_memory memory (to_long v) =
      match kh_get memory (page_key v) with
      | none => none
      | some page => some ⟨page_key v, page, v % 4096⟩ := by
  have hoff : (wrap64 (to_long v - and_not_PAGE_MASK (to_long v))).toNat = v % 4096 := by
    rw [and_not_PAGE_MASK_eq]
    have h1 : to_long v - (to_long v - to_long v % 4096) = to_long v % 4096 := by ring
    rw [h1, to_long_mod, wrap64_of_range (by omega) (by omega)]
    omega
  unfold get_memory page_key
  simp only [hoff]

theorem page_key_eq_of_div {u v : Nat} (h : u / 4096 = v / 4096) : page_key u = page_key v := by
  unfold page_key to_long wrap64
  rw [and_not_PAGE_MASK_eq, and_not_PAGE_MASK_eq]
  omega

theorem le_value_take_add (w1 w2 : Nat) :
    ∀ l : List Byte, le_value (l.take (w1 + w2)) =
      le_value (l.take w1) + 256 ^ w1 * le_value ((l.drop w1).take w2) := by
  induction w1 with
  | zero => intro l; simp [le_value]
  | succ w1 ih =>
    intro l
    cases l with
    | nil => simp [le_value]
    | cons b t =>
      have h : w1 + 1 + w2 = (w1 + w2) + 1 := by omega
      rw [h]
      simp only [List.take_succ_cons, List.drop_succ_cons, le_value, ih t]
      ring

theorem le_value_lt (l : List Byte) : le_value l < 256 ^ l.length := by
  induction l with
  | nil => simp [le_value]
  | cons b t ih =>
    simp only [le_value, List.length_cons, pow_succ]
    have := b.isLt
    omega

theorem le_value_take_lt (l : List Byte) (w : Nat) : le_value (l.take w) < 256 ^ w := by
  have h1 := le_value_lt (l.take w)
  have h2 : (l.take w).length ≤ w := by rw [List.length_take]; omega
  exact lt_of_lt_of_le h1 (Nat.pow_le_pow_right (by decide) h2)

theorem length_le_bytes (w value : Nat) : (le_bytes w value).length = w := by
  induction w generalizing value with
  | zero => rfl
  | succ w ih => simp [le_bytes, ih]

theorem le_value_le_bytes (w value : Nat) : le_value (le_bytes w value) = value % 256 ^ w := by
  induction w generalizing value with
  | zero => simp [le_bytes, le_value, Nat.mod_one]
  | succ w ih =>
    simp only [le_bytes, le_value, ih]
    rw [pow_succ, Nat.mul_comm (256 ^ w) 256, Nat.mod_mul]

theorem le_bytes_add (w1 w2 value : Nat) :
    le_bytes (w1 + w2) value = le_bytes w1 value ++ le_bytes w2 (value / 256 ^ w1) := by
  induction w1 generalizing value with
  | zero => simp [le_bytes]
  | succ w1 ih =>
    have h : w1 + 1 + w2 = (w1 + w2) + 1 := by omega
    rw [h]
    simp only [le_bytes, ih, List.cons_append, pow_succ]
    rw [Nat.div_div_eq_div_mul, Nat.mul_comm 256]

theorem le_bytes_mod (w value : Nat) (k : Nat) (hk : w ≤ k) :
    le_bytes w (value % 256 ^ k) = le_bytes w value := by
  induction w generalizing value k with
  | zero => rfl
  | succ w ih =>
    obtain ⟨k', rfl⟩ : ∃ k', k = k' + 1 := ⟨k - 1, by omega⟩
    simp only [le_bytes]
    have h1 : value % 256 ^ (k' + 1) % 256 = value % 256 := by
      rw [pow_succ, Nat.mul_comm]
      exact Nat.mod_mul_right_mod _ _ _
    have h2 : value % 256 ^ (k' + 1) / 256 = (value / 256) % 256 ^ k' := by
      rw [pow_succ, Nat.mul_comm, Nat.mod_mul_right_div_self]
    congr 1
    · exact Fin.ext h1
    · rw [h2]; exact ih _ _ (by omega)

/-! ## Read callbacks: every width is a run of `MemoryRead8` -/

theorem MemoryRead8_eq (memory : khash_memory) (a : Nat) :
    UserCallbacks.MemoryRead8 memory a = load_at memory a 1 := by
  unfold UserCallbacks.MemoryRead8 load_at
  rw [get_memory_to_long]
  cases kh_get memory (page_key a) <;> rfl

theorem aligned_read_eq (memory : khash_memory) (a w : Nat) :
    (match get_memory memory (to_long a) with
      | some dest => some (load dest w)
      | none => none) = load_at memory a w := by
  unfold load_at
  rw [get_memory_to_long]
  cases kh_get memory (page_key a) <;> rfl

theorem load_at_lt {memory : khash_memory} {a w r : Nat} (h : load_at memory a w = some r) :
    r < 256 ^ w := by
  unfold load_at at h
  cases hk : kh_get memory (page_key a) with
  | none => rw [hk] at h; simp at h
  | some page =>
    rw [hk] at h
    simp only [Option.map_some', Option.some.injEq] at h
    rw [← h]
    exact le_value_take_lt _ _

theorem load_at_split (memory : khash_memory) (a w1 w2 : Nat)
    (h : a % 4096 + w1 < 4096) :
    load_at memory a (w1 + w2) =
      (load_at memory a w1).bind fun lo =>
      (load_at memory (a + w1) w2).bind fun hi =>
      some (lo + 256 ^ w1 * hi) := by
  have hkey : page_key (a + w1) = page_key a := page_key_eq_of_div (by omega)
  have hoff : (a + w1) % 4096 = a % 4096 + w1 := by omega
  unfold load_at
  rw [hkey, hoff]
  cases kh_get memory (page_key a) with
  | none => rfl
  | some page =>
    simp only [Option.map_some', Option.some_bind]
    rw [le_value_take_add, List.drop_drop]

theorem read_le_lt (M : Nat) (memory : khash_memory) (w : Nat) :
    ∀ (a r : Nat), read_le M memory w a = some r → r < 256 ^ w := by
  induction w with
  | zero =>
    intro a r h
    simp only [read_le, Option.some.injEq] at h
    omega
  | succ w ih =>
    intro a r h
    simp only [read_le] at h
    cases h1 : UserCallbacks.MemoryRead8 memory a with
    | none => rw [h1] at h; simp at h
    | some b =>
      cases h2 : read_le M memory w ((a + 1) % M) with
      | none => rw [h1, h2] at h; simp at h
      | some r2 =>
        rw [h1, h2] at h
        simp only [Option.some_bind, Option.some.injEq] at h
        have hb : b < 256 ^ 1 := load_at_lt ((MemoryRead8_eq memory a).symm.trans h1)
        have hr := ih _ _ h2
        rw [← h, pow_succ]
        omega

theorem read_le_split (M : Nat) (memory : khash_memory) (w1 w2 : Nat) :
    ∀ a : Nat, a < M → read_le M memory (w1 + w2) a =
      (read_le M memory w1 a).bind fun lo =>
      (read_le M memory w2 ((a + w1) % M)).bind fun hi =>
      some (lo + 256 ^ w1 * hi) := by
  induction w1 with
  | zero =>
    intro a ha
    simp only [Nat.zero_add, read_le, Option.some_bind, Nat.add_zero, pow_zero, Nat.one_mul,
      Nat.mod_eq_of_lt ha]
    cases read_le M memory w2 a <;> rfl
  | succ w1 ih =>
    intro a ha
    have h : w1 + 1 + w2 = (w1 + w2) + 1 := by omega
    have hM : 0 < M := by omega
    have haddr : ((a + 1) % M + w1) % M = (a + (w1 + 1)) % M := by
      rw [Nat.mod_add_mod]; congr 1; omega
    rw [h]
    simp only [read_le]
    rw [ih ((a + 1) % M) (Nat.mod_lt _ hM), haddr]
    cases UserCallbacks.MemoryRead8 memory a with
    | none => rfl
    | some b =>
      simp only [Option.some_bind]
      cases read_le M memory w1 ((a + 1) % M) with
      | none => rfl
      | some r1 =>
        simp only [Option.some_bind]
        cases read_le M memory w2 ((a + (w1 + 1)) % M) with
        | none => rfl
        | some r2 =>
          simp only [Option.some_bind, Option.some.injEq]
          rw [pow_succ]; ring

theorem load_at_eq_read_le (M : Nat) (memory : khash_memory) (w : Nat) :
    ∀ a : Nat, a % 4096 + (w + 1) ≤ 4096 → a + (w + 1) ≤ M →
      load_at memory a (w + 1) = read_le M memory (w + 1) a := by
  induction w with
  | zero =>
    intro a _ _
    simp only [read_le, Nat.zero_add, Option.some_bind, Nat.mul_zero, Nat.add_zero,
      MemoryRead8_eq]
    cases load_at memory a 1 <;> rfl
  | succ w ih =>
    intro a h1 h2
    have h : w + 1 + 1 = 1 + (w + 1) := by omega
    have hmod : (a + 1) % M = a + 1 := Nat.mod_eq_of_lt (by omega)
    rw [h, load_at_split memory a 1 (w + 1) (by omega), ih (a + 1) (by omega) (by omega)]
    rw [show 1 + (w + 1) = (w + 1) + 1 by omega]
    conv => rhs; rw [read_le]
    rw [MemoryRead8_eq, hmod]
    cases load_at memory a 1 with
    | none => rfl
    | some b =>
      simp only [Option.some_bind, pow_one]

theorem bind_shl_lor (i : Nat) (X Y : Option Nat) (hX : ∀ r, X = some r → r < 2 ^ i) :
    (X.bind fun a => Y.bind fun b => some ((b <<< i) ||| a)) =
      X.bind fun lo => Y.bind fun hi => some (lo + 2 ^ i * hi) := by
  cases X with
  | none => rfl
  | some a =>
    cases Y with
    | none => rfl
    | some b =>
      simp only [Option.some_bind, Option.some.injEq]
      exact shl_lor i a b (hX a rfl)

theorem MemoryRead16_eq (M : Nat) (hM : M = 2 ^ 32 ∨ M = 2 ^ 64) (memory : khash_memory)
    (a : Nat) (ha : a < M) :
    UserCallbacks.MemoryRead16 M memory a = read_le M memory 2 a := by
  have h8 : 8 ∣ M := by rcases hM with rfl | rfl <;> decide
  unfold UserCallbacks.MemoryRead16
  rw [land_one]
  by_cases hodd : a % 2 ≠ 0
  · rw [if_pos hodd, bind_shl_lor 8 _ _ (fun r hr => by
      have := load_at_lt ((MemoryRead8_eq memory a).symm.trans hr); simpa using this)]
    have := read_le_split M memory 1 1 a ha
    rw [show (1 : Nat) + 1 = 2 from rfl] at this
    rw [this]
    simp only [read_le, Option.some_bind, Nat.mul_zero, Nat.add_zero, pow_one]
    cases UserCallbacks.MemoryRead8 memory a with
    | none => rfl
    | some b =>
      simp only [Option.some_bind]
      cases UserCallbacks.MemoryRead8 memory ((a + 1) % M) <;> rfl
  · rw [if_neg hodd, aligned_read_eq]
    exact load_at_eq_read_le M memory 1 a (by omega) (by omega)

theorem MemoryRead32_eq (M : Nat) (hM : M = 2 ^ 32 ∨ M = 2 ^ 64) (memory : khash_memory)
    (a : Nat) (ha : a < M) :
    UserCallbacks.MemoryRead32 M memory a = read_le M memory 4 a := by
  have h8 : 8 ∣ M := by rcases hM with rfl | rfl <;> decide
  have hpos : 0 < M := by omega
  unfold UserCallbacks.MemoryRead32
  rw [land_three]
  by_cases hun : a % 4 ≠ 0
  · rw [if_pos hun, MemoryRead16_eq M hM memory a ha,
      MemoryRead16_eq M hM memory _ (Nat.mod_lt _ hpos),
      bind_shl_lor 16 _ _ (fun r hr => by
        have := read_le_lt M memory 2 a r hr; norm_num at this ⊢; exact this)]
    have := read_le_split M memory 2 2 a ha
    rw [show (2 : Nat) + 2 = 4 from rfl] at this
    rw [this]
    norm_num
  · rw [if_neg hun, aligned_read_eq]
    exact load_at_eq_read_le M memory 3 a (by omega) (by omega)

theorem MemoryRead64_eq (M : Nat) (hM : M = 2 ^ 32 ∨ M = 2 ^ 64) (memory : khash_memory)
    (a : Nat) (ha : a < M) :
    UserCallbacks.MemoryRead64 M memory a = read_le M memory 8 a := by
  have h8 : 8 ∣ M := by rcases hM with rfl | rfl <;> decide
  have hpos : 0 < M := by omega
  unfold UserCallbacks.MemoryRead64
  rw [land_seven]
  by_cases hun : a % 8 ≠ 0
  · rw [if_pos hun, MemoryRead32_eq M hM memory a ha,
      MemoryRead32_eq M hM memory _ (Nat.mod_lt _ hpos),
      bind_shl_lor 32 _ _ (fun r hr => by
        have := read_le_lt M memory 4 a r hr; norm_num at this ⊢; exact this)]
    have := read_le_split M memory 4 4 a ha
    rw [show (4 : Nat) + 4 = 8 from rfl] at this
    rw [this]
    norm_num
  · rw [if_neg hun, aligned_read_eq]
    exact load_at_eq_read_le M memory 7 a (by omega) (by omega)

/-! ## Write callbacks: every width is a run of `MemoryWrite8` -/

theorem memcpy_memcpy (buf : List Byte) (off : Nat) (l1 l2 : List Byte) :
    memcpy (memcpy buf off l1 l1.length) (off + l1.length) l2 l2.length =
      memcpy buf off (l1 ++ l2) (l1.length + l2.length) := by
  unfold memcpy
  have h12 : (l1 ++ l2).take (l1.length + l2.length) = l1 ++ l2 :=
    List.take_of_length_le (by simp)
  rw [List.take_length, List.take_length, h12]
  by_cases h : off ≤ buf.length
  · have hT : (buf.take off ++ l1).length = off + l1.length := by
      rw [List.length_append, List.length_take]; omega
    rw [List.take_left' hT]
    have hD : List.drop (off + l1.length + l2.length)
        (buf.take off ++ l1 ++ buf.drop (off + l1.length)) =
        buf.drop (off + (l1.length + l2.length)) := by
      rw [← List.drop_drop, List.drop_left' hT, List.drop_drop]
      congr 1; omega
    rw [hD]
    simp only [List.append_assoc]
  · have h1 : buf.take off = buf := List.take_of_length_le (by omega)
    have h2 : buf.drop (off + l1.length) = [] := List.drop_of_length_le (by omega)
    have h3 : buf.drop (off + (l1.length + l2.length)) = [] :=
      List.drop_of_length_le (by omega)
    rw [h1, h2, h3, List.append_nil, List.append_nil]
    have h4 : (buf ++ l1).take (off + l1.length) = buf ++ l1 :=
      List.take_of_length_le (by rw [List.length_append]; omega)
    have h5 : (buf ++ l1).drop (off + l1.length + l2.length) = [] :=
      List.drop_of_length_le (by rw [List.length_append]; omega)
    rw [h4, h5]
    simp only [List.append_assoc, List.append_nil]

theorem kh_update_update (memory : khash_memory) (key : Int) (f g : memory_page → memory_page) :
    kh_update (kh_update memory key f) key g = kh_update memory key (fun page => g (f page)) := by
  induction memory with
  | nil => rfl
  | cons e rest ih =>
    obtain ⟨k0, p0⟩ := e
    by_cases h0 : k0 = key
    · simp [kh_update, h0]
    · simp [kh_update, h0, ih]

theorem poke_poke (a w1 w2 value : Nat) (h : a % 4096 + w1 < 4096) (page : memory_page) :
    poke (a + w1) w2 (value / 256 ^ w1) (poke a w1 value page) = poke a (w1 + w2) value page := by
  have hoff : (a + w1) % 4096 = a % 4096 + w1 := by omega
  unfold poke
  simp only [hoff]
  have := memcpy_memcpy page.addr (a % 4096) (le_bytes w1 value)
    (le_bytes w2 (value / 256 ^ w1))
  rw [length_le_bytes, length_le_bytes] at this
  rw [this, le_bytes_add]

theorem aligned_write_eq (memory : khash_memory) (a w value : Nat) :
    (match get_memory memory (to_long a) with
      | some dest => some (store memory dest w value)
      | none => none) = store_at memory a w value := by
  unfold store_at
  rw [get_memory_to_long]
  cases kh_get memory (page_key a) <;> rfl

theorem MemoryWrite8_eq (memory : khash_memory) (a value : Nat) :
    UserCallbacks.MemoryWrite8 memory a value = store_at memory a 1 value :=
  aligned_write_eq memory a 1 value

theorem store_at_split (memory : khash_memory) (a w1 w2 value : Nat)
    (h : a % 4096 + w1 < 4096) :
    store_at memory a (w1 + w2) value =
      (store_at memory a w1 value).bind fun memory1 =>
      store_at memory1 (a + w1) w2 (value / 256 ^ w1) := by
  have hkey : page_key (a + w1) = page_key a := page_key_eq_of_div (by omega)
  unfold store_at
  rw [hkey]
  cases hk : kh_get memory (page_key a) with
  | none => rfl
  | some page =>
    have hfun : (fun pg => poke (a + w1) w2 (value / 256 ^ w1) (poke a w1 value pg)) =
        poke a (w1 + w2) value := funext (poke_poke a w1 w2 value h)
    simp only [Option.some_bind, kh_get_update, if_true, hk, Option.map_some',
      kh_update_update, hfun]

theorem store_at_mod (memory : khash_memory) (a w value k : Nat) (hk : w ≤ k) :
    store_at memory a w (value % 256 ^ k) = store_at memory a w value := by
  unfold store_at poke
  rw [le_bytes_mod w value k hk]

theorem write_le_mod (M : Nat) (w : Nat) :
    ∀ (memory : khash_memory) (a value k : Nat), w ≤ k →
      write_le M w memory a (value % 256 ^ k) = write_le M w memory a value := by
  induction w with
  | zero => intro _ _ _ _ _; rfl
  | succ w ih =>
    intro memory a value k hk
    obtain ⟨k', rfl⟩ : ∃ k', k = k' + 1 := ⟨k - 1, by omega⟩
    have h1 : value % 256 ^ (k' + 1) % 256 = value % 256 := by
      rw [pow_succ, Nat.mul_comm]
      exact Nat.mod_mul_right_mod _ _ _
    have h2 : value % 256 ^ (k' + 1) / 256 = (value / 256) % 256 ^ k' := by
      rw [pow_succ, Nat.mul_comm, Nat.mod_mul_right_div_self]
    simp only [write_le, h1, h2]
    congr 1
    funext memory1
    exact ih memory1 _ _ k' (by omega)

theorem write_le_split (M : Nat) (w1 w2 : Nat) :
    ∀ (memory : khash_memory) (a value : Nat), a < M →
      write_le M (w1 + w2) memory a value =
        (write_le M w1 memory a value).bind fun memory1 =>
        write_le M w2 memory1 ((a + w1) % M) (value / 256 ^ w1) := by
  induction w1 with
  | zero =>
    intro memory a value ha
    simp only [Nat.zero_add, write_le, Option.some_bind, Nat.add_zero, pow_zero, Nat.div_one,
      Nat.mod_eq_of_lt ha]
  | succ w1 ih =>
    intro memory a value ha
    have h : w1 + 1 + w2 = (w1 + w2) + 1 := by omega
    have hM : 0 < M := by omega
    have haddr : ((a + 1) % M + w1) % M = (a + (w1 + 1)) % M := by
      rw [Nat.mod_add_mod]; congr 1; omega
    have hdiv : value / 256 / 256 ^ w1 = value / 256 ^ (w1 + 1) := by
      rw [Nat.div_div_eq_div_mul, pow_succ, Nat.mul_comm]
    rw [h]
    simp only [write_le]
    cases UserCallbacks.MemoryWrite8 memory a (value % 256) with
    | none => rfl
    | some memory1 =>
      simp only [Option.some_bind]
      rw [ih memory1 ((a + 1) % M) (value / 256) (Nat.mod_lt _ hM), haddr, hdiv]

theorem store_at_eq_write_le (M : Nat) (w : Nat) :
    ∀ (memory : khash_memory) (a value : Nat), a % 4096 + (w + 1) ≤ 4096 → a + (w + 1) ≤ M →
      store_at memory a (w + 1) value = write_le M (w + 1) memory a value := by
  induction w with
  | zero =>
    intro memory a value _ _
    simp only [write_le, Nat.zero_add, MemoryWrite8_eq]
    rw [store_at_mod memory a 1 value 1 (le_refl 1) |>.symm, pow_one]
    cases store_at memory a 1 (value % 256) <;> rfl
  | succ w ih =>
    intro memory a value h1 h2
    have h : w + 1 + 1 = 1 + (w + 1) := by omega
    have hmod : (a + 1) % M = a + 1 := Nat.mod_eq_of_lt (by omega)
    rw [h, store_at_split memory a 1 (w + 1) value (by omega)]
    rw [show 1 + (w + 1) = (w + 1) + 1 by omega]
    conv => rhs; rw [write_le]
    rw [MemoryWrite8_eq, hmod, store_at_mod memory a 1 value 1 (le_refl 1) |>.symm, pow_one]
    cases store_at memory a 1 (value % 256) with
    | none => rfl
    | some memory1 =>
      simp only [Option.some_bind]
      exact ih memory1 (a + 1) (value / 256) (by omega) (by omega)

theorem MemoryWrite16_eq (M : Nat) (hM : M = 2 ^ 32 ∨ M = 2 ^ 64) (memory : khash_memory)
    (a value : Nat) (ha : a < M) :
    UserCallbacks.MemoryWrite16 M memory a value = write_le M 2 memory a value := by
  have h8 : 8 ∣ M := by rcases hM with rfl | rfl <;> decide
  unfold UserCallbacks.MemoryWrite16
  rw [land_one]
  by_cases hodd : a % 2 ≠ 0
  · rw [if_pos hodd]
    have h1 : value >>> 8 % 2 ^ 8 = value / 256 % 256 := by
      rw [Nat.shiftRight_eq_div_pow]; norm_num
    have h2 : value % 2 ^ 8 = value % 256 := rfl
    simp only [write_le, h1, h2]
    cases UserCallbacks.MemoryWrite8 memory a (value % 256) with
    | none => rfl
    | some memory1 =>
      simp only [Option.some_bind]
      cases UserCallbacks.MemoryWrite8 memory1 ((a + 1) % M) (value / 256 % 256) <;> rfl
  · rw [if_neg hodd, aligned_write_eq]
    exact store_at_eq_write_le M 1 memory a value (by omega) (by omega)

theorem MemoryWrite32_eq (M : Nat) (hM : M = 2 ^ 32 ∨ M = 2 ^ 64) (memory : khash_memory)
    (a value : Nat) (ha : a < M) :
    UserCallbacks.MemoryWrite32 M memory a value = write_le M 4 memory a value := by
  have h8 : 8 ∣ M := by rcases hM with rfl | rfl <;> decide
  have hpos : 0 < M := by omega
  unfold UserCallbacks.MemoryWrite32
  rw [land_three]
  by_cases hun : a % 4 ≠ 0
  · rw [if_pos hun, MemoryWrite16_eq M hM memory a _ ha]
    have h1 : value >>> 16 % 2 ^ 16 = (value / 256 ^ 2) % 256 ^ 2 := by
      rw [Nat.shiftRight_eq_div_pow]; norm_num
    have h2 : value % 2 ^ 16 = value % 256 ^ 2 := by norm_num
    have h3 := write_le_split M 2 2 memory a value ha
    rw [show (2 : Nat) + 2 = 4 from rfl] at h3
    rw [h3, h1, h2, write_le_mod M 2 memory a value 2 (le_refl 2)]
    congr 1
    funext memory1
    rw [MemoryWrite16_eq M hM memory1 _ _ (Nat.mod_lt _ hpos),
      write_le_mod M 2 memory1 _ _ 2 (le_refl 2)]
  · rw [if_neg hun, aligned_write_eq]
    exact store_at_eq_write_le M 3 memory a value (by omega) (by omega)

theorem MemoryWrite64_eq (M : Nat) (hM : M = 2 ^ 32 ∨ M = 2 ^ 64) (memory : khash_memory)
    (a value : Nat) (ha : a < M) :
    UserCallbacks.MemoryWrite64 M memory a value = write_le M 8 memory a value := by
  have h8 : 8 ∣ M := by rcases hM with rfl | rfl <;> decide
  have hpos : 0 < M := by omega
  unfold UserCallbacks.MemoryWrite64
  rw [land_seven]
  by_cases hun : a % 8 ≠ 0
  · rw [if_pos hun, MemoryWrite32_eq M hM memory a _ ha]
    have h1 : value >>> 32 % 2 ^ 32 = (value / 256 ^ 4) % 256 ^ 4 := by
      rw [Nat.shiftRight_eq_div_pow]; norm_num
    have h2 : value % 2 ^ 32 = value % 256 ^ 4 := by norm_num
    have h3 := write_le_split M 4 4 memory a value ha
    rw [show (4 : Nat) + 4 = 8 from rfl] at h3
    rw [h3, h1, h2, write_le_mod M 4 memory a value 4 (le_refl 4)]
    congr 1
    funext memory1
    rw [MemoryWrite32_eq M hM memory1 _ _ (Nat.mod_lt _ hpos),
      write_le_mod M 4 memory1 _ _ 4 (le_refl 4)]
  · rw [if_neg hun, aligned_write_eq]
    exact store_at_eq_write_le M 7 memory a value (by omega) (by omega)

/-! ## Which accesses abort, and what a write leaves behind -/

theorem page_key_inj {u v : Nat} (hu : u < 2 ^ 64) (hv : v < 2 ^ 64)
    (h : page_key u = page_key v) : u / 4096 = v / 4096 := by
  unfold page_key to_long wrap64 at h
  rw [and_not_PAGE_MASK_eq, and_not_PAGE_MASK_eq] at h
  omega

theorem load_at_one_isSome (memory : khash_memory) (a : Nat) :
    (load_at memory a 1).isSome = (kh_get memory (page_key a)).isSome := by
  unfold load_at
  cases kh_get memory (page_key a) <;> rfl

theorem kh_get_store_at {memory memory' : khash_memory} {a w value : Nat}
    (h : store_at memory a w value = some memory') (k : Int) :
    kh_get memory' k =
      if k = page_key a then (kh_get memory (page_key a)).map (poke a w value)
      else kh_get memory k := by
  unfold store_at at h
  cases hk : kh_get memory (page_key a) with
  | none => rw [hk] at h; simp at h
  | some page =>
    rw [hk] at h
    simp only [Option.some.injEq] at h
    rw [← h, kh_get_update, hk]

theorem store_at_isSome (memory : khash_memory) (a w value : Nat) :
    (store_at memory a w value).isSome = (kh_get memory (page_key a)).isSome := by
  unfold store_at
  cases kh_get memory (page_key a) <;> rfl

theorem store_at_mapped {memory memory' : khash_memory} {a w value : Nat}
    (h : store_at memory a w value = some memory') (k : Int) :
    kh_get memory' k ≠ none ↔ kh_get memory k ≠ none := by
  rw [kh_get_store_at h k]
  by_cases hk : k = page_key a
  · rw [if_pos hk, hk]; cases kh_get memory (page_key a) <;> simp
  · rw [if_neg hk]

theorem store_at_perms {memory memory' : khash_memory} {a w value : Nat}
    (h : store_at memory a w value = some memory') (k : Int) :
    (kh_get memory' k).map (fun page => page.perms) =
      (kh_get memory k).map (fun page => page.perms) := by
  rw [kh_get_store_at h k]
  by_cases hk : k = page_key a
  · rw [if_pos hk, hk]; cases kh_get memory (page_key a) <;> simp [poke]
  · rw [if_neg hk]

theorem read_le_isSome_iff (M : Nat) (memory : khash_memory) (w : Nat) :
    ∀ a : Nat, a < M →
      ((read_le M memory w a).isSome = true ↔
        ∀ i : Nat, i < w → kh_get memory (page_key ((a + i) % M)) ≠ none) := by
  induction w with
  | zero => intro a _; simp [read_le]
  | succ w ih =>
    intro a ha
    have hM : 0 < M := by omega
    have haddr : ∀ i : Nat, ((a + 1) % M + i) % M = (a + (i + 1)) % M := by
      intro i; rw [Nat.mod_add_mod]; congr 1; omega
    have h0 : (load_at memory a 1).isSome = true ↔ kh_get memory (page_key a) ≠ none := by
      rw [load_at_one_isSome, Option.isSome_iff_ne_none]
    have ih' := ih ((a + 1) % M) (Nat.mod_lt _ hM)
    simp only [read_le, MemoryRead8_eq]
    constructor
    · intro h i hi
      cases h1 : load_at memory a 1 with
      | none => rw [h1] at h; simp at h
      | some b =>
        rw [h1] at h
        cases h2 : read_le M memory w ((a + 1) % M) with
        | none => rw [h2] at h; simp at h
        | some r =>
          cases i with
          | zero =>
            rw [Nat.add_zero, Nat.mod_eq_of_lt ha]
            exact h0.mp (by rw [h1]; rfl)
          | succ i =>
            have := ih'.mp (by rw [h2]; rfl) i (by omega)
            rwa [haddr] at this
    · intro h
      have ha0 : (load_at memory a 1).isSome = true := by
        apply h0.mpr
        have := h 0 (by omega)
        rwa [Nat.add_zero, Nat.mod_eq_of_lt ha] at this
      have hrest : (read_le M memory w ((a + 1) % M)).isSome = true := by
        apply ih'.mpr
        intro i hi
        rw [haddr]; exact h (i + 1) (by omega)
      obtain ⟨b, hb⟩ := Option.isSome_iff_exists.mp ha0
      obtain ⟨r, hr⟩ := Option.isSome_iff_exists.mp hrest
      rw [hb, hr]; rfl

theorem write_le_isSome_iff (M : Nat) (w : Nat) :
    ∀ (memory : khash_memory) (a value : Nat), a < M →
      ((write_le M w memory a value).isSome = true ↔
        ∀ i : Nat, i < w → kh_get memory (page_key ((a + i) % M)) ≠ none) := by
  induction w with
  | zero => intro memory a value _; simp [write_le]
  | succ w ih =>
    intro memory a value ha
    have hM : 0 < M := by omega
    have haddr : ∀ i : Nat, ((a + 1) % M + i) % M = (a + (i + 1)) % M := by
      intro i; rw [Nat.mod_add_mod]; congr 1; omega
    simp only [write_le, MemoryWrite8_eq]
    cases h1 : store_at memory a 1 (value % 256) with
    | none =>
      have hk : kh_get memory (page_key a) = none := by
        have := store_at_isSome memory a 1 (value % 256)
        rw [h1] at this
        cases hk : kh_get memory (page_key a) with
        | none => rfl
        | some pg => rw [hk] at this; simp at this
      simp only [Option.none_bind, Option.isSome_none, Bool.false_eq_true, false_iff]
      intro h
      have := h 0 (by omega)
      rw [Nat.add_zero, Nat.mod_eq_of_lt ha] at this
      exact this hk
    | some memory1 =>
      have hk : kh_get memory (page_key a) ≠ none := by
        have := store_at_isSome memory a 1 (value % 256)
        rw [h1] at this
        intro hc; rw [hc] at this; simp at this
      simp only [Option.some_bind]
      rw [ih memory1 ((a + 1) % M) (value / 256) (Nat.mod_lt _ hM)]
      constructor
      · intro h i hi
        cases i with
        | zero => rwa [Nat.add_zero, Nat.mod_eq_of_lt ha]
        | succ i =>
          have := h i (by omega)
          rw [haddr] at this
          exact (store_at_mapped h1 _).mp this
      · intro h i hi
        rw [haddr]
        exact (store_at_mapped h1 _).mpr (h (i + 1) (by omega))

theorem le_value_take_one (l : List Byte) (o : Nat) :
    le_value ((l.drop o).take 1) = match l[o]? with
      | some b => b.val
      | none => 0 := by
  cases h : l.drop o with
  | nil =>
    have hlen : l.length ≤ o := by
      have := congrArg List.length h
      rw [List.length_drop, List.length_nil] at this
      omega
    rw [List.getElem?_eq_none hlen]
    rfl
  | cons b t =>
    have h0 : (l.drop o)[0]? = some b := by rw [h]; simp
    rw [List.getElem?_drop, Nat.add_zero] at h0
    rw [h0]
    simp [le_value]

theorem pages_ok_store_at {memory memory' : khash_memory} {a w value : Nat}
    (hok : pages_ok memory) (hw : a % 4096 + w ≤ 4096)
    (h : store_at memory a w value = some memory') : pages_ok memory' := by
  unfold store_at at h
  cases hk : kh_get memory (page_key a) with
  | none => rw [hk] at h; simp at h
  | some page =>
    rw [hk] at h
    simp only [Option.some.injEq] at h
    rw [← h]
    apply pages_ok_update hok
    intro pg hpg
    have hlen := pages_ok_get hok hpg
    show (memcpy pg.addr _ _ _).length = 4096
    rw [length_memcpy _ _ _ _ (by rw [hlen]; exact hw) (by rw [length_le_bytes]), hlen]

theorem load_at_store_at {memory memory' : khash_memory} {a value : Nat} (x : Nat)
    (hok : pages_ok memory) (ha : a < 2 ^ 64) (hx : x < 2 ^ 64)
    (h : store_at memory a 1 value = some memory') :
    load_at memory' x 1 = if x = a then some (value % 256) else load_at memory x 1 := by
  unfold load_at
  rw [kh_get_store_at h]
  cases hk : kh_get memory (page_key a) with
  | none => unfold store_at at h; rw [hk] at h; simp at h
  | some pg =>
    have hlen := pages_ok_get hok hk
    by_cases hkey : page_key x = page_key a
    · have hdiv := page_key_inj hx ha hkey
      rw [if_pos hkey, hkey, hk]
      simp only [Option.map_some', le_value_take_one, poke, le_bytes]
      rw [getElem?_memcpy _ _ _ _ (by rw [hlen]; omega) (by simp)]
      by_cases hxa : x = a
      · subst hxa
        rw [if_pos ⟨le_refl _, by omega⟩, if_pos rfl, Nat.sub_self]
        rfl
      · rw [if_neg (by omega), if_neg hxa]
    · have hxa : x ≠ a := fun hc => hkey (by rw [hc])
      rw [if_neg hkey, if_neg hxa]

theorem write_le_frame (M : Nat) (hM : M = 2 ^ 32 ∨ M = 2 ^ 64) (w : Nat) :
    ∀ (memory memory' : khash_memory) (a value : Nat), pages_ok memory → a < M →
      write_le M w memory a value = some memory' →
      pages_ok memory' ∧
      (∀ k : Int, (kh_get memory' k).map (fun page => page.perms) =
        (kh_get memory k).map (fun page => page.perms)) ∧
      ∀ x : Nat, x < 2 ^ 64 → (∀ i : Nat, i < w → x ≠ (a + i) % M) →
        load_at memory' x 1 = load_at memory x 1 := by
  induction w with
  | zero =>
    intro memory memory' a value hok _ h
    simp only [write_le, Option.some.injEq] at h
    subst h
    exact ⟨hok, fun _ => rfl, fun _ _ _ => rfl⟩
  | succ w ih =>
    intro memory memory' a value hok ha h
    have hM64 : M ≤ 2 ^ 64 := by rcases hM with rfl | rfl <;> norm_num
    have hpos : 0 < M := by omega
    have haddr : ∀ i : Nat, ((a + 1) % M + i) % M = (a + (i + 1)) % M := by
      intro i; rw [Nat.mod_add_mod]; congr 1; omega
    simp only [write_le, MemoryWrite8_eq] at h
    cases h1 : store_at memory a 1 (value % 256) with
    | none => rw [h1] at h; simp at h
    | some memory1 =>
      rw [h1] at h
      simp only [Option.some_bind] at h
      have hok1 := pages_ok_store_at hok (by omega) h1
      obtain ⟨hok', hperm, hfr⟩ := ih memory1 memory' ((a + 1) % M) (value / 256) hok1
        (Nat.mod_lt _ hpos) h
      refine ⟨hok', fun k => (hperm k).trans (store_at_perms h1 k), ?_⟩
      intro x hx hne
      rw [hfr x hx (fun i hi => by rw [haddr]; exact hne (i + 1) (by omega)),
        load_at_store_at x hok (by omega) hx h1, if_neg]
      have := hne 0 (by omega)
      rwa [Nat.add_zero, Nat.mod_eq_of_lt ha] at this

theorem read_write_le (M : Nat) (hM : M = 2 ^ 32 ∨ M = 2 ^ 64) (w : Nat) :
    ∀ (memory memory' : khash_memory) (a value : Nat), pages_ok memory → a < M → w ≤ M →
      write_le M w memory a value = some memory' →
      read_le M memory' w a = some (value % 256 ^ w) := by
  induction w with
  | zero =>
    intro memory memory' a value _ _ _ _
    simp [read_le, Nat.mod_one]
  | succ w ih =>
    intro memory memory' a value hok ha hw h
    have hM64 : M ≤ 2 ^ 64 := by rcases hM with rfl | rfl <;> norm_num
    have hpos : 0 < M := by omega
    simp only [write_le, MemoryWrite8_eq] at h
    cases h1 : store_at memory a 1 (value % 256) with
    | none => rw [h1] at h; simp at h
    | some memory1 =>
      rw [h1] at h
      simp only [Option.some_bind] at h
      have hok1 := pages_ok_store_at hok (by omega) h1
      obtain ⟨_, _, hfr⟩ := write_le_frame M hM w memory1 memory' ((a + 1) % M) (value / 256)
        hok1 (Nat.mod_lt _ hpos) h
      have hne : ∀ i : Nat, i < w → a ≠ ((a + 1) % M + i) % M := by
        intro i hi
        rw [Nat.mod_add_mod]
        rcases hM with rfl | rfl <;> omega
      have hbyte : load_at memory' a 1 = some (value % 256) := by
        rw [hfr a (by omega) hne, load_at_store_at a hok (by omega) (by omega) h1, if_pos rfl,
          Nat.mod_mod]
      have hrest := ih memory1 memory' ((a + 1) % M) (value / 256) hok1 (Nat.mod_lt _ hpos)
        (by omega) h
      simp only [read_le, MemoryRead8_eq, hbyte, hrest, Option.some_bind, Option.some.injEq]
      rw [pow_succ, Nat.mul_comm (256 ^ w) 256, Nat.mod_mul]

/-! ## The claims on the accessor callbacks -/

theorem read_le_one (M : Nat) (memory : khash_memory) (a : Nat) :
    read_le M memory 1 a = UserCallbacks.MemoryRead8 memory a := by
  simp only [read_le, Option.some_bind, Nat.mul_zero, Nat.add_zero]
  cases UserCallbacks.MemoryRead8 memory a <;> rfl

theorem write_le_one (M : Nat) (memory : khash_memory) (a value : Nat) :
    write_le M 1 memory a value = UserCallbacks.MemoryWrite8 memory a value := by
  simp only [write_le, MemoryWrite8_eq]
  rw [← pow_one 256, store_at_mod memory a 1 value 1 (le_refl 1)]
  cases store_at memory a 1 value <;> rfl

theorem read_le_sum (M : Nat) (memory : khash_memory) (w : Nat) :
    ∀ (a : Nat) (b : Nat → Nat), a < M →
      (∀ i : Nat, i < w → UserCallbacks.MemoryRead8 memory ((a + i) % M) = some (b i)) →
      read_le M memory w a = some (∑ i in Finset.range w, b i * 256 ^ i) := by
  induction w with
  | zero => intro a b _ _; simp [read_le]
  | succ w ih =>
    intro a b ha hb
    have hM : 0 < M := by omega
    have h0 := hb 0 (by omega)
    rw [Nat.add_zero, Nat.mod_eq_of_lt ha] at h0
    have hrest := ih ((a + 1) % M) (fun i => b (i + 1)) (Nat.mod_lt _ hM) (fun i hi => by
      rw [Nat.mod_add_mod, Nat.add_assoc, Nat.add_comm 1 i]
      exact hb (i + 1) (by omega))
    simp only [read_le, h0, hrest, Option.some_bind, Option.some.injEq]
    rw [Finset.sum_range_succ', Finset.mul_sum]
    simp only [pow_zero, Nat.mul_one, pow_succ]
    rw [Nat.add_comm]
    congr 1
    apply Finset.sum_congr rfl
    intro i _
    ring

theorem reads_little_endian_of_eq (M w : Nat) (readW : khash_memory → Nat → Option Nat)
    (h : ∀ memory a, a < M → readW memory a = read_le M memory w a) :
    reads_little_endian M w UserCallbacks.MemoryRead8 readW := by
  intro memory a ha hmapped
  have hM : 0 < M := by omega
  have hsome : ∀ i : Nat, i < w →
      (UserCallbacks.MemoryRead8 memory ((a + i) % M)).isSome = true := by
    intro i hi
    rw [MemoryRead8_eq, load_at_one_isSome, Option.isSome_iff_ne_none]
    exact hmapped i hi
  refine ⟨fun i => (UserCallbacks.MemoryRead8 memory ((a + i) % M)).getD 0, ?_, ?_⟩
  · intro i hi
    obtain ⟨r, hr⟩ := Option.isSome_iff_exists.mp (hsome i hi)
    simp only [hr, Option.getD_some]
  · rw [h memory a ha]
    apply read_le_sum M memory w a _ ha
    intro i hi
    obtain ⟨r, hr⟩ := Option.isSome_iff_exists.mp (hsome i hi)
    simp only [hr, Option.getD_some]

/-- C12: in both variants, for every width 2, 4, 8 and every address `a` of any
alignment (also when the access straddles two pages) such that the pages of
`a`, ..., `a + w - 1` are mapped, `MemoryRead16/32/64(a)` is the little-endian
composition of the bytes `MemoryRead8` returns there: the sum of
`MemoryRead8(a + i) * 256^i`. Addresses are those of the variant, `a + i`
being taken modulo `2^32`, respectively `2^64`. -/
theorem MemoryRead_little_endian :
    reads_little_endian (2 ^ 64) 2 DynarmicCallbacks64.MemoryRead8
      DynarmicCallbacks64.MemoryRead16 ∧
    reads_little_endian (2 ^ 64) 4 DynarmicCallbacks64.MemoryRead8
      DynarmicCallbacks64.MemoryRead32 ∧
    reads_little_endian (2 ^ 64) 8 DynarmicCallbacks64.MemoryRead8
      DynarmicCallbacks64.MemoryRead64 ∧
    reads_little_endian (2 ^ 32) 2 DynarmicCallbacks32.MemoryRead8
      DynarmicCallbacks32.MemoryRead16 ∧
    reads_little_endian (2 ^ 32) 4 DynarmicCallbacks32.MemoryRead8
      DynarmicCallbacks32.MemoryRead32 ∧
    reads_little_endian (2 ^ 32) 8 DynarmicCallbacks32.MemoryRead8
      DynarmicCallbacks32.MemoryRead64 :=
  ⟨reads_little_endian_of_eq _ 2 _ (fun m a ha => MemoryRead16_eq _ (Or.inr rfl) m a ha),
   reads_little_endian_of_eq _ 4 _ (fun m a ha => MemoryRead32_eq _ (Or.inr rfl) m a ha),
   reads_little_endian_of_eq _ 8 _ (fun m a ha => MemoryRead64_eq _ (Or.inr rfl) m a ha),
   reads_little_endian_of_eq _ 2 _ (fun m a ha => MemoryRead16_eq _ (Or.inl rfl) m a ha),
   reads_little_endian_of_eq _ 4 _ (fun m a ha => MemoryRead32_eq _ (Or.inl rfl) m a ha),
   reads_little_endian_of_eq _ 8 _ (fun m a ha => MemoryRead64_eq _ (Or.inl rfl) m a ha)⟩

/-- Witness of C12: a 16-bit read at the odd address 0x1001 of a mapped page, in
the 64-bit variant. -/
theorem MemoryRead_little_endian_witness :
    ∃ b : Nat → Nat,
      (∀ i : Nat, i < 2 →
        DynarmicCallbacks64.MemoryRead8 [(0x1000, ⟨fresh_page_buffer, 3⟩)]
          ((0x1001 + i) % 2 ^ 64) = some (b i)) ∧
      DynarmicCallbacks64.MemoryRead16 [(0x1000, ⟨fresh_page_buffer, 3⟩)] 0x1001 =
        some (∑ i in Finset.range 2, b i * 256 ^ i) :=
  MemoryRead_little_endian.1 [(0x1000, ⟨fresh_page_buffer, 3⟩)] 0x1001 (by decide)
    (fun i hi => by
      have hi2 : i = 0 ∨ i = 1 := by omega
      rcases hi2 with rfl | rfl <;> decide)

theorem split_writes_generic (M : Nat) :
    split_writes M UserCallbacks.MemoryWrite8 (UserCallbacks.MemoryWrite16 M)
      (UserCallbacks.MemoryWrite32 M) (UserCallbacks.MemoryWrite64 M) := by
  intro memory a v
  refine ⟨?_, ?_, ?_⟩
  · intro ha hv
    have h1 : v >>> 8 % 2 ^ 8 = v / 2 ^ 8 := by
      rw [Nat.shiftRight_eq_div_pow]; omega
    unfold UserCallbacks.MemoryWrite16
    rw [land_one, if_pos ha, h1]
  · intro ha hv
    have h1 : v >>> 16 % 2 ^ 16 = v / 2 ^ 16 := by
      rw [Nat.shiftRight_eq_div_pow]; omega
    unfold UserCallbacks.MemoryWrite32
    rw [land_three, if_pos ha, h1]
  · intro ha hv
    have h1 : v >>> 32 % 2 ^ 32 = v / 2 ^ 32 := by
      rw [Nat.shiftRight_eq_div_pow]; omega
    unfold UserCallbacks.MemoryWrite64
    rw [land_seven, if_pos ha, h1]

/-- C13: in both variants and for every memory state, a 4-byte write at an
address `a` with `a % 4 != 0` gives the same outcome (the same final memory, or
the abort) as `MemoryWrite16(a, v mod 2^16)` followed by
`MemoryWrite16(a + 2, v div 2^16)`; a 2-byte write at an odd address is the two
1-byte writes of the low, then the high byte; an 8-byte write at an address not
a multiple of 8 is the two 4-byte writes of the low, then the high half. The
second address is `a + 2` (`a + 1`, `a + 4`) in the arithmetic of the variant,
modulo `2^32` or `2^64`. -/
theorem MemoryWrite_split :
    split_writes (2 ^ 64) DynarmicCallbacks64.MemoryWrite8 DynarmicCallbacks64.MemoryWrite16
      DynarmicCallbacks64.MemoryWrite32 DynarmicCallbacks64.MemoryWrite64 ∧
    split_writes (2 ^ 32) DynarmicCallbacks32.MemoryWrite8 DynarmicCallbacks32.MemoryWrite16
      DynarmicCallbacks32.MemoryWrite32 DynarmicCallbacks32.MemoryWrite64 :=
  ⟨split_writes_generic (2 ^ 64), split_writes_generic (2 ^ 32)⟩

/-- Witness of C13: the 4-byte write of 0x11223344 at 0x1ffe, across the pages at
0x1000 and 0x2000, in the 64-bit variant. -/
theorem MemoryWrite_split_witness :
    DynarmicCallbacks64.MemoryWrite32
        [(0x1000, ⟨fresh_page_buffer, 3⟩), (0x2000, ⟨fresh_page_buffer, 3⟩)] 0x1ffe 0x11223344 =
      (DynarmicCallbacks64.MemoryWrite16
        [(0x1000, ⟨fresh_page_buffer, 3⟩), (0x2000, ⟨fresh_page_buffer, 3⟩)] 0x1ffe
        (0x11223344 % 2 ^ 16)).bind fun memory1 =>
      DynarmicCallbacks64.MemoryWrite16 memory1 ((0x1ffe + 2) % 2 ^ 64) (0x11223344 / 2 ^ 16) :=
  (MemoryWrite_split.1 [(0x1000, ⟨fresh_page_buffer, 3⟩), (0x2000, ⟨fresh_page_buffer, 3⟩)]
    0x1ffe 0x11223344).2.1 (by decide) (by decide)

theorem read_aborts_of_eq (M w : Nat) (readW : khash_memory → Nat → Option Nat)
    (h : ∀ memory a, a < M → readW memory a = read_le M memory w a) :
    read_aborts_iff_unmapped M w readW := by
  intro memory a ha
  rw [h memory a ha]
  have key := read_le_isSome_iff M memory w a ha
  constructor
  · intro hnone
    by_contra hc
    have hall : ∀ i : Nat, i < w → kh_get memory (page_key ((a + i) % M)) ≠ none :=
      fun i hi hn => hc ⟨i, hi, hn⟩
    have := key.mpr hall
    rw [hnone] at this
    simp at this
  · rintro ⟨i, hi, hn⟩
    cases hr : read_le M memory w a with
    | none => rfl
    | some r =>
      have := key.mp (by rw [hr]; rfl) i hi
      exact absurd hn this

theorem write_aborts_of_eq (M w : Nat)
    (writeW : khash_memory → Nat → Nat → Option khash_memory)
    (h : ∀ memory a value, a < M → writeW memory a value = write_le M w memory a value) :
    write_aborts_iff_unmapped M w writeW := by
  intro memory a value ha
  rw [h memory a value ha]
  have key := write_le_isSome_iff M w memory a value ha
  constructor
  · intro hnone
    by_contra hc
    have hall : ∀ i : Nat, i < w → kh_get memory (page_key ((a + i) % M)) ≠ none :=
      fun i hi hn => hc ⟨i, hi, hn⟩
    have := key.mpr hall
    rw [hnone] at this
    simp at this
  · rintro ⟨i, hi, hn⟩
    cases hr : write_le M w memory a value with
    | none => rfl
    | some r =>
      have := key.mp (by rw [hr]; rfl) i hi
      exact absurd hn this

/-- C15: in either variant, for every width 1, 2, 4, 8 and every address `a` of
the variant, `MemoryReadW(a)` and `MemoryWriteW(a, v)` end in the abort if and
only if the page of at least one of the addresses `a`, ..., `a + w - 1` (taken
modulo `2^64`, respectively `2^32`) is not mapped: no read returns a value for
an unmapped byte and no write to an unmapped byte returns. -/
theorem missing_page_is_fatal :
    (read_aborts_iff_unmapped (2 ^ 64) 1 DynarmicCallbacks64.MemoryRead8 ∧
      read_aborts_iff_unmapped (2 ^ 64) 2 DynarmicCallbacks64.MemoryRead16 ∧
      read_aborts_iff_unmapped (2 ^ 64) 4 DynarmicCallbacks64.MemoryRead32 ∧
      read_aborts_iff_unmapped (2 ^ 64) 8 DynarmicCallbacks64.MemoryRead64) ∧
    (write_aborts_iff_unmapped (2 ^ 64) 1 DynarmicCallbacks64.MemoryWrite8 ∧
      write_aborts_iff_unmapped (2 ^ 64) 2 DynarmicCallbacks64.MemoryWrite16 ∧
      write_aborts_iff_unmapped (2 ^ 64) 4 DynarmicCallbacks64.MemoryWrite32 ∧
      write_aborts_iff_unmapped (2 ^ 64) 8 DynarmicCallbacks64.MemoryWrite64) ∧
    (read_aborts_iff_unmapped (2 ^ 32) 1 DynarmicCallbacks32.MemoryRead8 ∧
      read_aborts_iff_unmapped (2 ^ 32) 2 DynarmicCallbacks32.MemoryRead16 ∧
      read_aborts_iff_unmapped (2 ^ 32) 4 DynarmicCallbacks32.MemoryRead32 ∧
      read_aborts_iff_unmapped (2 ^ 32) 8 DynarmicCallbacks32.MemoryRead64) ∧
    (write_aborts_iff_unmapped (2 ^ 32) 1 DynarmicCallbacks32.MemoryWrite8 ∧
      write_aborts_iff_unmapped (2 ^ 32) 2 DynarmicCallbacks32.MemoryWrite16 ∧
      write_aborts_iff_unmapped (2 ^ 32) 4 DynarmicCallbacks32.MemoryWrite32 ∧
      write_aborts_iff_unmapped (2 ^ 32) 8 DynarmicCallbacks32.MemoryWrite64) :=
  ⟨⟨read_aborts_of_eq _ 1 _ (fun m a _ => (read_le_one _ m a).symm),
    read_aborts_of_eq _ 2 _ (fun m a ha => MemoryRead16_eq _ (Or.inr rfl) m a ha),
    read_aborts_of_eq _ 4 _ (fun m a ha => MemoryRead32_eq _ (Or.inr rfl) m a ha),
    read_aborts_of_eq _ 8 _ (fun m a ha => MemoryRead64_eq _ (Or.inr rfl) m a ha)⟩,
   ⟨write_aborts_of_eq _ 1 _ (fun m a v _ => (write_le_one _ m a v).symm),
    write_aborts_of_eq _ 2 _ (fun m a v ha => MemoryWrite16_eq _ (Or.inr rfl) m a v ha),
    write_aborts_of_eq _ 4 _ (fun m a v ha => MemoryWrite32_eq _ (Or.inr rfl) m a v ha),
    write_aborts_of_eq _ 8 _ (fun m a v ha => MemoryWrite64_eq _ (Or.inr rfl) m a v ha)⟩,
   ⟨read_aborts_of_eq _ 1 _ (fun m a _ => (read_le_one _ m a).symm),
    read_aborts_of_eq _ 2 _ (fun m a ha => MemoryRead16_eq _ (Or.inl rfl) m a ha),
    read_aborts_of_eq _ 4 _ (fun m a ha => MemoryRead32_eq _ (Or.inl rfl) m a ha),
    read_aborts_of_eq _ 8 _ (fun m a ha => MemoryRead64_eq _ (Or.inl rfl) m a ha)⟩,
   ⟨write_aborts_of_eq _ 1 _ (fun m a v _ => (write_le_one _ m a v).symm),
    write_aborts_of_eq _ 2 _ (fun m a v ha => MemoryWrite16_eq _ (Or.inl rfl) m a v ha),
    write_aborts_of_eq _ 4 _ (fun m a v ha => MemoryWrite32_eq _ (Or.inl rfl) m a v ha),
    write_aborts_of_eq _ 8 _ (fun m a v ha => MemoryWrite64_eq _ (Or.inl rfl) m a v ha)⟩⟩

/-- Witness of C15: a 4-byte read at 0x1ffe with the page at 0x2000 missing. -/
theorem missing_page_is_fatal_witness :
    DynarmicCallbacks64.MemoryRead32 [(0x1000, ⟨fresh_page_buffer, 3⟩)] 0x1ffe = none ↔
      ∃ i : Nat, i < 4 ∧
        kh_get [(0x1000, ⟨fresh_page_buffer, 3⟩)] (page_key ((0x1ffe + i) % 2 ^ 64)) = none :=
  missing_page_is_fatal.1.2.2.1 [(0x1000, ⟨fresh_page_buffer, 3⟩)] 0x1ffe (by decide)

theorem exclusive_of_eq (M w : Nat)
    (writeW : khash_memory → Nat → Nat → Option khash_memory)
    (exclW : khash_memory → Nat → Nat → Nat → Option (khash_memory × Bool))
    (h : ∀ memory a value, a < M → writeW memory a value = write_le M w memory a value)
    (he : ∀ memory a value expected, exclW memory a value expected =
      (writeW memory a value).bind fun memory1 => some (memory1, true)) :
    exclusive_is_plain_write M w writeW exclW := by
  intro memory a value expected ha hmapped
  have hsome := (write_le_isSome_iff M w memory a value ha).mpr hmapped
  obtain ⟨memory', hm⟩ := Option.isSome_iff_exists.mp hsome
  refine ⟨memory', (h memory a value ha).trans hm, ?_⟩
  rw [he, h memory a value ha, hm]
  rfl

/-- C16: in both variants, for every address whose covered pages are mapped and
for every value and every `expected`, `MemoryWriteExclusive16/32/64` returns
`true` and leaves memory in exactly the state `MemoryWrite16/32/64(a, value)`
leaves; `MemoryWriteExclusive8` of both variants and `MemoryWriteExclusive128`
of the 64-bit variant abort for every input. -/
theorem MemoryWriteExclusive_outcomes :
    (exclusive_is_plain_write (2 ^ 64) 2 DynarmicCallbacks64.MemoryWrite16
        DynarmicCallbacks64.MemoryWriteExclusive16 ∧
      exclusive_is_plain_write (2 ^ 64) 4 DynarmicCallbacks64.MemoryWrite32
        DynarmicCallbacks64.MemoryWriteExclusive32 ∧
      exclusive_is_plain_write (2 ^ 64) 8 DynarmicCallbacks64.MemoryWrite64
        DynarmicCallbacks64.MemoryWriteExclusive64) ∧
    (exclusive_is_plain_write (2 ^ 32) 2 DynarmicCallbacks32.MemoryWrite16
        DynarmicCallbacks32.MemoryWriteExclusive16 ∧
      exclusive_is_plain_write (2 ^ 32) 4 DynarmicCallbacks32.MemoryWrite32
        DynarmicCallbacks32.MemoryWriteExclusive32 ∧
      exclusive_is_plain_write (2 ^ 32) 8 DynarmicCallbacks32.MemoryWrite64
        DynarmicCallbacks32.MemoryWriteExclusive64) ∧
    (∀ (memory : khash_memory) (a value expected : Nat),
      DynarmicCallbacks64.MemoryWriteExclusive8 memory a value expected = none ∧
      DynarmicCallbacks32.MemoryWriteExclusive8 memory a value expected = none) ∧
    (∀ (memory : khash_memory) (a : Nat) (value expected : Nat × Nat),
      DynarmicCallbacks64.MemoryWriteExclusive128 memory a value expected = none) :=
  ⟨⟨exclusive_of_eq _ 2 _ _ (fun m a v ha => MemoryWrite16_eq _ (Or.inr rfl) m a v ha)
      (fun _ _ _ _ => rfl),
    exclusive_of_eq _ 4 _ _ (fun m a v ha => MemoryWrite32_eq _ (Or.inr rfl) m a v ha)
      (fun _ _ _ _ => rfl),
    exclusive_of_eq _ 8 _ _ (fun m a v ha => MemoryWrite64_eq _ (Or.inr rfl) m a v ha)
      (fun _ _ _ _ => rfl)⟩,
   ⟨exclusive_of_eq _ 2 _ _ (fun m a v ha => MemoryWrite16_eq _ (Or.inl rfl) m a v ha)
      (fun _ _ _ _ => rfl),
    exclusive_of_eq _ 4 _ _ (fun m a v ha => MemoryWrite32_eq _ (Or.inl rfl) m a v ha)
      (fun _ _ _ _ => rfl),
    exclusive_of_eq _ 8 _ _ (fun m a v ha => MemoryWrite64_eq _ (Or.inl rfl) m a v ha)
      (fun _ _ _ _ => rfl)⟩,
   fun _ _ _ _ => ⟨rfl, rfl⟩, fun _ _ _ _ => rfl⟩

/-- Witness of C16: an exclusive 2-byte write at 0x1002 of a mapped page, in the
32-bit variant, with an `expected` that is not what memory holds. -/
theorem MemoryWriteExclusive_outcomes_witness :
    ∃ memory' : khash_memory,
      DynarmicCallbacks32.MemoryWrite16 [(0x1000, ⟨fresh_page_buffer, 3⟩)] 0x1002 0xbeef =
        some memory' ∧
      DynarmicCallbacks32.MemoryWriteExclusive16 [(0x1000, ⟨fresh_page_buffer, 3⟩)] 0x1002
        0xbeef 0x1234 = some (memory', true) :=
  MemoryWriteExclusive_outcomes.2.1.1 [(0x1000, ⟨fresh_page_buffer, 3⟩)] 0x1002 0xbeef 0x1234
    (by decide)
    (fun i hi => by
      have hi2 : i = 0 ∨ i = 1 := by omega
      rcases hi2 with rfl | rfl <;> decide)

theorem write_le_16_eq (memory : khash_memory) (a lo hi : Nat) (ha : a < 2 ^ 64)
    (hlo : lo < 2 ^ 64) :
    write_le (2 ^ 64) 16 memory a (lo + 256 ^ 8 * hi) =
      (write_le (2 ^ 64) 8 memory a lo).bind fun memory1 =>
      write_le (2 ^ 64) 8 memory1 ((a + 8) % 2 ^ 64) hi := by
  have h := write_le_split (2 ^ 64) 8 8 memory a (lo + 256 ^ 8 * hi) ha
  rw [show (8 : Nat) + 8 = 16 from rfl] at h
  have h1 : (lo + 256 ^ 8 * hi) % 256 ^ 8 = lo := by
    rw [Nat.add_mul_mod_self_left]; exact Nat.mod_eq_of_lt (by norm_num; omega)
  have h2 : (lo + 256 ^ 8 * hi) / 256 ^ 8 = hi := by
    rw [Nat.add_mul_div_left _ _ (by norm_num), Nat.div_eq_of_lt (by norm_num; omega),
      Nat.zero_add]
  rw [h, h2, ← write_le_mod (2 ^ 64) 8 memory a (lo + 256 ^ 8 * hi) 8 (le_refl 8), h1]

/-- C14: in the 64-bit variant, for every address (no alignment condition),
`MemoryRead128(a)` is the pair `(MemoryRead64(a), MemoryRead64(a + 8))` and
`MemoryWrite128(a, (lo, hi))` is `MemoryWrite64(a, lo)` followed by
`MemoryWrite64(a + 8, hi)`, `a + 8` being taken modulo `2^64`; and on a store
of whole pages, when the pages of the 16 bytes are mapped, `MemoryRead128(a)`
after `MemoryWrite128(a, v)` returns `v`. -/
theorem MemoryAccess128 :
    (∀ (memory : khash_memory) (a : Nat),
      DynarmicCallbacks64.MemoryRead128 memory a =
        (DynarmicCallbacks64.MemoryRead64 memory a).bind fun lo =>
        (DynarmicCallbacks64.MemoryRead64 memory ((a + 8) % 2 ^ 64)).bind fun hi =>
        some (lo, hi)) ∧
    (∀ (memory : khash_memory) (a lo hi : Nat),
      DynarmicCallbacks64.MemoryWrite128 memory a (lo, hi) =
        (DynarmicCallbacks64.MemoryWrite64 memory a lo).bind fun memory1 =>
        DynarmicCallbacks64.MemoryWrite64 memory1 ((a + 8) % 2 ^ 64) hi) ∧
    (∀ (memory : khash_memory) (a lo hi : Nat), pages_ok memory → a < 2 ^ 64 →
      lo < 2 ^ 64 → hi < 2 ^ 64 →
      (∀ i : Nat, i < 16 → kh_get memory (page_key ((a + i) % 2 ^ 64)) ≠ none) →
      ∃ memory' : khash_memory,
        DynarmicCallbacks64.MemoryWrite128 memory a (lo, hi) = some memory' ∧
        DynarmicCallbacks64.MemoryRead128 memory' a = some (lo, hi)) := by
  refine ⟨fun _ _ => rfl, fun _ _ _ _ => rfl, ?_⟩
  intro memory a lo hi hok ha hlo hhi hmapped
  have hM : (2 : Nat) ^ 64 = 2 ^ 32 ∨ (2 : Nat) ^ 64 = 2 ^ 64 := Or.inr rfl
  have hpos : 0 < 2 ^ 64 := by norm_num
  have ha8 : (a + 8) % 2 ^ 64 < 2 ^ 64 := Nat.mod_lt _ hpos
  have hw : DynarmicCallbacks64.MemoryWrite128 memory a (lo, hi) =
      write_le (2 ^ 64) 16 memory a (lo + 256 ^ 8 * hi) := by
    rw [write_le_16_eq memory a lo hi ha hlo]
    show (UserCallbacks.MemoryWrite64 (2 ^ 64) memory a lo).bind
      (fun memory1 => UserCallbacks.MemoryWrite64 (2 ^ 64) memory1 ((a + 8) % 2 ^ 64) hi) = _
    rw [MemoryWrite64_eq _ hM memory a lo ha]
    congr 1
    funext memory1
    exact MemoryWrite64_eq _ hM memory1 _ hi ha8
  have hsome := (write_le_isSome_iff (2 ^ 64) 16 memory a (lo + 256 ^ 8 * hi) ha).mpr hmapped
  obtain ⟨memory', hm⟩ := Option.isSome_iff_exists.mp hsome
  refine ⟨memory', hw.trans hm, ?_⟩
  have hread := read_write_le (2 ^ 64) hM 16 memory memory' a (lo + 256 ^ 8 * hi) hok ha
    (by norm_num) hm
  have hsplit := read_le_split (2 ^ 64) memory' 8 8 a ha
  rw [show (8 : Nat) + 8 = 16 from rfl, hread] at hsplit
  show (UserCallbacks.MemoryRead64 (2 ^ 64) memory' a).bind
    (fun x => (UserCallbacks.MemoryRead64 (2 ^ 64) memory' ((a + 8) % 2 ^ 64)).bind
      fun y => some (x, y)) = _
  rw [MemoryRead64_eq _ hM memory' a ha, MemoryRead64_eq _ hM memory' _ ha8]
  cases h1 : read_le (2 ^ 64) memory' 8 a with
  | none => rw [h1] at hsplit; simp at hsplit
  | some x =>
    cases h2 : read_le (2 ^ 64) memory' 8 ((a + 8) % 2 ^ 64) with
    | none => rw [h1, h2] at hsplit; simp at hsplit
    | some y =>
      rw [h1, h2] at hsplit
      simp only [Option.some_bind, Option.some.injEq] at hsplit
      have hx := read_le_lt _ _ _ _ _ h1
      have hV : (lo + 256 ^ 8 * hi) % 256 ^ 16 = lo + 256 ^ 8 * hi := by
        apply Nat.mod_eq_of_lt
        norm_num
        omega
      rw [hV] at hsplit
      norm_num at hsplit hx
      have hxy : x = lo ∧ y = hi := by omega
      simp only [Option.some_bind, hxy.1, hxy.2]

/-- Witness of C14: a 16-byte write and read at 0x1004 of a mapped page. -/
theorem MemoryAccess128_witness :
    ∃ memory' : khash_memory,
      DynarmicCallbacks64.MemoryWrite128 [(0x1000, ⟨fresh_page_buffer, 3⟩)] 0x1004
        (0x1122334455667788, 0x99aabbccddeeff00) = some memory' ∧
      DynarmicCallbacks64.MemoryRead128 memory' 0x1004 =
        some (0x1122334455667788, 0x99aabbccddeeff00) :=
  MemoryAccess128.2.2 [(0x1000, ⟨fresh_page_buffer, 3⟩)] 0x1004 0x1122334455667788
    0x99aabbccddeeff00 (pages_ok_cons length_fresh_page_buffer pages_ok_nil) (by decide)
    (by decide) (by decide)
    (fun i hi => by
      have hk : page_key ((0x1004 + i) % 2 ^ 64) = 0x1000 := by
        unfold page_key to_long wrap64
        rw [and_not_PAGE_MASK_eq]
        omega
      rw [hk]; decide)

/-! ## Permissions and the data path -/

theorem load_at_same_bytes {m1 m2 : khash_memory} (h : same_bytes m1 m2) (a w : Nat) :
    load_at m1 a w = load_at m2 a w := by
  unfold load_at
  have hk := h (page_key a)
  cases h1 : kh_get m1 (page_key a) with
  | none =>
    rw [h1] at hk
    cases h2 : kh_get m2 (page_key a) with
    | none => rfl
    | some p2 => rw [h2] at hk; simp at hk
  | some p1 =>
    rw [h1] at hk
    cases h2 : kh_get m2 (page_key a) with
    | none => rw [h2] at hk; simp at hk
    | some p2 =>
      rw [h2] at hk
      simp only [Option.map_some', Option.some.injEq] at hk
      simp only [Option.map_some', hk]

theorem read_le_same_bytes (M : Nat) {m1 m2 : khash_memory} (h : same_bytes m1 m2) (w : Nat) :
    ∀ a : Nat, read_le M m1 w a = read_le M m2 w a := by
  induction w with
  | zero => intro a; rfl
  | succ w ih =>
    intro a
    simp only [read_le, MemoryRead8_eq, load_at_same_bytes h, ih]

theorem store_at_same_bytes {m1 m2 m1' m2' : khash_memory} (h : same_bytes m1 m2)
    {a w v : Nat} (h1 : store_at m1 a w v = some m1') (h2 : store_at m2 a w v = some m2') :
    same_bytes m1' m2' := by
  intro k
  rw [kh_get_store_at h1 k, kh_get_store_at h2 k]
  by_cases hk : k = page_key a
  · rw [if_pos hk, if_pos hk]
    have := h (page_key a)
    cases e1 : kh_get m1 (page_key a) with
    | none =>
      rw [e1] at this
      cases e2 : kh_get m2 (page_key a) with
      | none => rfl
      | some p2 => rw [e2] at this; simp at this
    | some p1 =>
      rw [e1] at this
      cases e2 : kh_get m2 (page_key a) with
      | none => rw [e2] at this; simp at this
      | some p2 =>
        rw [e2] at this
        simp only [Option.map_some', Option.some.injEq] at this
        simp only [Option.map_some', poke, this]
  · rw [if_neg hk, if_neg hk]
    exact h k

theorem store_at_none_same_bytes {m1 m2 : khash_memory} (h : same_bytes m1 m2) (a w v : Nat) :
    store_at m1 a w v = none ↔ store_at m2 a w v = none := by
  have hk := h (page_key a)
  unfold store_at
  cases h1 : kh_get m1 (page_key a) with
  | none =>
    rw [h1] at hk
    cases h2 : kh_get m2 (page_key a) with
    | none => simp
    | some p2 => rw [h2] at hk; simp at hk
  | some p1 =>
    rw [h1] at hk
    cases h2 : kh_get m2 (page_key a) with
    | none => rw [h2] at hk; simp at hk
    | some p2 => simp

theorem write_le_same_bytes (M : Nat) (w : Nat) :
    ∀ (m1 m2 : khash_memory) (a v : Nat), same_bytes m1 m2 →
      (write_le M w m1 a v = none ↔ write_le M w m2 a v = none) ∧
      ∀ m1' m2' : khash_memory, write_le M w m1 a v = some m1' →
        write_le M w m2 a v = some m2' → same_bytes m1' m2' := by
  induction w with
  | zero =>
    intro m1 m2 a v h
    simp only [write_le, Option.some.injEq]
    refine ⟨by simp, ?_⟩
    intro m1' m2' e1 e2
    rw [← e1, ← e2]; exact h
  | succ w ih =>
    intro m1 m2 a v h
    simp only [write_le, MemoryWrite8_eq]
    have hn := store_at_none_same_bytes h a 1 (v % 256)
    cases e1 : store_at m1 a 1 (v % 256) with
    | none =>
      have e2 := hn.mp e1
      rw [e2]
      simp
    | some n1 =>
      cases e2 : store_at m2 a 1 (v % 256) with
      | none => rw [hn.mpr e2] at e1; simp at e1
      | some n2 =>
        simp only [Option.some_bind]
        exact ih n1 n2 _ _ (store_at_same_bytes h e1 e2)

theorem ignores_permissions_of_eq (M w : Nat) (readW : khash_memory → Nat → Option Nat)
    (writeW : khash_memory → Nat → Nat → Option khash_memory)
    (hr : ∀ memory a, a < M → readW memory a = read_le M memory w a)
    (hw : ∀ memory a value, a < M → writeW memory a value = write_le M w memory a value) :
    ignores_permissions M readW writeW := by
  intro m1 m2 a v ha h
  rw [hr m1 a ha, hr m2 a ha, hw m1 a v ha, hw m2 a v ha]
  exact ⟨read_le_same_bytes M h w a, write_le_same_bytes M w m1 m2 a v h⟩

theorem stores_and_reads_back_of_eq (M : Nat) (hM : M = 2 ^ 32 ∨ M = 2 ^ 64) (w : Nat)
    (hwM : w ≤ M) (readW : khash_memory → Nat → Option Nat)
    (writeW : khash_memory → Nat → Nat → Option khash_memory)
    (hr : ∀ memory a, a < M → readW memory a = read_le M memory w a)
    (hw : ∀ memory a value, a < M → writeW memory a value = write_le M w memory a value) :
    stores_and_reads_back M w readW writeW := by
  intro memory a v hok ha hmapped
  have hsome := (write_le_isSome_iff M w memory a v ha).mpr hmapped
  obtain ⟨memory', hm⟩ := Option.isSome_iff_exists.mp hsome
  obtain ⟨_, hperm, _⟩ := write_le_frame M hM w memory memory' a v hok ha hm
  refine ⟨memory', (hw memory a v ha).trans hm, ?_, hperm⟩
  rw [hr memory' a ha]
  exact read_write_le M hM w memory memory' a v hok ha hwM hm

/-- C18, as stated, fails for an access that leaves the mapped page: with the
page at 0x1000 the only one mapped, the address 0x1fff lies in a mapped page
and `MemoryWrite16(0x1fff, 0xbeef)` of the 32-bit variant aborts (its second
byte is at 0x2000) and stores nothing. -/
theorem MemoryWrite16_leaves_mapped_page :
    (kh_get [(0x1000, ⟨fresh_page_buffer, 3⟩)] (page_key 0x1fff)).isSome = true ∧
    DynarmicCallbacks32.MemoryWrite16 [(0x1000, ⟨fresh_page_buffer, 3⟩)] 0x1fff 0xbeef = none := by
  decide

/-- C18 (amended): the 32-bit variant does not consult permissions on the data
path. On a store of whole pages, for every width 1, 2, 4, 8 and every address
`a` such that the pages of all of `a`, ..., `a + w - 1` are mapped, whatever
their permission words, `MemoryWrite8/16/32/64(a, v)` returns and
`MemoryRead8/16/32/64(a)` then returns the `w` low bytes of `v`, the
permission words being left as they were; and the results of the reads and
writes are the same on any two stores that differ in permission words only. -/
theorem DynarmicCallbacks32_ignores_permissions :
    (stores_and_reads_back (2 ^ 32) 1 DynarmicCallbacks32.MemoryRead8
        DynarmicCallbacks32.MemoryWrite8 ∧
      stores_and_reads_back (2 ^ 32) 2 DynarmicCallbacks32.MemoryRead16
        DynarmicCallbacks32.MemoryWrite16 ∧
      stores_and_reads_back (2 ^ 32) 4 DynarmicCallbacks32.MemoryRead32
        DynarmicCallbacks32.MemoryWrite32 ∧
      stores_and_reads_back (2 ^ 32) 8 DynarmicCallbacks32.MemoryRead64
        DynarmicCallbacks32.MemoryWrite64) ∧
    (ignores_permissions (2 ^ 32) DynarmicCallbacks32.MemoryRead8
        DynarmicCallbacks32.MemoryWrite8 ∧
      ignores_permissions (2 ^ 32) DynarmicCallbacks32.MemoryRead16
        DynarmicCallbacks32.MemoryWrite16 ∧
      ignores_permissions (2 ^ 32) DynarmicCallbacks32.MemoryRead32
        DynarmicCallbacks32.MemoryWrite32 ∧
      ignores_permissions (2 ^ 32) DynarmicCallbacks32.MemoryRead64
        DynarmicCallbacks32.MemoryWrite64) :=
  ⟨⟨stores_and_reads_back_of_eq _ (Or.inl rfl) 1 (by norm_num) _ _
      (fun m a _ => (read_le_one _ m a).symm) (fun m a v _ => (write_le_one _ m a v).symm),
    stores_and_reads_back_of_eq _ (Or.inl rfl) 2 (by norm_num) _ _
      (fun m a ha => MemoryRead16_eq _ (Or.inl rfl) m a ha)
      (fun m a v ha => MemoryWrite16_eq _ (Or.inl rfl) m a v ha),
    stores_and_reads_back_of_eq _ (Or.inl rfl) 4 (by norm_num) _ _
      (fun m a ha => MemoryRead32_eq _ (Or.inl rfl) m a ha)
      (fun m a v ha => MemoryWrite32_eq _ (Or.inl rfl) m a v ha),
    stores_and_reads_back_of_eq _ (Or.inl rfl) 8 (by norm_num) _ _
      (fun m a ha => MemoryRead64_eq _ (Or.inl rfl) m a ha)
      (fun m a v ha => MemoryWrite64_eq _ (Or.inl rfl) m a v ha)⟩,
   ⟨ignores_permissions_of_eq _ 1 _ _
      (fun m a _ => (read_le_one _ m a).symm) (fun m a v _ => (write_le_one _ m a v).symm),
    ignores_permissions_of_eq _ 2 _ _
      (fun m a ha => MemoryRead16_eq _ (Or.inl rfl) m a ha)
      (fun m a v ha => MemoryWrite16_eq _ (Or.inl rfl) m a v ha),
    ignores_permissions_of_eq _ 4 _ _
      (fun m a ha => MemoryRead32_eq _ (Or.inl rfl) m a ha)
      (fun m a v ha => MemoryWrite32_eq _ (Or.inl rfl) m a v ha),
    ignores_permissions_of_eq _ 8 _ _
      (fun m a ha => MemoryRead64_eq _ (Or.inl rfl) m a ha)
      (fun m a v ha => MemoryWrite64_eq _ (Or.inl rfl) m a v ha)⟩⟩

/-- Witness of C18 (amended): a 4-byte write and read at 0x1001 of a page mapped
with the permission word 0. -/
theorem DynarmicCallbacks32_ignores_permissions_witness :
    ∃ memory' : khash_memory,
      DynarmicCallbacks32.MemoryWrite32 [(0x1000, ⟨fresh_page_buffer, 0⟩)] 0x1001 0x11223344 =
        some memory' ∧
      DynarmicCallbacks32.MemoryRead32 memory' 0x1001 = some (0x11223344 % 256 ^ 4) ∧
      ∀ k : Int, (kh_get memory' k).map (fun page => page.perms) =
        (kh_get [(0x1000, ⟨fresh_page_buffer, 0⟩)] k).map (fun page => page.perms) :=
  DynarmicCallbacks32_ignores_permissions.1.2.2.1 [(0x1000, ⟨fresh_page_buffer, 0⟩)] 0x1001
    0x11223344 (pages_ok_cons length_fresh_page_buffer pages_ok_nil) (by decide)
    (fun i hi => by
      have hk : page_key ((0x1001 + i) % 2 ^ 32) = 0x1000 := by
        unfold page_key to_long wrap64
        rw [and_not_PAGE_MASK_eq]
        omega
      rw [hk]; decide)

theorem page_key_eq_to_long (a : Nat) (ha : a < 2 ^ 64) :
    page_key a = to_long (a - a % 4096) := by
  unfold page_key to_long wrap64
  rw [and_not_PAGE_MASK_eq]
  omega

/-- C17: in the 64-bit variant, for every address `a`, `IsReadOnlyMemory(a)` is
true if and only if the page with base `a & ~0xFFF` is mapped and its
permission word has the write bit (2) clear; it is false for every unmapped
address; and after a successful `mem_protect(base, 4096, perms)` (with
`base + 4096` inside the signed range) it equals `(perms & 2) == 0` for every
address of that page. -/
theorem IsReadOnlyMemory_spec :
    (∀ (memory : khash_memory) (a : Nat),
      (a < 2 ^ 64 → page_key a = to_long (a - a % 4096)) ∧
      (DynarmicCallbacks64.IsReadOnlyMemory memory a = true ↔
        ∃ page : memory_page, kh_get memory (page_key a) = some page ∧
          Int.land page.perms 2 = 0) ∧
      (kh_get memory (page_key a) = none →
        DynarmicCallbacks64.IsReadOnlyMemory memory a = false)) ∧
    (∀ (memory memory' : khash_memory) (base perms : Int),
      -(2 ^ 63) ≤ base → base + 4096 < 2 ^ 63 →
      mem_protect memory base 4096 perms = some (0, memory') →
      ∀ a : Nat, page_key a = base →
        DynarmicCallbacks64.IsReadOnlyMemory memory' a = decide (Int.land perms 2 = 0)) := by
  constructor
  · intro memory a
    refine ⟨page_key_eq_to_long a, ?_, ?_⟩
    · unfold DynarmicCallbacks64.IsReadOnlyMemory
      cases kh_get memory (page_key a) with
      | none => simp
      | some page => simp [UC_PROT_WRITE]
    · intro h
      unfold DynarmicCallbacks64.IsReadOnlyMemory
      rw [h]
  · intro memory memory' base perms hlo hhi hret a ha
    have halign : base % 4096 = 0 := by
      by_contra hc
      have h1 : and_PAGE_MASK base ≠ 0 := hc
      simp [mem_protect, h1] at hret
    have hmapped : kh_get memory base ≠ none := by
      intro hnone
      obtain ⟨m3, h3, _⟩ := mem_protect_stop memory base 4096 perms base halign (by decide)
        (by decide) hlo hhi ⟨le_refl _, by omega, halign⟩ hnone (fun k h1 h2 _ => by omega)
      rw [h3] at hret
      simp at hret
    obtain ⟨m0, h0, hlook⟩ := mem_protect_all memory base 4096 perms halign (by decide)
      (by decide) hlo (by omega) hhi (fun k h1 h2 h3 => by
        have : k = base := by omega
        rw [this]; exact hmapped)
    rw [h0] at hret
    simp only [Option.some.injEq, Prod.mk.injEq, true_and] at hret
    subst hret
    obtain ⟨pg, hpg⟩ := Option.ne_none_iff_exists'.mp hmapped
    unfold DynarmicCallbacks64.IsReadOnlyMemory
    rw [ha, hlook base, if_pos ⟨le_refl _, by omega, halign⟩, hpg]
    simp [set_perms, UC_PROT_WRITE]

/-- Witness of C17: the page at 0x1000 made read-only, asked at 0x1234. -/
theorem IsReadOnlyMemory_spec_witness :
    DynarmicCallbacks64.IsReadOnlyMemory [(0x1000, ⟨fresh_page_buffer, 1⟩)] 0x1234 =
      decide (Int.land 1 2 = 0) :=
  IsReadOnlyMemory_spec.2 [(0x1000, ⟨fresh_page_buffer, 3⟩)]
    [(0x1000, ⟨fresh_page_buffer, 1⟩)] 0x1000 1 (by decide) (by decide) rfl 0x1234 (by decide)

/-! ## Bulk reads -/

/-- The loop of `mem_read` from the page at `v` on, when some page base of
`[v, E)` is not mapped: the `NULL` return. -/
theorem mem_read_loop_fails (memory : khash_memory) (A E : Int) (hhi : E ≤ 2 ^ 63 - 4096)
    (fuel : Nat) :
    ∀ (b : List Byte) (dest v : Int),
      v % 4096 = 0 → A < v + 4096 → -(2 ^ 63) ≤ v → 0 < fuel →
      E - v + 4096 ≤ 4096 * fuel →
      (∃ k : Int, v ≤ k ∧ k < E ∧ k % 4096 = 0 ∧ kh_get memory k = none) →
      mem_read_loop memory A E fuel (some b) dest v = some none := by
  induction fuel with
  | zero => intro _ _ _ _ _ _ hf; omega
  | succ fuel ih =>
    intro b dest v hv hAv hlov _ hfuel hex
    obtain ⟨k, hk1, hk2, hk3, hk4⟩ := hex
    have hlt : v < E := by omega
    rw [mem_read_loop_succ memory A E fuel b dest v hlt hAv hlov hhi]
    cases hget : kh_get memory v with
    | none => rfl
    | some page =>
      have hkv : k ≠ v := fun h => by rw [h, hget] at hk4; simp at hk4
      exact ih _ _ (v + 4096) (by omega) (by omega) (by omega) (by omega) (by omega)
        ⟨k, by omega, hk2, hk3, hk4⟩

theorem MemoryRead8_eq_guest_byte (memory : khash_memory) (hok : pages_ok memory) (a : Nat) :
    UserCallbacks.MemoryRead8 memory a =
      (guest_byte memory (to_long a)).map (fun b => b.val) := by
  have hoff : (to_long a % 4096).toNat = a % 4096 := by rw [to_long_mod]; omega
  have hkey : to_long a - to_long a % 4096 = page_key a := by
    unfold page_key; rw [and_not_PAGE_MASK_eq]
  rw [MemoryRead8_eq, guest_byte_eq, hoff, hkey]
  unfold load_at
  cases hk : kh_get memory (page_key a) with
  | none => rfl
  | some page =>
    have hlen := pages_ok_get hok hk
    simp only [Option.map_some', Option.some_bind, le_value_take_one]
    have hlt : a % 4096 < page.addr.length := by rw [hlen]; omega
    rw [List.getElem?_eq_getElem hlt]
    rfl

/-- C11, as stated, fails for a read of size 0 at an address that is not page
aligned: no address lies in `[0x1001, 0x1001 + 0)`, so no page is covered, and
`mem_read(0x1001, 0)` on the empty store fails all the same (the loop looks up
the page at 0x1000). -/
theorem mem_read_empty_range_fails :
    mem_read [] 0x1001 0 = some none ∧
    ¬ ∃ x : Int, 0x1001 ≤ x ∧ x < 0x1001 + 0 ∧ kh_get [] (and_not_PAGE_MASK x) = none := by
  refine ⟨by decide, ?_⟩
  rintro ⟨x, h1, h2, _⟩
  omega

/-- C11 (amended): on a store of whole pages, for every address and every size
`n >= 0` (a `jint`, with `address + n` below the last page of the signed
range), `mem_read(address, n)` fails with the `NULL` return if and only if some
page base from the page of `address` up to `address + n` is not mapped (for
`n = 0` and an address that is not page aligned this is the page of
`address`); otherwise it returns exactly `n` bytes, the `i`-th being the byte
at guest address `address + i`, the value `MemoryRead8` returns there. The page
store is an argument of the function and is not returned: it is not changed. -/
theorem mem_read_outcome (memory : khash_memory) (address : Int) (n : Nat)
    (hok : pages_ok memory) (hlo : -(2 ^ 63) ≤ address) (hn : (n : Int) < 2 ^ 31)
    (hhi : address + n ≤ 2 ^ 63 - 4096) :
    (mem_read memory address n = some none ↔
      ∃ k : Int, address - address % 4096 ≤ k ∧ k < address + n ∧ k % 4096 = 0 ∧
        kh_get memory k = none) ∧
    ((∀ k : Int, address - address % 4096 ≤ k → k < address + n → k % 4096 = 0 →
        kh_get memory k ≠ none) →
      ∃ out : List Byte,
        mem_read memory address n = some (some out) ∧ out.length = n ∧
        ∀ i : Nat, i < n →
          out[i]? = guest_byte memory (address + i) ∧
          ∀ a : Nat, to_long a = address + i →
            DynarmicCallbacks64.MemoryRead8 memory a = (out[i]?).map (fun b => b.val)) := by
  have hsucc : (∀ k : Int, address - address % 4096 ≤ k → k < address + n → k % 4096 = 0 →
        kh_get memory k ≠ none) →
      ∃ out : List Byte,
        mem_read memory address n = some (some out) ∧ out.length = n ∧
        ∀ i : Nat, i < n →
          out[i]? = guest_byte memory (address + i) ∧
          ∀ a : Nat, to_long a = address + i →
            DynarmicCallbacks64.MemoryRead8 memory a = (out[i]?).map (fun b => b.val) := by
    intro hall
    obtain ⟨out, h1, h2, h3⟩ := mem_read_spec memory address n hok hlo hn hhi hall
    refine ⟨out, h1, h2, ?_⟩
    intro i hi
    refine ⟨h3 i hi, ?_⟩
    intro a ha
    show UserCallbacks.MemoryRead8 memory a = _
    rw [MemoryRead8_eq_guest_byte memory hok a, ha, h3 i hi]
  refine ⟨?_, hsucc⟩
  constructor
  · intro hfail
    by_contra hc
    obtain ⟨out, h1, _⟩ := hsucc (fun k hk1 hk2 hk3 hn0 => hc ⟨k, hk1, hk2, hk3, hn0⟩)
    rw [h1] at hfail
    simp at hfail
  · intro hex
    have hw : wrap64 (address + n) = address + n := wrap64_of_range (by omega) (by omega)
    simp only [mem_read, hw, and_not_PAGE_MASK_eq, Int.toNat_ofNat, Nat.cast_nonneg, if_true]
    exact mem_read_loop_fails memory address (address + n) hhi LOOP_FUEL _ 0
      (address - address % 4096) (by omega) (by omega) (by omega) (by decide)
      (by unfold LOOP_FUEL; omega) hex

/-- Witness of C11 (amended): four bytes read across the pages at 0x1000 and
0x2000. -/
theorem mem_read_outcome_witness :
    (mem_read [(0x1000, ⟨fresh_page_buffer, 3⟩), (0x2000, ⟨fresh_page_buffer, 1⟩)] 0x1ffe
        (4 : Nat) = some none ↔
      ∃ k : Int, 0x1ffe - 0x1ffe % 4096 ≤ k ∧ k < 0x1ffe + (4 : Nat) ∧ k % 4096 = 0 ∧
        kh_get [(0x1000, ⟨fresh_page_buffer, 3⟩), (0x2000, ⟨fresh_page_buffer, 1⟩)] k = none) ∧
    ((∀ k : Int, 0x1ffe - 0x1ffe % 4096 ≤ k → k < 0x1ffe + (4 : Nat) → k % 4096 = 0 →
        kh_get [(0x1000, ⟨fresh_page_buffer, 3⟩), (0x2000, ⟨fresh_page_buffer, 1⟩)] k ≠ none) →
      ∃ out : List Byte,
        mem_read [(0x1000, ⟨fresh_page_buffer, 3⟩), (0x2000, ⟨fresh_page_buffer, 1⟩)] 0x1ffe
          (4 : Nat) = some (some out) ∧ out.length = 4 ∧
        ∀ i : Nat, i < 4 →
          out[i]? = guest_byte
            [(0x1000, ⟨fresh_page_buffer, 3⟩), (0x2000, ⟨fresh_page_buffer, 1⟩)] (0x1ffe + i) ∧
          ∀ a : Nat, to_long a = 0x1ffe + i →
            DynarmicCallbacks64.MemoryRead8
              [(0x1000, ⟨fresh_page_buffer, 3⟩), (0x2000, ⟨fresh_page_buffer, 1⟩)] a =
              (out[i]?).map (fun b => b.val)) :=
  mem_read_outcome [(0x1000, ⟨fresh_page_buffer, 3⟩), (0x2000, ⟨fresh_page_buffer, 1⟩)] 0x1ffe 4
    (pages_ok_cons length_fresh_page_buffer (pages_ok_cons length_fresh_page_buffer pages_ok_nil))
    (by decide) (by decide) (by decide)

/-! ## The trap callbacks -/

theorem with_cpu64_some (f : jit_state → jit_state) (d : dynarmic) (cpu : jit_state)
    (h : d.jit64 = some cpu) :
    with_cpu64 f d = some { d with jit64 := some (f cpu) } := by
  simp [with_cpu64, h]

theorem with_cpu32_some (f : jit_state → jit_state) (d : dynarmic) (cpu : jit_state)
    (h : d.jit32 = some cpu) :
    with_cpu32 f d = some { d with jit32 := some (f cpu) } := by
  simp [with_cpu32, h]

/-- Counterexample to C19 as stated: the `callSVC` upcall of the 64-bit
variant stops the emulator through `emu_stop` and returns without signalling an
error; the trap makes its one upcall and returns, and the session is halted
afterwards although no error was signalled. -/
theorem CallSVC_halted_without_error :
    (stopping_callback.callSVC 0x1000 7 session64).exception = false ∧
    (DynarmicCallbacks64.CallSVC stopping_callback session64 7).upcalls = [(0x1000, 7)] ∧
    ((DynarmicCallbacks64.CallSVC stopping_callback session64 7).outcome.bind core64).map
      (fun cpu => cpu.halt_requested) = some true := by
  decide

/-- Claim C19, amended: in both variants a supervisor-call trap with number
`swi` makes exactly one `callSVC` upcall, with the program counter of the core
(register 15 of the 32-bit core, PC of the 64-bit core) and `swi`, and returns;
afterwards the memory and the program counter are as the upcall left them, and
the session is halted if and only if the upcall signalled an error or left the
session halted. -/
theorem CallSVC_forwards :
    forwards_svc core64 DynarmicCallbacks64.CallSVC ∧
    forwards_svc core32 DynarmicCallbacks32.CallSVC := by
  constructor
  · intro callback d swi cpu cpu1 h0 h1
    simp only [core64] at h0 h1 ⊢
    have hC : DynarmicCallbacks64.CallSVC callback d swi =
        ⟨[(cpu.pc, swi)],
          if (callback.callSVC cpu.pc swi d).exception then
            with_cpu64 HaltExecution (callback.callSVC cpu.pc swi d).session
          else some (callback.callSVC cpu.pc swi d).session⟩ := by
      simp [DynarmicCallbacks64.CallSVC, h0]
    rw [hC]
    refine ⟨rfl, ?_⟩
    cases hexc : (callback.callSVC cpu.pc swi d).exception
    · refine ⟨(callback.callSVC cpu.pc swi d).session, by simp, rfl, ?_⟩
      simp [h1]
    · refine ⟨{ (callback.callSVC cpu.pc swi d).session with
                jit64 := some (HaltExecution cpu1) }, ?_, rfl, ?_⟩
      · simp [with_cpu64_some _ _ _ h1]
      · simp [HaltExecution]
  · intro callback d swi cpu cpu1 h0 h1
    simp only [core32] at h0 h1 ⊢
    have hC : DynarmicCallbacks32.CallSVC callback d swi =
        ⟨[(cpu.pc, swi)],
          if (callback.callSVC cpu.pc swi d).exception then
            with_cpu32 HaltExecution (callback.callSVC cpu.pc swi d).session
          else some (callback.callSVC cpu.pc swi d).session⟩ := by
      simp [DynarmicCallbacks32.CallSVC, h0]
    rw [hC]
    refine ⟨rfl, ?_⟩
    cases hexc : (callback.callSVC cpu.pc swi d).exception
    · refine ⟨(callback.callSVC cpu.pc swi d).session, by simp, rfl, ?_⟩
      simp [h1]
    · refine ⟨{ (callback.callSVC cpu.pc swi d).session with
                jit32 := some (HaltExecution cpu1) }, ?_, rfl, ?_⟩
      · simp [with_cpu32_some _ _ _ h1]
      · simp [HaltExecution]

/-- Witness for C19: the 32-bit trap with a callback that raises an exception
makes its upcall with register 15 and the call number and leaves the session
halted; the 64-bit trap likewise. -/
theorem CallSVC_forwards_witness :
    ((DynarmicCallbacks32.CallSVC raising_callback session32 7).upcalls = [(0x1000, 7)] ∧
      ∃ d1 : dynarmic,
        (DynarmicCallbacks32.CallSVC raising_callback session32 7).outcome = some d1 ∧
        d1.memory = [] ∧
        core32 d1 = some { pc := 0x1000, halt_requested := true }) ∧
    ((DynarmicCallbacks64.CallSVC raising_callback session64 7).upcalls = [(0x1000, 7)] ∧
      ∃ d1 : dynarmic,
        (DynarmicCallbacks64.CallSVC raising_callback session64 7).outcome = some d1 ∧
        d1.memory = [] ∧
        core64 d1 = some { pc := 0x1000, halt_requested := true }) :=
  ⟨CallSVC_forwards.2 raising_callback session32 7 { pc := 0x1000 } { pc := 0x1000 } rfl rfl,
   CallSVC_forwards.1 raising_callback session64 7 { pc := 0x1000 } { pc := 0x1000 } rfl rfl⟩

/-- Claim C20: in the 64-bit variant `InterpreterFallback(pc, n)` makes exactly
one `handleInterpreterFallback` upcall, with `(pc, n)`; if the upcall reports
that it handled the instruction, the program counter is set to `pc + 4` modulo
`2 ^ 64` and the call returns; if it reports that it did not, the outcome is
`abort()`. In the 32-bit variant the outcome is `abort()` for every input and
no upcall is made. -/
theorem InterpreterFallback_spec (callback : DynarmicCallback) (d : dynarmic) (pc n : Nat) :
    (DynarmicCallbacks64.InterpreterFallback callback d pc n).upcalls = [(pc, n)] ∧
    (∀ cpu1 : jit_state,
      (callback.handleInterpreterFallback pc n d).processed = true →
      (callback.handleInterpreterFallback pc n d).session.jit64 = some cpu1 →
      ∃ d1 : dynarmic,
        (DynarmicCallbacks64.InterpreterFallback callback d pc n).outcome = some d1 ∧
        d1.memory = (callback.handleInterpreterFallback pc n d).session.memory ∧
        d1.jit64 = some { pc := (pc + 4) % 2 ^ 64,
                          halt_requested :=
                            cpu1.halt_requested ||
                              (callback.handleInterpreterFallback pc n d).exception }) ∧
    ((callback.handleInterpreterFallback pc n d).processed = false →
      (DynarmicCallbacks64.InterpreterFallback callback d pc n).outcome = none) ∧
    DynarmicCallbacks32.InterpreterFallback callback d pc n = ⟨[], none⟩ := by
  refine ⟨rfl, ?_, ?_, ?_⟩
  · intro cpu1 hp h1
    simp only [DynarmicCallbacks64.InterpreterFallback, hp, if_true]
    cases hexc : (callback.handleInterpreterFallback pc n d).exception
    · refine ⟨{ (callback.handleInterpreterFallback pc n d).session with
                jit64 := some (SetPC ((pc + 4) % 2 ^ 64) cpu1) }, ?_, rfl, ?_⟩
      · simp [with_cpu64_some _ _ _ h1]
      · simp [SetPC]
    · refine ⟨{ (callback.handleInterpreterFallback pc n d).session with
                jit64 := some (SetPC ((pc + 4) % 2 ^ 64) (HaltExecution cpu1)) }, ?_, rfl, ?_⟩
      · rw [if_pos rfl, with_cpu64_some _ _ _ h1]
        simp [with_cpu64]
      · simp [SetPC, HaltExecution]
  · intro hp
    simp only [DynarmicCallbacks64.InterpreterFallback, hp]
    cases (if (callback.handleInterpreterFallback pc n d).exception = true then
        with_cpu64 HaltExecution (callback.handleInterpreterFallback pc n d).session
      else some (callback.handleInterpreterFallback pc n d).session) <;> simp
  · rfl

/-- Witness for C20: a callback that handles the instruction at `0x1000`
leaves the program counter at `0x1004`. -/
theorem InterpreterFallback_spec_witness :
    ∃ d1 : dynarmic,
      (DynarmicCallbacks64.InterpreterFallback stopping_callback session64 0x1000 1).outcome
        = some d1 ∧
      d1.memory = [] ∧
      d1.jit64 = some { pc := 0x1004, halt_requested := false } :=
  (InterpreterFallback_spec stopping_callback session64 0x1000 1).2.1 { pc := 0x1000 } rfl rfl


/-! ## Cycle accounting -/

theorem ticks_foldl64 (ts : List Nat) :
    ∀ cb : callbacks64,
      (ts.foldl DynarmicCallbacks64.AddTicks cb).ticks = (cb.ticks + ts.sum) % 2 ^ 64 ∨
      (ts = [] ∧ (ts.foldl DynarmicCallbacks64.AddTicks cb).ticks = cb.ticks) := by
  induction ts with
  | nil => intro cb; right; exact ⟨rfl, rfl⟩
  | cons t ts ih =>
    intro cb
    left
    rw [List.foldl_cons, List.sum_cons]
    rcases ih (DynarmicCallbacks64.AddTicks cb t) with h | ⟨h1, h2⟩
    · rw [h]
      show ((cb.ticks + t) % 2 ^ 64 + ts.sum) % 2 ^ 64 = _
      omega
    · subst h1
      rw [h2]
      show (cb.ticks + t) % 2 ^ 64 = _
      simp

theorem ticks_foldl32 (ts : List Nat) :
    ∀ cb : callbacks32,
      (ts.foldl DynarmicCallbacks32.AddTicks cb).ticks = (cb.ticks + ts.sum) % 2 ^ 64 ∨
      (ts = [] ∧ (ts.foldl DynarmicCallbacks32.AddTicks cb).ticks = cb.ticks) := by
  induction ts with
  | nil => intro cb; right; exact ⟨rfl, rfl⟩
  | cons t ts ih =>
    intro cb
    left
    rw [List.foldl_cons, List.sum_cons]
    rcases ih (DynarmicCallbacks32.AddTicks cb t) with h | ⟨h1, h2⟩
    · rw [h]
      show ((cb.ticks + t) % 2 ^ 64 + ts.sum) % 2 ^ 64 = _
      omega
    · subst h1
      rw [h2]
      show (cb.ticks + t) % 2 ^ 64 = _
      simp

/-- Claim C21: in both variants, starting from `ticks = 0`, after
`AddTicks(t1)`, ..., `AddTicks(tk)` the counter is `(t1 + ... + tk) mod 2^64`;
`GetTicksRemaining()` returns `0x10000000000` in every state, also after any
such sequence; and `GetCNTPCT()` of the 64-bit variant returns the same fixed
value in every state. -/
theorem ticks_are_additive (ts : List Nat) :
    ((ts.foldl DynarmicCallbacks64.AddTicks {}).ticks = ts.sum % 2 ^ 64 ∧
      (ts.foldl DynarmicCallbacks32.AddTicks {}).ticks = ts.sum % 2 ^ 64) ∧
    (∀ cb : callbacks64,
      DynarmicCallbacks64.GetTicksRemaining cb = 0x10000000000 ∧
      DynarmicCallbacks64.GetTicksRemaining (ts.foldl DynarmicCallbacks64.AddTicks cb) =
        DynarmicCallbacks64.GetTicksRemaining cb ∧
      DynarmicCallbacks64.GetCNTPCT cb = 0x10000000000 ∧
      DynarmicCallbacks64.GetCNTPCT (ts.foldl DynarmicCallbacks64.AddTicks cb) =
        DynarmicCallbacks64.GetCNTPCT cb) ∧
    (∀ cb : callbacks32,
      DynarmicCallbacks32.GetTicksRemaining cb = 0x10000000000 ∧
      DynarmicCallbacks32.GetTicksRemaining (ts.foldl DynarmicCallbacks32.AddTicks cb) =
        DynarmicCallbacks32.GetTicksRemaining cb) := by
  refine ⟨⟨?_, ?_⟩, fun cb => ⟨rfl, rfl, rfl, rfl⟩, fun cb => ⟨rfl, rfl⟩⟩
  · rcases ticks_foldl64 ts {} with h | ⟨h1, h2⟩
    · rw [h]; show (0 + ts.sum) % 2 ^ 64 = _; rw [Nat.zero_add]
    · subst h1; rfl
  · rcases ticks_foldl32 ts {} with h | ⟨h1, h2⟩
    · rw [h]; show (0 + ts.sum) % 2 ^ 64 = _; rw [Nat.zero_add]
    · subst h1; rfl


/-! ## Run control and the operations of the 64-bit variant -/

theorem ldiff_one (m : Nat) : Nat.ldiff 1 m = 1 - m % 2 := by
  apply Nat.eq_of_testBit_eq
  intro i
  rw [Nat.testBit_ldiff]
  rcases Nat.mod_two_eq_zero_or_one m with h | h
  · rw [h]
    cases i with
    | zero => simp [Nat.testBit_zero, h]
    | succ i => simp [Nat.testBit_succ]
  · rw [h]
    cases i with
    | zero => simp [Nat.testBit_zero, h]
    | succ i => simp [Nat.testBit_succ]

theorem ldiff_not_one (m : Nat) : Nat.ldiff m 1 = m - m % 2 := by
  apply Nat.eq_of_testBit_eq
  intro i
  rw [Nat.testBit_ldiff]
  have h2 : m - m % 2 = 2 * (m / 2) := by omega
  rw [h2]
  cases i with
  | zero => simp [Nat.testBit_zero]
  | succ i =>
    rw [Nat.testBit_succ, Nat.testBit_succ, Nat.testBit_succ]
    have : 2 * (m / 2) / 2 = m / 2 := by omega
    rw [this]
    simp

theorem lor_one (m : Nat) : m ||| 1 = m - m % 2 + 1 := by
  apply Nat.eq_of_testBit_eq
  intro i
  rw [Nat.testBit_lor]
  have h2 : m - m % 2 + 1 = 2 * (m / 2) + 1 := by omega
  rw [h2]
  cases i with
  | zero =>
    have : (2 * (m / 2) + 1) % 2 = 1 := by omega
    simp [Nat.testBit_zero, this]
  | succ i =>
    rw [Nat.testBit_succ, Nat.testBit_succ, Nat.testBit_succ]
    have : (2 * (m / 2) + 1) / 2 = m / 2 := by omega
    rw [this]
    simp

/-- The C expression `pc & 1` on a two's complement integer. -/
theorem land_one_eq_mod (pc : Int) : Int.land pc 1 = pc % 2 := by
  cases pc with
  | ofNat m =>
    show ((Nat.land m 1 : Nat) : Int) = _
    have h : Nat.land m 1 = m % 2 := Nat.and_one_is_mod m
    rw [h]; rfl
  | negSucc m =>
    show ((Nat.ldiff 1 m : Nat) : Int) = _
    rw [ldiff_one]
    have : Int.negSucc m = -((m : Int) + 1) := by rfl
    rw [this]
    omega

/-- The C expression `pc & ~1` on a two's complement integer. -/
theorem land_not_one_eq (pc : Int) : Int.land pc (Int.lnot 1) = pc - pc % 2 := by
  show Int.land pc (Int.negSucc 1) = _
  cases pc with
  | ofNat m =>
    show ((Nat.ldiff m 1 : Nat) : Int) = _
    rw [ldiff_not_one]
    have : Int.ofNat m = (m : Int) := rfl
    rw [this]
    omega
  | negSucc m =>
    show Int.negSucc (m ||| 1) = _
    rw [lor_one]
    have h1 : Int.negSucc m = -((m : Int) + 1) := by rfl
    have h2 : Int.negSucc (m - m % 2 + 1) = -(((m - m % 2 + 1 : Nat) : Int) + 1) := by rfl
    rw [h1, h2]
    omega


/-- Claim C22 as stated fails when the run does not return: the session of the
64-bit variant made by `nativeInitialize` has its execution context, and
`emu_start` at `0x1000` with a core that fetches its first instruction, the
page of which is not mapped, ends in `abort()` and returns no code. -/
theorem emu_start_run_aborts :
    created64 (nativeInitialize true) ∧
    DynarmicCallbacks64.MemoryReadCode (nativeInitialize true).fields.memory 0x1000 = none ∧
    emu_start fetching_run (nativeInitialize true) 0x1000 = none := by
  decide

/-- Claim C22, amended: `emu_start(handle, pc)` sets the entry state before the
run. In the 32-bit variant the status register is `0x30` when bit 0 of `pc` is
1 and `0` when it is 0, and register 15 is `pc` with bit 0 cleared, modulo
`2^32`; in the 64-bit variant the program counter is `pc` (as a `u64`); the
core is run from that state, and when the run returns the call returns 0 with
the session the run left. Without the execution context of the variant the
call returns 1 and changes nothing. -/
theorem emu_start_entry_state (Run : t_dynarmic → Option t_dynarmic) (h : t_dynarmic)
    (pc : Int) :
    (∀ cpu : jit_state, h.fields.is64Bit = false → h.fields.jit32 = some cpu →
      emu_start Run h pc =
        (Run { h with
                regs := { h.regs with cpsr := if pc % 2 = 1 then 0x30 else 0 }
                fields := { h.fields with
                  jit32 := some { cpu with pc := ((pc - pc % 2) % 2 ^ 32).toNat } } }).map
          fun h1 => (0, h1)) ∧
    (∀ cpu : jit_state, h.fields.is64Bit = true → h.fields.jit64 = some cpu →
      emu_start Run h pc =
        (Run { h with
                fields := { h.fields with
                  jit64 := some { cpu with pc := (pc % 2 ^ 64).toNat } } }).map
          fun h1 => (0, h1)) ∧
    (h.fields.is64Bit = false → h.fields.jit32 = none → emu_start Run h pc = some (1, h)) ∧
    (h.fields.is64Bit = true → h.fields.jit64 = none → emu_start Run h pc = some (1, h)) := by
  refine ⟨?_, ?_, ?_, ?_⟩
  · intro cpu h32 hcpu
    have hbit : (Int.land pc 1 ≠ 0) = (pc % 2 = 1) := by
      rw [land_one_eq_mod]
      apply propext
      constructor <;> intro hh <;> omega
    simp only [emu_start, h32, hcpu, land_not_one_eq, hbit]
    rfl
  · intro cpu h64 hcpu
    simp only [emu_start, h64, hcpu, if_true, SetPC]
  · intro h32 hcpu
    simp only [emu_start, h32, hcpu]
    rfl
  · intro h64 hcpu
    simp only [emu_start, h64, hcpu, if_true]

/-- Witness for C22: a Thumb entry at `0x8001` in the 32-bit variant and an
entry at `0x1000` in the 64-bit variant, with a core that halts at once. -/
theorem emu_start_entry_state_witness :
    emu_start halting_run (nativeInitialize false) 0x8001 =
      some (0, { fields := { is64Bit := false, memory := [],
                             jit32 := some { pc := 0x8000 } },
                 cb32 := some {}, regs := { cpsr := 0x30 } }) ∧
    emu_start halting_run (nativeInitialize true) 0x1000 =
      some (0, { fields := { is64Bit := true, memory := [],
                             jit64 := some { pc := 0x1000 } },
                 cb64 := some {} }) :=
  ⟨(emu_start_entry_state halting_run (nativeInitialize false) 0x8001).1 {} rfl rfl,
   (emu_start_entry_state halting_run (nativeInitialize true) 0x1000).2.1 {} rfl rfl⟩

/-- Claim C23: for every session of the 32-bit variant `emu_stop`,
`reg_set_sp64` and `reg_set_tpidr_el0` return -1 and leave the whole session
(registers, halt request, callbacks objects, page store) as it was; for a
session of the 64-bit variant, which `nativeInitialize` makes with its core
and its callbacks object and which the three operations keep so, they
return 0. -/
theorem only_64bit_operations (h : t_dynarmic) (value : Int) :
    (h.fields.is64Bit = false →
      emu_stop h.fields = (-1, h.fields) ∧
      reg_set_sp64 h value = (-1, h) ∧
      reg_set_tpidr_el0 h value = (-1, h)) ∧
    (created64 h →
      ((emu_stop h.fields).1 = 0 ∧ created64 { h with fields := (emu_stop h.fields).2 }) ∧
      ((reg_set_sp64 h value).1 = 0 ∧ created64 (reg_set_sp64 h value).2) ∧
      ((reg_set_tpidr_el0 h value).1 = 0 ∧ created64 (reg_set_tpidr_el0 h value).2)) ∧
    created64 (nativeInitialize true) ∧
    (nativeInitialize false).fields.is64Bit = false := by
  refine ⟨?_, ?_, by decide, rfl⟩
  · intro h32
    simp [emu_stop, reg_set_sp64, reg_set_tpidr_el0, h32]
  · rintro ⟨h64, hjit, hcb⟩
    cases hj : h.fields.jit64 with
    | none => rw [hj] at hjit; simp at hjit
    | some cpu =>
      cases hc : h.cb64 with
      | none => rw [hc] at hcb; simp at hcb
      | some cb =>
        simp [emu_stop, reg_set_sp64, reg_set_tpidr_el0, created64, h64, hj, hc]

/-- Witness for C23: the three operations on the two sessions that
`nativeInitialize` makes. -/
theorem only_64bit_operations_witness :
    (emu_stop (nativeInitialize false).fields = (-1, (nativeInitialize false).fields) ∧
      reg_set_sp64 (nativeInitialize false) 0x7000 = (-1, nativeInitialize false) ∧
      reg_set_tpidr_el0 (nativeInitialize false) 0x7000 = (-1, nativeInitialize false)) ∧
    (((emu_stop (nativeInitialize true).fields).1 = 0 ∧
        created64 { nativeInitialize true with
          fields := (emu_stop (nativeInitialize true).fields).2 }) ∧
      ((reg_set_sp64 (nativeInitialize true) 0x7000).1 = 0 ∧
        created64 (reg_set_sp64 (nativeInitialize true) 0x7000).2) ∧
      ((reg_set_tpidr_el0 (nativeInitialize true) 0x7000).1 = 0 ∧
        created64 (reg_set_tpidr_el0 (nativeInitialize true) 0x7000).2)) :=
  ⟨(only_64bit_operations (nativeInitialize false) 0x7000).1 rfl,
   (only_64bit_operations (nativeInitialize true) 0x7000).2.1 (by decide)⟩


/-! ## Bulk accesses of length zero and sizes that are negative -/

/-- Claim C26: bulk accesses of length zero at an address inside an unmapped
page. At a multiple of 4096 the page loop is not entered: `mem_write` of the
empty array returns 0 and `mem_read` of size 0 returns the empty array. At any
other address the loop runs once and looks up the page of the address:
`mem_write` returns 1 and `mem_read` fails. The page store is as before in
every case. -/
theorem zero_length_bulk_access (memory : khash_memory) (address : Int)
    (hlo : -(2 ^ 63) ≤ address) (hhi : address < 2 ^ 63)
    (hpage : kh_get memory (and_not_PAGE_MASK address) = none) :
    (address % 4096 = 0 →
      mem_write memory address [] = some (0, memory) ∧
      mem_read memory address 0 = some (some [])) ∧
    (address % 4096 ≠ 0 →
      mem_write memory address [] = some (1, memory) ∧
      mem_read memory address 0 = some none) := by
  have hw : wrap64 (address + 0) = address := by
    rw [Int.add_zero]; exact wrap64_of_range hlo hhi
  have hfuel : LOOP_FUEL = 2 ^ 52 + 1 := rfl
  rw [and_not_PAGE_MASK_eq] at hpage
  constructor
  · intro hal
    have hge : ¬ address - address % 4096 < address := by omega
    constructor
    · simp only [mem_write, List.length_nil, Nat.cast_zero, hw, and_not_PAGE_MASK_eq, hfuel]
      rw [mem_write_loop]
      simp [hge]
    · simp only [mem_read, hw, and_not_PAGE_MASK_eq, hfuel]
      rw [mem_read_loop]
      simp [hge]
  · intro hal
    have hlt : address - address % 4096 < address := by omega
    constructor
    · simp only [mem_write, List.length_nil, Nat.cast_zero, hw, and_not_PAGE_MASK_eq, hfuel]
      rw [mem_write_loop]
      simp [hlt, hpage]
    · simp only [mem_read, hw, and_not_PAGE_MASK_eq, hfuel]
      rw [mem_read_loop]
      simp [hlt, hpage]

/-- Witness for C26: the empty store, at the page start `0x1000` and at
`0x1001`. -/
theorem zero_length_bulk_access_witness :
    (mem_write [] 0x1000 [] = some (0, []) ∧ mem_read [] 0x1000 0 = some (some [])) ∧
    (mem_write [] 0x1001 [] = some (1, []) ∧ mem_read [] 0x1001 0 = some none) :=
  ⟨(zero_length_bulk_access [] 0x1000 (by decide) (by decide) rfl).1 (by decide),
   (zero_length_bulk_access [] 0x1001 (by decide) (by decide) rfl).2 (by decide)⟩

/-- Claim C27: sizes are compared as signed integers. For every page-aligned
address and every page-aligned size that is negative as a signed 64-bit
integer (`address + size` not below the signed range), `mem_map`, `mem_unmap`
and `mem_protect` pass validation, do not enter their page loop and return 0,
and the page store is exactly as before: no page of the range is mapped by a
`mem_map` that returned 0. -/
theorem negative_size_is_empty_range (mmap_ok : Int → Bool) (memory : khash_memory)
    (address size perms : Int)
    (ha : address % 4096 = 0) (hs : size % 4096 = 0) (hneg : size < 0)
    (hhi : address < 2 ^ 63) (hlo : -(2 ^ 63) ≤ address + size) :
    mem_map mmap_ok memory address size perms = some (0, memory) ∧
    mem_unmap memory address size = some (0, memory) ∧
    mem_protect memory address size perms = some (0, memory) ∧
    (and_PAGE_MASK address = 0 ∧ size ≠ 0 ∧ and_PAGE_MASK size = 0) ∧
    ∀ k : Int, kh_get memory k = none →
      ∀ memory' : khash_memory, mem_map mmap_ok memory address size perms = some (0, memory') →
        kh_get memory' k = none := by
  have hw : wrap64 (address + size) = address + size := wrap64_of_range hlo (by omega)
  have hge : ¬ address < address + size := by omega
  have hne : size ≠ 0 := by omega
  have hval : ¬ (size = 0 ∨ and_PAGE_MASK size ≠ 0) := by
    rw [and_PAGE_MASK_eq]; omega
  have hmap : mem_map mmap_ok memory address size perms = some (0, memory) := by
    unfold mem_map
    rw [if_neg (by rw [and_PAGE_MASK_eq]; omega), if_neg hval, hw]
    exact mem_map_loop_exit mmap_ok perms _ LOOP_FUEL memory address (by decide) hge
  refine ⟨hmap, ?_, ?_, ⟨ha, hne, hs⟩, ?_⟩
  · unfold mem_unmap
    rw [if_neg (by rw [and_PAGE_MASK_eq]; omega), if_neg hval, hw]
    exact mem_unmap_loop_exit _ LOOP_FUEL memory address (by decide) hge
  · unfold mem_protect
    rw [if_neg (by rw [and_PAGE_MASK_eq]; omega), if_neg hval, hw]
    exact mem_protect_loop_exit perms _ LOOP_FUEL memory address (by decide) hge
  · intro k hk memory' h
    rw [hmap] at h
    cases h
    exact hk

/-- Witness for C27: address `0x1000` and size `-4096` (the unsigned size
`2^64 - 4096`) on the empty store. -/
theorem negative_size_is_empty_range_witness :
    mem_map (fun _ => true) [] 0x1000 (-4096) 3 = some (0, []) ∧
    mem_unmap [] 0x1000 (-4096) = some (0, []) ∧
    mem_protect [] 0x1000 (-4096) 3 = some (0, []) ∧
    (and_PAGE_MASK 0x1000 = 0 ∧ (-4096 : Int) ≠ 0 ∧ and_PAGE_MASK (-4096) = 0) ∧
    ∀ k : Int, kh_get [] k = none →
      ∀ memory' : khash_memory, mem_map (fun _ => true) [] 0x1000 (-4096) 3 = some (0, memory') →
        kh_get memory' k = none :=
  negative_size_is_empty_range (fun _ => true) [] 0x1000 (-4096) 3 (by decide) (by decide)
    (by decide) (by decide) (by decide)


/-! ## Guest bytes after the write callbacks -/

theorem to_long_inj {u v : Nat} (hu : u < 2 ^ 64) (hv : v < 2 ^ 64)
    (h : to_long u = to_long v) : u = v := by
  unfold to_long wrap64 at h
  omega

theorem to_long_toNat (x : Int) (h1 : -(2 ^ 63) ≤ x) (h2 : x < 2 ^ 63) :
    (x % 2 ^ 64).toNat < 2 ^ 64 ∧ to_long (x % 2 ^ 64).toNat = x := by
  unfold to_long wrap64
  omega

theorem to_long_add_mod64 (a i : Nat) (h : to_long a + i < 2 ^ 63) :
    to_long ((a + i) % 2 ^ 64) = to_long a + i := by
  unfold to_long wrap64 at h ⊢
  omega

theorem to_long_add_mod32 (a i : Nat) (h : a + i < 2 ^ 32) :
    to_long ((a + i) % 2 ^ 32) = to_long a + i := by
  unfold to_long wrap64
  omega

theorem to_long_lt32 (a : Nat) (h : a < 2 ^ 32) : to_long a = a := by
  unfold to_long wrap64
  omega

theorem load_at_eq_guest_byte (memory : khash_memory) (hok : pages_ok memory) (a : Nat) :
    load_at memory a 1 = (guest_byte memory (to_long a)).map (fun b => b.val) := by
  rw [← MemoryRead8_eq, MemoryRead8_eq_guest_byte memory hok]

theorem guest_byte_of_load_at {memory : khash_memory} (hok : pages_ok memory) {a n : Nat}
    (h : load_at memory a 1 = some n) :
    ∃ b : Byte, guest_byte memory (to_long a) = some b ∧ b.val = n := by
  rw [load_at_eq_guest_byte memory hok] at h
  cases hg : guest_byte memory (to_long a) with
  | none => rw [hg] at h; simp at h
  | some b =>
    rw [hg] at h
    simp only [Option.map_some', Option.some.injEq] at h
    exact ⟨b, rfl, h⟩

theorem guest_byte_congr {m1 m2 : khash_memory} (h1 : pages_ok m1) (h2 : pages_ok m2) {a : Nat}
    (h : load_at m1 a 1 = load_at m2 a 1) :
    guest_byte m1 (to_long a) = guest_byte m2 (to_long a) := by
  rw [load_at_eq_guest_byte m1 h1, load_at_eq_guest_byte m2 h2] at h
  cases hg1 : guest_byte m1 (to_long a) with
  | none =>
    rw [hg1] at h
    cases hg2 : guest_byte m2 (to_long a) with
    | none => rfl
    | some b => rw [hg2] at h; simp at h
  | some b1 =>
    rw [hg1] at h
    cases hg2 : guest_byte m2 (to_long a) with
    | none => rw [hg2] at h; simp at h
    | some b2 =>
      rw [hg2] at h
      simp only [Option.map_some', Option.some.injEq] at h
      rw [Fin.ext h]

theorem getElem?_le_bytes (w : Nat) :
    ∀ (value i : Nat), i < w →
      ((le_bytes w value)[i]?).map (fun b => b.val) = some (value / 256 ^ i % 256) := by
  induction w with
  | zero => intro value i hi; omega
  | succ w ih =>
    intro value i hi
    cases i with
    | zero => simp [le_bytes]
    | succ j =>
      simp only [le_bytes, List.getElem?_cons_succ]
      rw [ih (value / 256) j (by omega), Nat.div_div_eq_div_mul, pow_succ, Nat.mul_comm]

theorem write_le_load_at (M : Nat) (hM : M = 2 ^ 32 ∨ M = 2 ^ 64) (w : Nat) :
    ∀ (memory memory' : khash_memory) (a value : Nat), pages_ok memory → a < M → w ≤ M →
      write_le M w memory a value = some memory' →
      ∀ i : Nat, i < w → load_at memory' ((a + i) % M) 1 = some (value / 256 ^ i % 256) := by
  induction w with
  | zero => intro _ _ _ _ _ _ _ _ i hi; omega
  | succ w ih =>
    intro memory memory' a value hok ha hw h i hi
    have hM64 : M ≤ 2 ^ 64 := by rcases hM with rfl | rfl <;> norm_num
    have hpos : 0 < M := by omega
    simp only [write_le, MemoryWrite8_eq] at h
    cases h1 : store_at memory a 1 (value % 256) with
    | none => rw [h1] at h; simp at h
    | some memory1 =>
      rw [h1] at h
      simp only [Option.some_bind] at h
      have hok1 := pages_ok_store_at hok (by omega) h1
      cases i with
      | zero =>
        obtain ⟨_, _, hfr⟩ := write_le_frame M hM w memory1 memory' ((a + 1) % M) (value / 256)
          hok1 (Nat.mod_lt _ hpos) h
        have hne : ∀ i : Nat, i < w → a ≠ ((a + 1) % M + i) % M := by
          intro i hi
          rw [Nat.mod_add_mod]
          rcases hM with rfl | rfl <;> omega
        rw [Nat.add_zero, Nat.mod_eq_of_lt ha, hfr a (by omega) hne,
          load_at_store_at a hok (by omega) (by omega) h1, if_pos rfl, Nat.mod_mod, pow_zero,
          Nat.div_one]
      | succ j =>
        have := ih memory1 memory' ((a + 1) % M) (value / 256) hok1 (Nat.mod_lt _ hpos)
          (by omega) h j (by omega)
        rw [Nat.mod_add_mod, Nat.div_div_eq_div_mul] at this
        rw [show a + (j + 1) = a + 1 + j by omega, this, pow_succ, Nat.mul_comm]


/-- The guest bytes after a write of `w` bytes one `MemoryWrite8` at a time:
the `i`-th address holds the `i`-th low byte of the value, every other guest
byte is as before, and so are the permission words and the set of pages. -/
theorem write_le_guest (M : Nat) (hM : M = 2 ^ 32 ∨ M = 2 ^ 64) (w : Nat)
    (memory memory' : khash_memory) (a value : Nat) (hok : pages_ok memory) (ha : a < M)
    (hw : w ≤ M) (h : write_le M w memory a value = some memory') :
    pages_ok memory' ∧
    (∀ k : Int, (kh_get memory' k).map (fun page => page.perms) =
      (kh_get memory k).map (fun page => page.perms)) ∧
    (∀ k : Int, kh_get memory' k ≠ none ↔ kh_get memory k ≠ none) ∧
    (∀ i : Nat, i < w →
      guest_byte memory' (to_long ((a + i) % M)) = (le_bytes w value)[i]?) ∧
    (∀ x : Int, -(2 ^ 63) ≤ x → x < 2 ^ 63 → (∀ i : Nat, i < w → x ≠ to_long ((a + i) % M)) →
      guest_byte memory' x = guest_byte memory x) := by
  have hM64 : M ≤ 2 ^ 64 := by rcases hM with rfl | rfl <;> norm_num
  have hpos : 0 < M := by omega
  obtain ⟨hok', hperm, hfr⟩ := write_le_frame M hM w memory memory' a value hok ha h
  refine ⟨hok', hperm, ?_, ?_, ?_⟩
  · intro k
    have := hperm k
    cases h1 : kh_get memory' k <;> cases h2 : kh_get memory k <;> simp [h1, h2] at this ⊢
  · intro i hi
    obtain ⟨b, hb, hbv⟩ := guest_byte_of_load_at hok'
      (write_le_load_at M hM w memory memory' a value hok ha hw h i hi)
    have hle := getElem?_le_bytes w value i hi
    cases hl : (le_bytes w value)[i]? with
    | none => rw [hl] at hle; simp at hle
    | some b' =>
      rw [hl] at hle
      simp only [Option.map_some', Option.some.injEq] at hle
      rw [hb, Fin.ext (hbv.trans hle.symm)]
  · intro x hx1 hx2 hne
    obtain ⟨hn, hxn⟩ := to_long_toNat x hx1 hx2
    rw [← hxn]
    apply guest_byte_congr hok' hok
    apply hfr _ hn
    intro i hi hc
    exact hne i hi (by rw [← hxn, hc])

/-- A read of `w` bytes one `MemoryRead8` at a time, when the guest bytes at
the `w` addresses are those of `bytes`. -/
theorem read_le_of_guest_bytes (M : Nat) (memory : khash_memory) (hok : pages_ok memory) :
    ∀ (bytes : List Byte) (a : Nat), a < M →
      (∀ i : Nat, i < bytes.length →
        guest_byte memory (to_long ((a + i) % M)) = bytes[i]?) →
      read_le M memory bytes.length a = some (le_value bytes) := by
  intro bytes
  induction bytes with
  | nil => intro a _ _; rfl
  | cons b bs ih =>
    intro a ha hb
    have hpos : 0 < M := by omega
    have h0 := hb 0 (by simp)
    rw [Nat.add_zero, Nat.mod_eq_of_lt ha] at h0
    have hrest := ih ((a + 1) % M) (Nat.mod_lt _ hpos) (fun i hi => by
      have := hb (i + 1) (by simp; omega)
      rw [Nat.mod_add_mod, Nat.add_assoc, Nat.add_comm 1 i]
      simpa using this)
    simp only [List.length_cons, read_le, MemoryRead8_eq_guest_byte memory hok, h0]
    simp only [List.getElem?_cons_zero, Option.map_some', Option.some_bind, hrest, le_value]

/-- A read of `w` bytes one `MemoryRead8` at a time depends on the guest bytes
at its `w` addresses only. -/
theorem read_le_congr (M : Nat) {m1 m2 : khash_memory} (h1 : pages_ok m1) (h2 : pages_ok m2)
    (w : Nat) :
    ∀ a : Nat, a < M →
      (∀ i : Nat, i < w →
        guest_byte m1 (to_long ((a + i) % M)) = guest_byte m2 (to_long ((a + i) % M))) →
      read_le M m1 w a = read_le M m2 w a := by
  induction w with
  | zero => intro a _ _; rfl
  | succ w ih =>
    intro a ha hb
    have hpos : 0 < M := by omega
    have h0 := hb 0 (by omega)
    rw [Nat.add_zero, Nat.mod_eq_of_lt ha] at h0
    have hrest := ih ((a + 1) % M) (Nat.mod_lt _ hpos) (fun i hi => by
      have := hb (i + 1) (by omega)
      rw [Nat.mod_add_mod, Nat.add_assoc, Nat.add_comm 1 i]
      exact this)
    simp only [read_le, MemoryRead8_eq_guest_byte m1 h1, MemoryRead8_eq_guest_byte m2 h2, h0,
      hrest]


/-! ## The top of the address space of the 32-bit variant -/

theorem guest_byte_isSome {memory : khash_memory} (hok : pages_ok memory) (x : Int)
    (h : kh_get memory (x - x % 4096) ≠ none) : ∃ b : Byte, guest_byte memory x = some b := by
  rw [guest_byte_eq]
  cases hk : kh_get memory (x - x % 4096) with
  | none => exact absurd hk h
  | some page =>
    have hlen := pages_ok_get hok hk
    have hlt : (x % 4096).toNat < page.addr.length := by rw [hlen]; omega
    exact ⟨page.addr[(x % 4096).toNat], by simp [List.getElem?_eq_getElem hlt]⟩

theorem split_reads_generic (M : Nat) :
    split_reads M UserCallbacks.MemoryRead8 (UserCallbacks.MemoryRead16 M)
      (UserCallbacks.MemoryRead32 M) (UserCallbacks.MemoryRead64 M) := by
  intro memory a
  refine ⟨?_, ?_, ?_⟩
  · intro ha
    rw [UserCallbacks.MemoryRead16, land_one, if_pos ha]
  · intro ha
    rw [UserCallbacks.MemoryRead32, land_three, if_pos ha]
  · intro ha
    rw [UserCallbacks.MemoryRead64, land_seven, if_pos ha]

theorem stays_below_of_eq (w : Nat) (hw : w ≤ 2 ^ 32)
    (readW : khash_memory → Nat → Option Nat)
    (writeW : khash_memory → Nat → Nat → Option khash_memory)
    (hr : ∀ memory a, a < 2 ^ 32 → readW memory a = read_le (2 ^ 32) memory w a)
    (hwr : ∀ memory a value, a < 2 ^ 32 →
      writeW memory a value = write_le (2 ^ 32) w memory a value) :
    stays_below (2 ^ 32) readW writeW := by
  constructor
  · intro m1 m2 a h1 h2 ha hsame
    rw [hr m1 a ha, hr m2 a ha]
    apply read_le_congr (2 ^ 32) h1 h2 w a ha
    intro i _
    have hlt : (a + i) % 2 ^ 32 < 2 ^ 32 := Nat.mod_lt _ (by norm_num)
    rw [to_long_lt32 _ hlt]
    exact hsame _ hlt
  · intro memory memory' a v hok ha hwrite x hx1 hx2 hout
    rw [hwr memory a v ha] at hwrite
    obtain ⟨_, _, _, _, hfr⟩ := write_le_guest (2 ^ 32) (Or.inl rfl) w memory memory' a v hok ha
      hw hwrite
    apply hfr x hx1 hx2
    intro i _ hc
    have hlt : (a + i) % 2 ^ 32 < 2 ^ 32 := Nat.mod_lt _ (by norm_num)
    rw [to_long_lt32 _ hlt] at hc
    omega


theorem to_long_top32 : to_long ((0xFFFFFFFF + 0) % 2 ^ 32) = 0xFFFFFFFF := by
  unfold to_long wrap64; norm_num

theorem to_long_wrap32 : to_long ((0xFFFFFFFF + 1) % 2 ^ 32) = 0 := by
  unfold to_long wrap64; norm_num

/-- Claim C28: split accesses of the 32-bit variant wrap at the top of its
address space. The second half of a split access at `a` of half-width `h` is
served at `(a + h) mod 2^32`; with the pages at `0xFFFFF000` and `0x0` mapped,
`MemoryRead16(0xFFFFFFFF)` returns `byte(0xFFFFFFFF) + 256 * byte(0x0)` and
`MemoryWrite16(0xFFFFFFFF, v)` stores the low byte of `v` at `0xFFFFFFFF` and
the high byte at address 0; and no access of the variant touches a guest byte
at an address outside `[0, 2^32)`. -/
theorem split_access_wraps_at_top :
    split_reads (2 ^ 32) DynarmicCallbacks32.MemoryRead8 DynarmicCallbacks32.MemoryRead16
      DynarmicCallbacks32.MemoryRead32 DynarmicCallbacks32.MemoryRead64 ∧
    split_writes (2 ^ 32) DynarmicCallbacks32.MemoryWrite8 DynarmicCallbacks32.MemoryWrite16
      DynarmicCallbacks32.MemoryWrite32 DynarmicCallbacks32.MemoryWrite64 ∧
    (∀ memory : khash_memory, pages_ok memory →
      kh_get memory 0xFFFFF000 ≠ none → kh_get memory 0 ≠ none →
      (∃ b0 b1 : Byte,
        guest_byte memory 0xFFFFFFFF = some b0 ∧ guest_byte memory 0 = some b1 ∧
        DynarmicCallbacks32.MemoryRead16 memory 0xFFFFFFFF = some (b0.val + 256 * b1.val)) ∧
      (∀ v : Nat, v < 2 ^ 16 →
        ∃ (memory' : khash_memory) (lo hi : Byte),
          DynarmicCallbacks32.MemoryWrite16 memory 0xFFFFFFFF v = some memory' ∧
          guest_byte memory' 0xFFFFFFFF = some lo ∧ lo.val = v % 256 ∧
          guest_byte memory' 0 = some hi ∧ hi.val = v / 256)) ∧
    (stays_below (2 ^ 32) DynarmicCallbacks32.MemoryRead8 DynarmicCallbacks32.MemoryWrite8 ∧
      stays_below (2 ^ 32) DynarmicCallbacks32.MemoryRead16 DynarmicCallbacks32.MemoryWrite16 ∧
      stays_below (2 ^ 32) DynarmicCallbacks32.MemoryRead32 DynarmicCallbacks32.MemoryWrite32 ∧
      stays_below (2 ^ 32) DynarmicCallbacks32.MemoryRead64
        DynarmicCallbacks32.MemoryWrite64) := by
  refine ⟨split_reads_generic _, split_writes_generic _, ?_, ?_⟩
  · intro memory hok htop hzero
    have hk1 : kh_get memory ((0xFFFFFFFF : Int) - 0xFFFFFFFF % 4096) ≠ none := by
      norm_num; exact htop
    have hk0 : kh_get memory ((0 : Int) - 0 % 4096) ≠ none := by
      norm_num; exact hzero
    constructor
    · obtain ⟨b0, hb0⟩ := guest_byte_isSome hok 0xFFFFFFFF hk1
      obtain ⟨b1, hb1⟩ := guest_byte_isSome hok 0 hk0
      refine ⟨b0, b1, hb0, hb1, ?_⟩
      have hrd := read_le_of_guest_bytes (2 ^ 32) memory hok [b0, b1] 0xFFFFFFFF (by norm_num)
        (fun i hi => by
          have hi2 : i < 2 := by simpa using hi
          interval_cases i
          · rw [to_long_top32, hb0]; rfl
          · rw [to_long_wrap32, hb1]; rfl)
      have heq := MemoryRead16_eq (2 ^ 32) (Or.inl rfl) memory 0xFFFFFFFF (by norm_num)
      show UserCallbacks.MemoryRead16 (2 ^ 32) memory 0xFFFFFFFF = _
      rw [heq]
      simpa [le_value] using hrd
    · intro v hv
      have hmapped : ∀ i : Nat, i < 2 →
          kh_get memory (page_key ((0xFFFFFFFF + i) % 2 ^ 32)) ≠ none := by
        intro i hi
        interval_cases i
        · have : page_key ((0xFFFFFFFF + 0) % 2 ^ 32) = 0xFFFFF000 := by
            unfold page_key; rw [to_long_top32, and_not_PAGE_MASK_eq]; norm_num
          rw [this]; exact htop
        · have : page_key ((0xFFFFFFFF + 1) % 2 ^ 32) = 0 := by
            unfold page_key; rw [to_long_wrap32, and_not_PAGE_MASK_eq]; norm_num
          rw [this]; exact hzero
      have hsome := (write_le_isSome_iff (2 ^ 32) 2 memory 0xFFFFFFFF v (by norm_num)).mpr
        hmapped
      obtain ⟨memory', hm⟩ := Option.isSome_iff_exists.mp hsome
      obtain ⟨_, _, _, hbytes, _⟩ := write_le_guest (2 ^ 32) (Or.inl rfl) 2 memory memory'
        0xFFFFFFFF v hok (by norm_num) (by norm_num) hm
      have h0 := hbytes 0 (by norm_num)
      have h1 := hbytes 1 (by norm_num)
      rw [to_long_top32] at h0
      rw [to_long_wrap32] at h1
      refine ⟨memory', ⟨v % 256, Nat.mod_lt _ (by norm_num)⟩,
        ⟨v / 256 % 256, Nat.mod_lt _ (by norm_num)⟩, ?_, ?_, rfl, ?_, ?_⟩
      · exact (MemoryWrite16_eq (2 ^ 32) (Or.inl rfl) memory 0xFFFFFFFF v (by norm_num)).trans hm
      · rw [h0]; rfl
      · rw [h1]; rfl
      · show v / 256 % 256 = v / 256
        omega
  · exact ⟨stays_below_of_eq 1 (by norm_num) _ _
        (fun m a _ => (read_le_one _ m a).symm) (fun m a v _ => (write_le_one _ m a v).symm),
      stays_below_of_eq 2 (by norm_num) _ _
        (fun m a ha => MemoryRead16_eq _ (Or.inl rfl) m a ha)
        (fun m a v ha => MemoryWrite16_eq _ (Or.inl rfl) m a v ha),
      stays_below_of_eq 4 (by norm_num) _ _
        (fun m a ha => MemoryRead32_eq _ (Or.inl rfl) m a ha)
        (fun m a v ha => MemoryWrite32_eq _ (Or.inl rfl) m a v ha),
      stays_below_of_eq 8 (by norm_num) _ _
        (fun m a ha => MemoryRead64_eq _ (Or.inl rfl) m a ha)
        (fun m a v ha => MemoryWrite64_eq _ (Or.inl rfl) m a v ha)⟩


/-- Witness for C28: the pages at `0xFFFFF000` and `0x0`, zero filled. -/
theorem split_access_wraps_at_top_witness :
    (∃ b0 b1 : Byte,
      guest_byte [(0xFFFFF000, ⟨fresh_page_buffer, 3⟩), (0, ⟨fresh_page_buffer, 3⟩)] 0xFFFFFFFF
        = some b0 ∧
      guest_byte [(0xFFFFF000, ⟨fresh_page_buffer, 3⟩), (0, ⟨fresh_page_buffer, 3⟩)] 0
        = some b1 ∧
      DynarmicCallbacks32.MemoryRead16
        [(0xFFFFF000, ⟨fresh_page_buffer, 3⟩), (0, ⟨fresh_page_buffer, 3⟩)] 0xFFFFFFFF =
        some (b0.val + 256 * b1.val)) ∧
    (∀ v : Nat, v < 2 ^ 16 →
      ∃ (memory' : khash_memory) (lo hi : Byte),
        DynarmicCallbacks32.MemoryWrite16
          [(0xFFFFF000, ⟨fresh_page_buffer, 3⟩), (0, ⟨fresh_page_buffer, 3⟩)] 0xFFFFFFFF v =
          some memory' ∧
        guest_byte memory' 0xFFFFFFFF = some lo ∧ lo.val = v % 256 ∧
        guest_byte memory' 0 = some hi ∧ hi.val = v / 256) :=
  split_access_wraps_at_top.2.2.1
    [(0xFFFFF000, ⟨fresh_page_buffer, 3⟩), (0, ⟨fresh_page_buffer, 3⟩)]
    (pages_ok_cons length_fresh_page_buffer (pages_ok_cons length_fresh_page_buffer pages_ok_nil))
    (by simp [kh_get]) (by simp [kh_get])


/-! ## The control plane and the execution bridge on the same bytes -/

/-- The page base `k` of a range of `w` bytes from `t` is the page of the byte
with index `k - t`, or of the first byte. -/
theorem covered_page_index (t k : Int) (w : Nat) (hw1 : 1 ≤ w)
    (hk1 : t - t % 4096 ≤ k) (hk2 : k < t + w) (hk3 : k % 4096 = 0) :
    (k - t).toNat < w ∧
    t + ((k - t).toNat : Int) - (t + ((k - t).toNat : Int)) % 4096 = k := by
  constructor <;> omega

theorem sees_same_bytes_of_eq (M : Nat) (hM : M = 2 ^ 32 ∨ M = 2 ^ 64) (w : Nat) (hw1 : 1 ≤ w)
    (hw8 : w ≤ 8)
    (readW : khash_memory → Nat → Option Nat)
    (writeW : khash_memory → Nat → Nat → Option khash_memory)
    (hr : ∀ memory a, a < M → readW memory a = read_le M memory w a)
    (hwr : ∀ memory a value, a < M → writeW memory a value = write_le M w memory a value) :
    sees_same_bytes M w readW writeW := by
  intro memory a v hok ha hv hwrap hhi hmapped
  have hwM : w ≤ M := by rcases hM with rfl | rfl <;> omega
  have hlo : -(2 ^ 63) ≤ to_long a := by unfold to_long wrap64; omega
  have haddr : ∀ i : Nat, i < w → to_long ((a + i) % M) = to_long a + i := by
    intro i hi
    rcases hM with rfl | rfl
    · exact to_long_add_mod32 a i (by have := hwrap rfl; omega)
    · exact to_long_add_mod64 a i (by omega)
  have hall : ∀ k : Int, to_long a - to_long a % 4096 ≤ k → k < to_long a + w →
      k % 4096 = 0 → kh_get memory k ≠ none := by
    intro k hk1 hk2 hk3
    obtain ⟨hi, hkey⟩ := covered_page_index (to_long a) k w hw1 hk1 hk2 hk3
    have hpage : page_key ((a + (k - to_long a).toNat) % M) = k := by
      unfold page_key
      rw [haddr _ hi, and_not_PAGE_MASK_eq]
      exact hkey
    rw [← hpage]
    exact hmapped _ hi
  constructor
  · have hsome := (write_le_isSome_iff M w memory a v ha).mpr hmapped
    obtain ⟨memory', hm⟩ := Option.isSome_iff_exists.mp hsome
    obtain ⟨hok', hperm, hmap, hbytes, hfr⟩ :=
      write_le_guest M hM w memory memory' a v hok ha hwM hm
    obtain ⟨out, hread, hlen, hout⟩ := mem_read_spec memory' (to_long a) w hok' hlo
      (by omega) hhi (fun k hk1 hk2 hk3 => (hmap k).mpr (hall k hk1 hk2 hk3))
    have hout_eq : out = le_bytes w v := by
      apply List.ext_getElem?
      intro i
      by_cases hi : i < w
      · rw [hout i hi, ← haddr i hi, hbytes i hi]
      · rw [List.getElem?_eq_none (by omega),
          List.getElem?_eq_none (by rw [length_le_bytes]; omega)]
    refine ⟨memory', (hwr memory a v ha).trans hm, ?_, ?_, ?_, hperm, hmap⟩
    · rw [hread, hout_eq]
    · rw [hr memory' a ha, read_write_le M hM w memory memory' a v hok ha hwM hm,
        Nat.mod_eq_of_lt hv]
    · intro x hx1 hx2 hout
      apply hfr x hx1 hx2
      intro i hi hc
      rw [haddr i hi] at hc
      omega
  · intro bytes hlen
    subst hlen
    obtain ⟨code, memory', hrun, hok', _, _, hc0, hwb, _⟩ :=
      mem_write_spec memory (to_long a) bytes hok hlo hhi
    have hcode : code = 0 := hc0 hall
    subst hcode
    refine ⟨memory', hrun, ?_⟩
    rw [hr memory' a ha]
    apply read_le_of_guest_bytes M memory' hok' bytes a ha
    intro i hi
    rw [haddr i hi, hwb (to_long a + i) (by omega) (by omega)
      (fun k hk1 hk2 hk3 => hall k hk1 (by omega) hk3)]
    have hidx : (to_long a + (i : Int) - to_long a).toNat = i := by omega
    rw [hidx]

theorem pages_ok_pages_at_top32 : pages_ok pages_at_top32 :=
  pages_ok_cons length_fresh_page_buffer
    (pages_ok_cons length_fresh_page_buffer
      (pages_ok_cons length_fresh_page_buffer pages_ok_nil))

/-- Claim C25 as stated fails in the 32-bit variant at the top of its address
space. With the pages at `0xFFFFF000`, `0x0` and `0x100000000` mapped, the
pages covering `[0xFFFFFFFF, 0xFFFFFFFF + 2)` are mapped;
`MemoryWrite16(0xFFFFFFFF, 0xbeef)` of the 32-bit variant returns, and it has
stored the high byte `0xbe` at address 0, a guest byte outside the range,
while `mem_read(0xFFFFFFFF, 2)` reads its second byte at `0x100000000` and does
not return the two bytes of `0xbeef`. -/
theorem MemoryWrite16_wraps_mem_read_does_not :
    (∀ i : Int, 0 ≤ i → i < 2 →
      kh_get pages_at_top32 (and_not_PAGE_MASK (0xFFFFFFFF + i)) ≠ none) ∧
    ∃ memory' : khash_memory,
      DynarmicCallbacks32.MemoryWrite16 pages_at_top32 0xFFFFFFFF 0xbeef = some memory' ∧
      guest_byte pages_at_top32 0 = some 0 ∧
      guest_byte memory' 0 = some 0xbe ∧
      mem_read memory' 0xFFFFFFFF (2 : Nat) ≠ some (some (le_bytes 2 0xbeef)) := by
  have hok := pages_ok_pages_at_top32
  have hk1 : kh_get pages_at_top32 0xFFFFF000 ≠ none := by simp [kh_get, pages_at_top32]
  have hk2 : kh_get pages_at_top32 0 ≠ none := by simp [kh_get, pages_at_top32]
  have hk3 : kh_get pages_at_top32 0x100000000 ≠ none := by simp [kh_get, pages_at_top32]
  constructor
  · intro i h0 h2
    rw [and_not_PAGE_MASK_eq]
    have hi : i = 0 ∨ i = 1 := by omega
    rcases hi with rfl | rfl
    · norm_num; exact hk1
    · norm_num; exact hk3
  · have hmapped : ∀ i : Nat, i < 2 →
        kh_get pages_at_top32 (page_key ((0xFFFFFFFF + i) % 2 ^ 32)) ≠ none := by
      intro i hi
      interval_cases i
      · have : page_key ((0xFFFFFFFF + 0) % 2 ^ 32) = 0xFFFFF000 := by
          unfold page_key; rw [to_long_top32, and_not_PAGE_MASK_eq]; norm_num
        rw [this]; exact hk1
      · have : page_key ((0xFFFFFFFF + 1) % 2 ^ 32) = 0 := by
          unfold page_key; rw [to_long_wrap32, and_not_PAGE_MASK_eq]; norm_num
        rw [this]; exact hk2
    have hsome := (write_le_isSome_iff (2 ^ 32) 2 pages_at_top32 0xFFFFFFFF 0xbeef
      (by norm_num)).mpr hmapped
    obtain ⟨memory', hm⟩ := Option.isSome_iff_exists.mp hsome
    obtain ⟨hok', _, hmap, hbytes, hfr⟩ := write_le_guest (2 ^ 32) (Or.inl rfl) 2
      pages_at_top32 memory' 0xFFFFFFFF 0xbeef hok (by norm_num) (by norm_num) hm
    have h1 := hbytes 1 (by norm_num)
    rw [to_long_wrap32] at h1
    have hzero : ∀ x : Int, kh_get pages_at_top32 (x - x % 4096) ≠ none → 0 ≤ x →
        guest_byte pages_at_top32 x = some 0 := by
      intro x hx hx0
      rw [guest_byte_eq]
      cases hk : kh_get pages_at_top32 (x - x % 4096) with
      | none => exact absurd hk hx
      | some page =>
        have hpage : page.addr = List.replicate 4096 0 := by
          simp only [kh_get, pages_at_top32] at hk
          split_ifs at hk <;> cases hk <;> exact fresh_page_buffer_eq
        simp only [Option.some_bind, hpage, List.getElem?_replicate]
        rw [if_pos (by omega)]
    refine ⟨memory',
      (MemoryWrite16_eq (2 ^ 32) (Or.inl rfl) pages_at_top32 0xFFFFFFFF 0xbeef
        (by norm_num)).trans hm, hzero 0 (by norm_num; exact hk2) le_rfl, ?_, ?_⟩
    · rw [h1]; rfl
    · intro hc
      obtain ⟨out, hread, _, hout⟩ := mem_read_spec memory' 0xFFFFFFFF 2 hok' (by norm_num)
        (by norm_num) (by norm_num) (fun k hk1' hk2' hk3' => by
          rw [hmap]
          have hk : k = 0xFFFFF000 ∨ k = 0x100000000 := by omega
          rcases hk with rfl | rfl
          · exact hk1
          · exact hk3)
      rw [hread] at hc
      simp only [Option.some.injEq] at hc
      have h2 := hout 1 (by norm_num)
      have hfar : guest_byte memory' (0xFFFFFFFF + ((1 : Nat) : Int)) = some 0 := by
        rw [hfr _ (by norm_num) (by norm_num) (fun i hi => by
          interval_cases i
          · rw [to_long_top32]; norm_num
          · rw [to_long_wrap32]; norm_num)]
        exact hzero _ (by norm_num; exact hk3) (by norm_num)
      rw [hfar, hc] at h2
      revert h2
      decide


/-- Claim C25, amended: the control plane and the execution bridge see the
same bytes, in the 64-bit variant for every access and in the 32-bit variant
for every access whose `w` bytes end at or below `2^32`. On a store of whole
pages, for every width 1, 2, 4, 8, every address `a` of any alignment with the
pages of its `w` bytes mapped and every `v < 2^(8w)`: after `MemoryWriteW(a,
v)` a `mem_read(a, w)` returns the `w` little-endian bytes of `v`,
`MemoryReadW(a)` returns `v`, and every guest byte outside `[a, a + w)`,
every permission word and the set of mapped pages are as before; and after
`mem_write(a, bytes)` of length `w`, `MemoryReadW(a)` returns the little-endian
value of `bytes`. -/
theorem bridge_and_control_plane_agree :
    (sees_same_bytes (2 ^ 64) 1 DynarmicCallbacks64.MemoryRead8
        DynarmicCallbacks64.MemoryWrite8 ∧
      sees_same_bytes (2 ^ 64) 2 DynarmicCallbacks64.MemoryRead16
        DynarmicCallbacks64.MemoryWrite16 ∧
      sees_same_bytes (2 ^ 64) 4 DynarmicCallbacks64.MemoryRead32
        DynarmicCallbacks64.MemoryWrite32 ∧
      sees_same_bytes (2 ^ 64) 8 DynarmicCallbacks64.MemoryRead64
        DynarmicCallbacks64.MemoryWrite64) ∧
    (sees_same_bytes (2 ^ 32) 1 DynarmicCallbacks32.MemoryRead8
        DynarmicCallbacks32.MemoryWrite8 ∧
      sees_same_bytes (2 ^ 32) 2 DynarmicCallbacks32.MemoryRead16
        DynarmicCallbacks32.MemoryWrite16 ∧
      sees_same_bytes (2 ^ 32) 4 DynarmicCallbacks32.MemoryRead32
        DynarmicCallbacks32.MemoryWrite32 ∧
      sees_same_bytes (2 ^ 32) 8 DynarmicCallbacks32.MemoryRead64
        DynarmicCallbacks32.MemoryWrite64) :=
  ⟨⟨sees_same_bytes_of_eq _ (Or.inr rfl) 1 (by norm_num) (by norm_num) _ _
      (fun m a _ => (read_le_one _ m a).symm) (fun m a v _ => (write_le_one _ m a v).symm),
    sees_same_bytes_of_eq _ (Or.inr rfl) 2 (by norm_num) (by norm_num) _ _
      (fun m a ha => MemoryRead16_eq _ (Or.inr rfl) m a ha)
      (fun m a v ha => MemoryWrite16_eq _ (Or.inr rfl) m a v ha),
    sees_same_bytes_of_eq _ (Or.inr rfl) 4 (by norm_num) (by norm_num) _ _
      (fun m a ha => MemoryRead32_eq _ (Or.inr rfl) m a ha)
      (fun m a v ha => MemoryWrite32_eq _ (Or.inr rfl) m a v ha),
    sees_same_bytes_of_eq _ (Or.inr rfl) 8 (by norm_num) (by norm_num) _ _
      (fun m a ha => MemoryRead64_eq _ (Or.inr rfl) m a ha)
      (fun m a v ha => MemoryWrite64_eq _ (Or.inr rfl) m a v ha)⟩,
   ⟨sees_same_bytes_of_eq _ (Or.inl rfl) 1 (by norm_num) (by norm_num) _ _
      (fun m a _ => (read_le_one _ m a).symm) (fun m a v _ => (write_le_one _ m a v).symm),
    sees_same_bytes_of_eq _ (Or.inl rfl) 2 (by norm_num) (by norm_num) _ _
      (fun m a ha => MemoryRead16_eq _ (Or.inl rfl) m a ha)
      (fun m a v ha => MemoryWrite16_eq _ (Or.inl rfl) m a v ha),
    sees_same_bytes_of_eq _ (Or.inl rfl) 4 (by norm_num) (by norm_num) _ _
      (fun m a ha => MemoryRead32_eq _ (Or.inl rfl) m a ha)
      (fun m a v ha => MemoryWrite32_eq _ (Or.inl rfl) m a v ha),
    sees_same_bytes_of_eq _ (Or.inl rfl) 8 (by norm_num) (by norm_num) _ _
      (fun m a ha => MemoryRead64_eq _ (Or.inl rfl) m a ha)
      (fun m a v ha => MemoryWrite64_eq _ (Or.inl rfl) m a v ha)⟩⟩

theorem to_long_0x1001 : to_long 0x1001 = 0x1001 := by
  unfold to_long wrap64; norm_num

/-- Witness for C25: the 2-byte accesses of the 64-bit variant at the odd
address `0x1001` of a mapped page. -/
theorem bridge_and_control_plane_agree_witness :
    (∃ memory' : khash_memory,
      DynarmicCallbacks64.MemoryWrite16 [(0x1000, ⟨fresh_page_buffer, 3⟩)] 0x1001 0xbeef =
        some memory' ∧
      mem_read memory' (to_long 0x1001) (2 : Nat) = some (some (le_bytes 2 0xbeef)) ∧
      DynarmicCallbacks64.MemoryRead16 memory' 0x1001 = some 0xbeef ∧
      (∀ x : Int, -(2 ^ 63) ≤ x → x < 2 ^ 63 →
        ¬ (to_long 0x1001 ≤ x ∧ x < to_long 0x1001 + (2 : Nat)) →
        guest_byte memory' x = guest_byte [(0x1000, ⟨fresh_page_buffer, 3⟩)] x) ∧
      (∀ k : Int, (kh_get memory' k).map (fun page => page.perms) =
        (kh_get [(0x1000, ⟨fresh_page_buffer, 3⟩)] k).map (fun page => page.perms)) ∧
      (∀ k : Int, kh_get memory' k ≠ none ↔
        kh_get [(0x1000, ⟨fresh_page_buffer, 3⟩)] k ≠ none)) ∧
    (∀ bytes : List Byte, bytes.length = 2 →
      ∃ memory' : khash_memory,
        mem_write [(0x1000, ⟨fresh_page_buffer, 3⟩)] (to_long 0x1001) bytes =
          some (0, memory') ∧
        DynarmicCallbacks64.MemoryRead16 memory' 0x1001 = some (le_value bytes)) :=
  bridge_and_control_plane_agree.1.2.1 [(0x1000, ⟨fresh_page_buffer, 3⟩)] 0x1001 0xbeef
    (pages_ok_cons length_fresh_page_buffer pages_ok_nil) (by norm_num) (by norm_num)
    (fun h => absurd h (by norm_num)) (by rw [to_long_0x1001]; norm_num)
    (fun i hi => by
      have hkey : page_key ((0x1001 + i) % 2 ^ 64) = 0x1000 := by
        unfold page_key to_long wrap64
        rw [and_not_PAGE_MASK_eq]
        omega
      rw [hkey]
      simp [kh_get])


/-! ## The invariant of the page store -/

theorem kh_keys_update (memory : khash_memory) (key : Int) (f : memory_page → memory_page) :
    kh_keys (kh_update memory key f) = kh_keys memory := by
  induction memory with
  | nil => rfl
  | cons e rest ih =>
    obtain ⟨k0, p0⟩ := e
    unfold kh_keys at ih ⊢
    by_cases h0 : k0 = key
    · simp [kh_update, h0]
    · simp [kh_update, h0, ih]

theorem kh_get_eq_none_iff (memory : khash_memory) (key : Int) :
    kh_get memory key = none ↔ key ∉ kh_keys memory := by
  induction memory with
  | nil => simp [kh_get, kh_keys]
  | cons e rest ih =>
    obtain ⟨k0, p0⟩ := e
    unfold kh_keys at ih ⊢
    by_cases h0 : k0 = key
    · simp [kh_get, h0]
    · have h1 : ¬ key = k0 := fun h => h0 h.symm
      simp [kh_get, h0, h1, ih]

theorem store_inv_nil : store_inv [] :=
  ⟨fun k hk => (by cases hk), List.nodup_nil, pages_ok_nil⟩

theorem store_inv_put_value {memory : khash_memory} (h : store_inv memory) (key : Int)
    (page : memory_page) (hkey : key % 4096 = 0) (habsent : kh_get memory key = none)
    (hpage : page.addr.length = 4096) : store_inv (kh_put_value memory key page) := by
  obtain ⟨h1, h2, h3⟩ := h
  unfold kh_put_value
  rw [habsent]
  refine ⟨?_, ?_, pages_ok_cons hpage h3⟩
  · intro k hk
    unfold kh_keys at hk
    rw [List.map_cons, List.mem_cons] at hk
    rcases hk with rfl | hk
    · exact hkey
    · exact h1 k hk
  · unfold kh_keys
    rw [List.map_cons, List.nodup_cons]
    exact ⟨(kh_get_eq_none_iff memory key).mp habsent, h2⟩

theorem store_inv_del {memory : khash_memory} (h : store_inv memory) (key : Int) :
    store_inv (kh_del memory key) := by
  obtain ⟨h1, h2, h3⟩ := h
  have hsub : (kh_keys (kh_del memory key)).Sublist (kh_keys memory) := by
    unfold kh_keys kh_del
    exact List.Sublist.map _ (List.filter_sublist _)
  refine ⟨fun k hk => h1 k (hsub.subset hk), h2.sublist hsub, ?_⟩
  intro e he
  unfold kh_del at he
  exact h3 e (List.mem_of_mem_filter he)

theorem store_inv_update {memory : khash_memory} (h : store_inv memory) (key : Int)
    (f : memory_page → memory_page)
    (hf : ∀ page, kh_get memory key = some page → (f page).addr.length = 4096) :
    store_inv (kh_update memory key f) := by
  obtain ⟨h1, h2, h3⟩ := h
  refine ⟨?_, ?_, pages_ok_update h3 key f hf⟩
  · rw [kh_keys_update]; exact h1
  · rw [kh_keys_update]; exact h2

theorem store_inv_of_keys {memory memory' : khash_memory} (h : store_inv memory)
    (hkeys : kh_keys memory' = kh_keys memory) (hok : pages_ok memory') : store_inv memory' := by
  obtain ⟨h1, h2, _⟩ := h
  refine ⟨?_, ?_, hok⟩
  · rw [hkeys]; exact h1
  · rw [hkeys]; exact h2

theorem wrap64_page_step (v : Int) (h : v % 4096 = 0) : wrap64 (v + PAGE_SIZE) % 4096 = 0 := by
  rw [PAGE_SIZE_eq]
  unfold wrap64
  omega

theorem mem_map_loop_inv (mmap_ok : Int → Bool) (perms vaddr_end : Int) (fuel : Nat) :
    ∀ (memory : khash_memory) (vaddr : Int) (r : Int × khash_memory),
      store_inv memory → vaddr % 4096 = 0 →
      mem_map_loop mmap_ok perms vaddr_end fuel memory vaddr = some r → store_inv r.2 := by
  induction fuel with
  | zero => intro memory vaddr r _ _ h; simp [mem_map_loop] at h
  | succ fuel ih =>
    intro memory vaddr r hinv hv h
    rw [mem_map_loop] at h
    split_ifs at h with h1 h2 h3
    · cases h; exact hinv
    · cases h; exact hinv
    · apply ih _ _ r _ (wrap64_page_step vaddr hv) h
      apply store_inv_put_value hinv vaddr _ hv _ length_fresh_page_buffer
      cases hk : kh_get memory vaddr with
      | none => rfl
      | some p => rw [hk] at h2; simp at h2
    · cases h; exact hinv

theorem mem_unmap_loop_inv (vaddr_end : Int) (fuel : Nat) :
    ∀ (memory : khash_memory) (vaddr : Int) (r : Int × khash_memory),
      store_inv memory →
      mem_unmap_loop vaddr_end fuel memory vaddr = some r → store_inv r.2 := by
  induction fuel with
  | zero => intro memory vaddr r _ h; simp [mem_unmap_loop] at h
  | succ fuel ih =>
    intro memory vaddr r hinv h
    rw [mem_unmap_loop] at h
    split_ifs at h with h1
    · cases hk : kh_get memory vaddr with
      | none => rw [hk] at h; cases h; exact hinv
      | some p =>
        rw [hk] at h
        exact ih _ _ r (store_inv_del hinv vaddr) h
    · cases h; exact hinv

theorem mem_protect_loop_inv (perms vaddr_end : Int) (fuel : Nat) :
    ∀ (memory : khash_memory) (vaddr : Int) (r : Int × khash_memory),
      store_inv memory →
      mem_protect_loop perms vaddr_end fuel memory vaddr = some r → store_inv r.2 := by
  induction fuel with
  | zero => intro memory vaddr r _ h; simp [mem_protect_loop] at h
  | succ fuel ih =>
    intro memory vaddr r hinv h
    rw [mem_protect_loop] at h
    split_ifs at h with h1
    · cases hk : kh_get memory vaddr with
      | none => rw [hk] at h; cases h; exact hinv
      | some p =>
        rw [hk] at h
        refine ih _ _ r (store_inv_update hinv vaddr _ ?_) h
        intro page hpage
        show page.addr.length = 4096
        exact pages_ok_get hinv.2.2 hpage
    · cases h; exact hinv

theorem mem_write_loop_keys (address vaddr_end : Int) (fuel : Nat) :
    ∀ (memory : khash_memory) (vaddr : Int) (src : List Byte) (r : Int × khash_memory),
      mem_write_loop address vaddr_end fuel memory vaddr src = some r →
      kh_keys r.2 = kh_keys memory := by
  induction fuel with
  | zero => intro memory vaddr src r h; simp [mem_write_loop] at h
  | succ fuel ih =>
    intro memory vaddr src r h
    rw [mem_write_loop] at h
    by_cases h1 : vaddr < vaddr_end
    · rw [if_pos h1] at h
      dsimp only at h
      cases hk : kh_get memory vaddr with
      | none => simp only [hk] at h; cases h; rfl
      | some p =>
        simp only [hk] at h
        rw [ih _ _ _ r h, kh_keys_update]
    · rw [if_neg h1] at h; cases h; rfl

theorem kh_keys_store_at {memory memory' : khash_memory} {a w value : Nat}
    (h : store_at memory a w value = some memory') : kh_keys memory' = kh_keys memory := by
  unfold store_at at h
  cases hk : kh_get memory (page_key a) with
  | none => rw [hk] at h; simp at h
  | some page =>
    rw [hk] at h
    simp only [Option.some.injEq] at h
    rw [← h, kh_keys_update]

theorem kh_keys_write_le (M : Nat) (w : Nat) :
    ∀ (memory memory' : khash_memory) (a value : Nat),
      write_le M w memory a value = some memory' → kh_keys memory' = kh_keys memory := by
  induction w with
  | zero =>
    intro memory memory' a value h
    simp only [write_le, Option.some.injEq] at h
    rw [h]
  | succ w ih =>
    intro memory memory' a value h
    simp only [write_le, MemoryWrite8_eq] at h
    cases h1 : store_at memory a 1 (value % 256) with
    | none => rw [h1] at h; simp at h
    | some memory1 =>
      rw [h1] at h
      simp only [Option.some_bind] at h
      rw [ih memory1 memory' _ _ h, kh_keys_store_at h1]

theorem store_inv_write_le (M : Nat) (hM : M = 2 ^ 32 ∨ M = 2 ^ 64) (w : Nat)
    {memory memory' : khash_memory} {a value : Nat} (hinv : store_inv memory) (ha : a < M)
    (h : write_le M w memory a value = some memory') : store_inv memory' :=
  store_inv_of_keys hinv (kh_keys_write_le M w memory memory' a value h)
    (write_le_frame M hM w memory memory' a value hinv.2.2 ha h).1

theorem accessor_write_eq (is64Bit : Bool) (w : access_width) (memory : khash_memory)
    (a value : Nat) (ha : a < (if is64Bit then 2 ^ 64 else 2 ^ 32)) :
    ∃ n : Nat, accessor_write is64Bit w memory a value =
      write_le (if is64Bit then 2 ^ 64 else 2 ^ 32) n memory a value := by
  cases is64Bit <;> cases w
  · exact ⟨1, (write_le_one _ memory a value).symm⟩
  · exact ⟨2, MemoryWrite16_eq _ (Or.inl rfl) memory a value ha⟩
  · exact ⟨4, MemoryWrite32_eq _ (Or.inl rfl) memory a value ha⟩
  · exact ⟨8, MemoryWrite64_eq _ (Or.inl rfl) memory a value ha⟩
  · exact ⟨1, (write_le_one _ memory a value).symm⟩
  · exact ⟨2, MemoryWrite16_eq _ (Or.inr rfl) memory a value ha⟩
  · exact ⟨4, MemoryWrite32_eq _ (Or.inr rfl) memory a value ha⟩
  · exact ⟨8, MemoryWrite64_eq _ (Or.inr rfl) memory a value ha⟩

theorem store_inv_accessor_write (is64Bit : Bool) (w : access_width)
    {memory memory' : khash_memory} {a value : Nat} (hinv : store_inv memory)
    (ha : a < (if is64Bit then 2 ^ 64 else 2 ^ 32))
    (h : accessor_write is64Bit w memory a value = some memory') : store_inv memory' := by
  obtain ⟨n, hn⟩ := accessor_write_eq is64Bit w memory a value ha
  rw [hn] at h
  refine store_inv_write_le _ ?_ n hinv ha h
  cases is64Bit
  · exact Or.inl rfl
  · exact Or.inr rfl

theorem bind_pair_map_fst (o : Option khash_memory) :
    (o.bind fun memory1 => some (memory1, true)).map (fun r => r.1) = o := by
  cases o <;> rfl

theorem accessor_write_exclusive_eq (is64Bit : Bool) (w : access_width)
    (memory : khash_memory) (a value expected : Nat) :
    (accessor_write_exclusive is64Bit w memory a value expected).map (fun r => r.1) = none ∨
    (accessor_write_exclusive is64Bit w memory a value expected).map (fun r => r.1) =
      accessor_write is64Bit w memory a value := by
  cases is64Bit <;> cases w
  · left; rfl
  · right; exact bind_pair_map_fst (UserCallbacks.MemoryWrite16 (2 ^ 32) memory a value)
  · right; exact bind_pair_map_fst (UserCallbacks.MemoryWrite32 (2 ^ 32) memory a value)
  · right; exact bind_pair_map_fst (UserCallbacks.MemoryWrite64 (2 ^ 32) memory a value)
  · left; rfl
  · right; exact bind_pair_map_fst (UserCallbacks.MemoryWrite16 (2 ^ 64) memory a value)
  · right; exact bind_pair_map_fst (UserCallbacks.MemoryWrite32 (2 ^ 64) memory a value)
  · right; exact bind_pair_map_fst (UserCallbacks.MemoryWrite64 (2 ^ 64) memory a value)

/-- Every operation keeps the invariant of the page store. -/
theorem apply_op_inv {memory memory' : khash_memory} (op : store_op)
    (hinv : store_inv memory) (hrange : op_in_range op)
    (h : apply_op memory op = some memory') : store_inv memory' := by
  cases op with
  | mem_map mmap_ok address size perms =>
    simp only [apply_op, Option.map_eq_some'] at h
    obtain ⟨r, hr, rfl⟩ := h
    unfold mem_map at hr
    split_ifs at hr with h1 h2
    · cases hr; exact hinv
    · cases hr; exact hinv
    · refine mem_map_loop_inv mmap_ok perms _ _ memory address r hinv ?_ hr
      rw [and_PAGE_MASK_eq] at h1
      omega
  | mem_unmap address size =>
    simp only [apply_op, Option.map_eq_some'] at h
    obtain ⟨r, hr, rfl⟩ := h
    unfold mem_unmap at hr
    split_ifs at hr with h1 h2
    · cases hr; exact hinv
    · cases hr; exact hinv
    · exact mem_unmap_loop_inv _ _ memory address r hinv hr
  | mem_protect address size perms =>
    simp only [apply_op, Option.map_eq_some'] at h
    obtain ⟨r, hr, rfl⟩ := h
    unfold mem_protect at hr
    split_ifs at hr with h1 h2
    · cases hr; exact hinv
    · cases hr; exact hinv
    · exact mem_protect_loop_inv perms _ _ memory address r hinv hr
  | mem_write address bytes =>
    simp only [apply_op, Option.map_eq_some'] at h
    obtain ⟨r, hr, rfl⟩ := h
    obtain ⟨hlo, hhi⟩ := hrange
    obtain ⟨code, m1, hrun, hok1, _⟩ := mem_write_spec memory address bytes hinv.2.2 hlo hhi
    have hkeys := mem_write_loop_keys address _ _ memory _ bytes r hr
    rw [hrun] at hr
    cases hr
    exact store_inv_of_keys hinv hkeys hok1
  | mem_read address size =>
    simp only [apply_op, Option.map_eq_some'] at h
    obtain ⟨_, _, rfl⟩ := h
    exact hinv
  | MemoryRead is64Bit w vaddr =>
    simp only [apply_op, Option.map_eq_some'] at h
    obtain ⟨_, _, rfl⟩ := h
    exact hinv
  | MemoryRead128 vaddr =>
    simp only [apply_op, Option.map_eq_some'] at h
    obtain ⟨_, _, rfl⟩ := h
    exact hinv
  | MemoryWrite is64Bit w vaddr value =>
    exact store_inv_accessor_write is64Bit w hinv hrange h
  | MemoryWrite128 vaddr value =>
    have hr : vaddr < 2 ^ 64 := hrange
    simp only [apply_op, DynarmicCallbacks64.MemoryWrite128] at h
    cases h1 : DynarmicCallbacks64.MemoryWrite64 memory vaddr value.1 with
    | none => rw [h1] at h; simp at h
    | some m1 =>
      rw [h1] at h
      simp only [Option.some_bind] at h
      have hinv1 := store_inv_accessor_write true .w64 hinv hr h1
      exact store_inv_accessor_write true .w64 hinv1 (Nat.mod_lt _ (by norm_num)) h
  | MemoryWriteExclusive is64Bit w vaddr value expected =>
    simp only [apply_op] at h
    rcases accessor_write_exclusive_eq is64Bit w memory vaddr value expected with h0 | h0
    · rw [h0] at h; cases h
    · rw [h0] at h
      exact store_inv_accessor_write is64Bit w hinv hrange h

theorem run_ops_inv (ops : List store_op) :
    ∀ (memory memory' : khash_memory), store_inv memory → (∀ op ∈ ops, op_in_range op) →
      run_ops memory ops = some memory' → store_inv memory' := by
  induction ops with
  | nil =>
    intro memory memory' hinv _ h
    simp only [run_ops, Option.some.injEq] at h
    rw [← h]; exact hinv
  | cons op ops ih =>
    intro memory memory' hinv hrange h
    simp only [run_ops] at h
    cases h1 : apply_op memory op with
    | none => rw [h1] at h; simp at h
    | some m1 =>
      rw [h1] at h
      simp only [Option.some_bind] at h
      exact ih m1 memory' (apply_op_inv op hinv (hrange op (List.mem_cons_self _ _)) h1)
        (fun o ho => hrange o (List.mem_cons_of_mem _ ho)) h

/-- Claim C24: the invariant of the page store. Starting from the empty store
that `nativeInitialize` makes, after any sequence of `mem_map`, `mem_unmap`,
`mem_protect`, `mem_write`, `mem_read` and accessor reads and writes, whatever
their arguments and their return codes, every key of the page store is a
multiple of 4096, no key has two pages, and every page holds exactly 4096
bytes. -/
theorem page_store_invariant (is64Bit : Bool) (ops : List store_op) (memory : khash_memory)
    (hrange : ∀ op ∈ ops, op_in_range op)
    (hrun : run_ops (nativeInitialize is64Bit).fields.memory ops = some memory) :
    (nativeInitialize is64Bit).fields.memory = [] ∧
    (∀ k ∈ kh_keys memory, k % 4096 = 0) ∧
    (kh_keys memory).Nodup ∧
    (∀ e ∈ memory, e.2.addr.length = 4096) := by
  have h0 : (nativeInitialize is64Bit).fields.memory = [] := by
    cases is64Bit <;> rfl
  rw [h0] at hrun
  exact ⟨h0, run_ops_inv ops [] memory store_inv_nil hrange hrun⟩

/-- Witness for C24: two pages mapped, the first unmapped, the second made
read-only and read, in a session of the 64-bit variant. -/
theorem page_store_invariant_witness :
    (nativeInitialize true).fields.memory = [] ∧
    (∀ k ∈ kh_keys [(0x2000, ⟨fresh_page_buffer, 1⟩)], k % 4096 = 0) ∧
    (kh_keys [(0x2000, ⟨fresh_page_buffer, 1⟩)]).Nodup ∧
    (∀ e ∈ [((0x2000 : Int), (⟨fresh_page_buffer, 1⟩ : memory_page))],
      e.2.addr.length = 4096) :=
  page_store_invariant true
    [.mem_map (fun _ => true) 0x1000 0x2000 3, .mem_unmap 0x1000 0x1000,
     .mem_protect 0x2000 0x1000 1, .MemoryRead true .w8 0x2000]
    [(0x2000, ⟨fresh_page_buffer, 1⟩)]
    (fun op hop => by
      simp only [List.mem_cons, List.mem_singleton, List.not_mem_nil, or_false] at hop
      rcases hop with rfl | rfl | rfl | rfl <;> trivial)
    rfl


end Unidbg
